import Mathlib

/-!
Verification of the CSP backtracking engine of `ch5_dev/csp`.

This file gives a shallow embedding of the Python sources
`src/ch5_dev/csp/csp_core.py`,
`src/ch5_dev/csp/algorithms/backtracking.py`,
`src/ch5_dev/csp/algorithms/heuristic_backtracking.py` and
`src/ch5_dev/csp/algorithms/inference_backtracking.py`,
and proves the testable properties of the specification against it.

Modelling conventions:
* Variables and values are `Nat` (the Python sources use hashable keys with a
  deterministic total order given by `str`; the `Nat` order is the shadow of
  that order).
* Python `dict` assignments are association lists consulted front-to-back, so
  prepending a pair shadows an older binding exactly like a `dict` update.
* Python `set` domains in `csp.domains` are lists with a fixed enumeration
  order (the shadow of the set's iteration order); the working domains of the
  inference solver are `Finset Nat`, iterated in sorted order.
* Python recursion is modelled with an explicit fuel argument; the entry
  points pass `csp.vars.length`, which is exactly the recursion depth the
  Python solvers can reach (each recursive call assigns one fresh variable,
  and a complete assignment returns before any further call).
-/

namespace CSP

/-- A partial assignment: Python's `Dict[Variable, Value]`.  The list is
consulted front to back, so the head binding wins, mirroring dict update. -/
abbrev Assign := List (Nat × Nat)

/-- Lookup of a variable in an assignment (Python `assignment[var]` /
`var in assignment`). -/
def alookup (a : Assign) (v : Nat) : Option Nat :=
  match a with
  | [] => none
  | (k, x) :: rest => if k = v then some x else alookup rest v

/-- The relation of a constraint, `csp_core.py` lines 20-21: either an
explicit set of permitted value tuples or a predicate over the scope values
in order. -/
inductive Relation where
  | explicitRel : List (List Nat) → Relation
  | predRel : (List Nat → Bool) → Relation

/-- Evaluate a relation on the tuple of scope values
(`Constraint.is_satisfied`, `csp_core.py` lines 61-67). -/
def relationHolds : Relation → List Nat → Bool
  | Relation.explicitRel tuples, vals => decide (vals ∈ tuples)
  | Relation.predRel p, vals => p vals

/-- A constraint `c = <S, R>` (`csp_core.py` class `Constraint`). -/
structure ConstraintC where
  scope : List Nat
  relation : Relation

/-- `Constraint.is_satisfied` (`csp_core.py` lines 43-67): vacuously true if
any scope variable is unassigned, otherwise the relation applied to the scope
values in scope order. -/
def isSatisfiedC (c : ConstraintC) (a : Assign) : Bool :=
  if c.scope.any (fun v => (alookup a v).isNone) then true
  else relationHolds c.relation (c.scope.map (fun v => (alookup a v).getD 0))

/-- The CSP model (`csp_core.py` class `CSP`): variable set, domain map,
constraint list. -/
structure CSPModel where
  vars : List Nat
  domains : Nat → List Nat
  constraints : List ConstraintC

/-- `CSP.is_consistent` (`csp_core.py` lines 120-141): extend the assignment
with `var := value` and check every constraint whose scope contains `var`;
other constraints are skipped. -/
def isConsistent (csp : CSPModel) (var value : Nat) (a : Assign) : Bool :=
  csp.constraints.all (fun c =>
    if var ∈ c.scope then isSatisfiedC c ((var, value) :: a) else true)

/-- `CSP.is_complete` (`csp_core.py` lines 143-153): size comparison. -/
def isComplete (csp : CSPModel) (a : Assign) : Bool :=
  a.length = csp.vars.length

/-- `CSP.is_solution` (`csp_core.py` lines 155-172): the assignment is
complete and satisfies every constraint. -/
def isSolution (csp : CSPModel) (a : Assign) : Bool :=
  if ¬ isComplete csp a then false
  else csp.constraints.all (fun c => isSatisfiedC c a)

/-- Well-formedness guaranteed by the Python constructors: `CSP.variables` is
a set (no duplicates), `add_constraint` rejects scopes mentioning unknown
variables, `Constraint.__init__` rejects empty scopes, and every
`csp.domains[v]` is a set (no duplicated values). -/
def WF (csp : CSPModel) : Prop :=
  csp.vars.Nodup ∧
  (∀ c ∈ csp.constraints, c.scope ≠ [] ∧ ∀ v ∈ c.scope, v ∈ csp.vars) ∧
  (∀ v ∈ csp.vars, (csp.domains v).Nodup)

instance (csp : CSPModel) : Decidable (WF csp) := by
  unfold WF; infer_instance

/-! ## The plain backtracking solver (`backtracking.py`) -/

/-- `_select_unassigned_variable` (`backtracking.py` lines 78-93): first
unassigned variable in the fixed variable order. -/
def selectUnassignedVariable (csp : CSPModel) (a : Assign) : Option Nat :=
  csp.vars.find? (fun v => (alookup a v).isNone)

/-- The value loop shared by `_recursive_backtrack` (`backtracking.py` lines
57-73) and the heuristic variant (`heuristic_backtracking.py` lines 112-118):
try each value in order; if it is consistent, assign it and run the
continuation `rec`; propagate the first success, undo and continue otherwise.
The continuation is the recursive call one level deeper. -/
def btTryValues (csp : CSPModel) (rec : Assign → Option Assign)
    (a : Assign) (var : Nat) : List Nat → Option Assign
  | [] => none
  | value :: rest =>
    if isConsistent csp var value a then
      match rec ((var, value) :: a) with
      | some r => some r
      | none => btTryValues csp rec a var rest
    else btTryValues csp rec a var rest

/-- `_recursive_backtrack` (`backtracking.py` lines 36-75), with explicit
fuel standing for the call stack. -/
def recursiveBacktrack (csp : CSPModel) : Nat → Assign → Option Assign
  | fuel, a =>
    if isComplete csp a then some a
    else
      match fuel with
      | 0 => none
      | Nat.succ f =>
        match selectUnassignedVariable csp a with
        | none => none
        | some var =>
          btTryValues csp (recursiveBacktrack csp f) a var (csp.domains var)

/-- `backtracking_search` (`backtracking.py` lines 21-33). -/
def backtrackingSearch (csp : CSPModel) : Option Assign :=
  recursiveBacktrack csp csp.vars.length []

/-! ## The heuristic backtracking solver (`heuristic_backtracking.py`) -/

/-- `_build_neighbors` (`heuristic_backtracking.py` lines 220-227, identical
in `inference_backtracking.py` lines 51-58): the variables sharing at least
one constraint with `v`. -/
def neighborsOf (csp : CSPModel) (v : Nat) : List Nat :=
  ((csp.constraints.filter (fun c => v ∈ c.scope)).flatMap
    (fun c => c.scope.filter (fun u => u ≠ v))).dedup

/-- `_get_legal_values` (`heuristic_backtracking.py` lines 200-209). -/
def getLegalValues (csp : CSPModel) (var : Nat) (a : Assign) : List Nat :=
  (csp.domains var).filter (fun value => isConsistent csp var value a)

/-- `_count_unassigned_neighbors` (`heuristic_backtracking.py` lines
212-217). -/
def countUnassignedNeighbors (csp : CSPModel) (var : Nat) (a : Assign) : Nat :=
  ((neighborsOf csp var).filter (fun n => (alookup a n).isNone)).length

/-- One candidate row built by `_select_unassigned_variable`
(`heuristic_backtracking.py` line 137): variable, legal values, legal value
count, and unassigned-neighbor degree. -/
structure HCand where
  var : Nat
  legal : List Nat
  count : Nat
  degree : Nat

/-- The candidate list of `_select_unassigned_variable`
(`heuristic_backtracking.py` lines 131-137). -/
def hCandidates (csp : CSPModel) (a : Assign) : List HCand :=
  csp.vars.filterMap (fun v =>
    if (alookup a v).isSome then none
    else
      let legal := getLegalValues csp v a
      some ⟨v, legal, legal.length, countUnassignedNeighbors csp v a⟩)

/-- Comparator of the final tie-break sort
(`heuristic_backtracking.py` line 150): Python sorts by `str(var)`; the `Nat`
order on the variable is its shadow (any deterministic total order on
variable identity). -/
def hCandLe (c c' : HCand) : Prop := c.var ≤ c'.var

instance : DecidableRel hCandLe := fun c c' => by
  unfold hCandLe; infer_instance

/-- Python's `max` over a (non-empty) list of naturals. -/
def pyMax (l : List Nat) : Nat := l.foldr max 0

/-- Python's `min` over a (non-empty) list of naturals. -/
def pyMin : List Nat → Nat
  | [] => 0
  | x :: xs => xs.foldr min x

/-- The Degree filter of `_select_unassigned_variable`
(`heuristic_backtracking.py` lines 143-145): keep the candidates of maximum
unassigned-neighbour degree. -/
def hFilterDegree (cands : List HCand) (useDegree : Bool) : List HCand :=
  if useDegree then cands.filter (fun c => c.degree = pyMax (cands.map HCand.degree))
  else cands

/-- The MRV filter of `_select_unassigned_variable`
(`heuristic_backtracking.py` lines 146-148): keep the candidates of minimum
legal-value count. -/
def hFilterMrv (cands : List HCand) (useMrv : Bool) : List HCand :=
  if useMrv then cands.filter (fun c => c.count = pyMin (cands.map HCand.count))
  else cands

/-- `_select_unassigned_variable` (`heuristic_backtracking.py` lines
123-152): Degree filter (if enabled), then MRV filter over the survivors (if
enabled), then a stable sort by variable identity; the head is selected. -/
def hSelectUnassignedVariable (csp : CSPModel) (a : Assign)
    (useMrv useDegree : Bool) : Option Nat × List Nat :=
  match hCandidates csp a with
  | [] => (none, [])
  | c0 :: cs =>
    match (hFilterMrv (hFilterDegree (c0 :: cs) useDegree) useMrv).insertionSort hCandLe with
    | [] => (none, [])
    | best :: _ => (some best.var, best.legal)

/-- `_count_value_impact` (`heuristic_backtracking.py` lines 177-197):
tentatively assign `var := value` and sum, over each unassigned neighbour,
the size of its domain minus its number of consistent values. -/
def countValueImpact (csp : CSPModel) (var value : Nat) (a : Assign) : Nat :=
  ((neighborsOf csp var).filter (fun n => (alookup a n).isNone)).foldr
    (fun n acc =>
      (csp.domains n).length -
        ((csp.domains n).filter
          (fun nv => isConsistent csp n nv ((var, value) :: a))).length + acc)
    0

/-- Comparator of the LCV sort (`heuristic_backtracking.py` line 173):
Python sorts the `(impact, value)` pairs lexicographically. -/
def lcvLe (p p' : Nat × Nat) : Prop :=
  p.1 < p'.1 ∨ (p.1 = p'.1 ∧ p.2 ≤ p'.2)

instance : DecidableRel lcvLe := fun p p' => by
  unfold lcvLe; infer_instance

/-- `_order_domain_values` (`heuristic_backtracking.py` lines 155-174). -/
def orderDomainValues (csp : CSPModel) (var : Nat) (legalValues : List Nat)
    (a : Assign) (useLcv : Bool) : List Nat :=
  if ¬ useLcv then legalValues
  else
    ((legalValues.map (fun value => (countValueImpact csp var value a, value))).insertionSort
      lcvLe).map Prod.snd

/-- `_recursive_backtrack` (`heuristic_backtracking.py` lines 83-120), with
explicit fuel for the call stack. -/
def hRecursiveBacktrack (csp : CSPModel) (useMrv useDegree useLcv : Bool) :
    Nat → Assign → Option Assign
  | fuel, a =>
    if isComplete csp a then some a
    else
      match fuel with
      | 0 => none
      | Nat.succ f =>
        match hSelectUnassignedVariable csp a useMrv useDegree with
        | (none, _) => none
        | (some var, legalValues) =>
          if legalValues = [] then none
          else
            btTryValues csp (hRecursiveBacktrack csp useMrv useDegree useLcv f) a var
              (orderDomainValues csp var legalValues a useLcv)

/-- `heuristic_backtracking_search` (`heuristic_backtracking.py` lines
22-39). -/
def heuristicBacktrackingSearch (csp : CSPModel)
    (useMrv useDegree useLcv : Bool) : Option Assign :=
  hRecursiveBacktrack csp useMrv useDegree useLcv csp.vars.length []

/-! ## The inference solver's working domains (`inference_backtracking.py`)

`self.current_domains` is a dict from variables to mutable value sets; it is
modelled as an association list from variables to `Finset Nat`, updated in
place.  Pruning a value from a variable missing from the dict would raise a
`KeyError` in Python (it never happens, since `_prepare` seeds every
variable); the total shadow functions treat a missing key as the empty set
and make the write a no-op. -/

/-- The working domain map `current_domains`. -/
abbrev Doms := List (Nat × Finset Nat)

/-- The removal trail shared by all inference techniques. -/
abbrev Removals := List (Nat × Nat)

/-- Read `current_domains[v]` (empty set if the key is absent). -/
def dget (d : Doms) (v : Nat) : Finset Nat :=
  match d with
  | [] => ∅
  | (k, s) :: rest => if k = v then s else dget rest v

/-- Write `current_domains[v] = s` in place (no-op if the key is absent). -/
def dupdate : Doms → Nat → Finset Nat → Doms
  | [], _, _ => []
  | (k, s) :: rest, v, s' => if k = v then (k, s') :: rest else (k, s) :: dupdate rest v s'

/-- `v in current_domains`. -/
def dmem : Doms → Nat → Bool
  | [], _ => false
  | (k, _) :: rest, v => k = v || dmem rest v

/-- Total number of values across all working domains; the termination
measure of the propagation loops. -/
def totalSize (d : Doms) : Nat :=
  (d.map (fun p => p.2.card)).sum

/-- `_prune` (`inference_backtracking.py` lines 348-355): remove a value from
a working domain if still present and record the removal on the trail. -/
def prune (d : Doms) (var value : Nat) (rs : Removals) : Doms × Removals × Bool :=
  if value ∈ dget d var then
    (dupdate d var ((dget d var).erase value), rs ++ [(var, value)], true)
  else (d, rs, false)

/-- `_restore` (`inference_backtracking.py` lines 215-217): replay the
removal trail in reverse, adding each value back. -/
def drestore (rs : Removals) (d : Doms) : Doms :=
  rs.foldr (fun p d => dupdate d p.1 (insert p.2 (dget d p.1))) d

/-- Iterate a working domain (`list(self.current_domains[v])`); the sorted
enumeration is the deterministic shadow of the Python set's iteration order.
(Implemented with `insertionSort` so that it evaluates by kernel
reduction.) -/
def msortl (s : Multiset Nat) : List Nat :=
  Quot.liftOn s (fun l => l.insertionSort (· ≤ ·)) (fun l₁ l₂ h => by
    have hs₁ : List.Sorted (· ≤ ·) (l₁.insertionSort (· ≤ ·)) :=
      List.sorted_insertionSort (· ≤ ·) l₁
    have hs₂ : List.Sorted (· ≤ ·) (l₂.insertionSort (· ≤ ·)) :=
      List.sorted_insertionSort (· ≤ ·) l₂
    have hp : List.Perm (l₁.insertionSort (· ≤ ·)) (l₂.insertionSort (· ≤ ·)) :=
      (l₁.perm_insertionSort (· ≤ ·)).trans
        ((Quotient.exact (Quot.sound h)).trans (l₂.perm_insertionSort (· ≤ ·)).symm)
    exact List.eq_of_perm_of_sorted hp hs₁ hs₂)

/-- Iterate a working domain (`list(self.current_domains[v])`), see above. -/
def fiter (s : Finset Nat) : List Nat := msortl s.val

lemma msortl_coe (l : List Nat) : msortl (l : Multiset Nat) = l.insertionSort (· ≤ ·) := rfl

lemma fiter_perm (s : Finset Nat) : (fiter s : Multiset Nat) = s.val := by
  rcases s with ⟨val, nodup⟩
  induction val using Quotient.inductionOn with
  | h l =>
    show ((msortl (l : Multiset Nat) : List Nat) : Multiset Nat) = (l : Multiset Nat)
    rw [msortl_coe]
    exact Multiset.coe_eq_coe.mpr (l.perm_insertionSort (· ≤ ·))

lemma mem_fiter {s : Finset Nat} {x : Nat} : x ∈ fiter s ↔ x ∈ s := by
  have h := fiter_perm s
  constructor
  · intro hx
    have : x ∈ (fiter s : Multiset Nat) := by simpa using hx
    rw [h] at this
    exact this
  · intro hx
    have : x ∈ (s.val : Multiset Nat) := hx
    rw [← h] at this
    simpa using this

lemma fiter_nodup (s : Finset Nat) : (fiter s).Nodup := by
  have h := fiter_perm s
  have := s.nodup
  rw [← h] at this
  simpa using this

lemma fiter_empty_iff {s : Finset Nat} : fiter s = [] ↔ s = ∅ := by
  constructor
  · intro h
    ext x
    simp only [Finset.not_mem_empty, iff_false]
    intro hx
    rw [← mem_fiter] at hx
    rw [h] at hx
    exact absurd hx (List.not_mem_nil x)
  · intro h
    subst h
    rfl

lemma dget_cons_self {k : Nat} {s : Finset Nat} {rest : Doms} :
    dget ((k, s) :: rest) k = s := by
  simp [dget]

lemma dget_cons_ne {k v : Nat} {s : Finset Nat} {rest : Doms} (h : k ≠ v) :
    dget ((k, s) :: rest) v = dget rest v := by
  simp [dget, h]

lemma dupdate_cons_self {k : Nat} {s s' : Finset Nat} {rest : Doms} :
    dupdate ((k, s) :: rest) k s' = (k, s') :: rest := by
  simp [dupdate]

lemma dupdate_cons_ne {k v : Nat} {s s' : Finset Nat} {rest : Doms} (h : k ≠ v) :
    dupdate ((k, s) :: rest) v s' = (k, s) :: dupdate rest v s' := by
  simp [dupdate, h]

lemma dget_dupdate_ne (d : Doms) (v w : Nat) (s : Finset Nat) (h : v ≠ w) :
    dget (dupdate d v s) w = dget d w := by
  induction d with
  | nil => simp [dupdate]
  | cons p rest ih =>
    obtain ⟨k, s₀⟩ := p
    by_cases hk : k = v
    · subst hk
      rw [dupdate_cons_self, dget_cons_ne h, dget_cons_ne h]
    · rw [dupdate_cons_ne hk]
      by_cases hw : k = w
      · subst hw
        rw [dget_cons_self, dget_cons_self]
      · rw [dget_cons_ne hw, dget_cons_ne hw, ih]

lemma totalSize_cons (k : Nat) (s : Finset Nat) (rest : Doms) :
    totalSize ((k, s) :: rest) = s.card + totalSize rest := by
  simp [totalSize]

lemma totalSize_dupdate_erase {d : Doms} {v x : Nat} (h : x ∈ dget d v) :
    totalSize (dupdate d v ((dget d v).erase x)) < totalSize d := by
  induction d with
  | nil => simp [dget] at h
  | cons p rest ih =>
    obtain ⟨k, s₀⟩ := p
    by_cases hk : k = v
    · subst hk
      rw [dget_cons_self] at h ⊢
      rw [dupdate_cons_self, totalSize_cons, totalSize_cons]
      have hcard : (s₀.erase x).card < s₀.card := Finset.card_erase_lt_of_mem h
      omega
    · rw [dget_cons_ne hk] at h ⊢
      rw [dupdate_cons_ne hk, totalSize_cons, totalSize_cons]
      have := ih h
      omega

lemma prune_true {d : Doms} {v x : Nat} {rs : Removals} {d' : Doms} {rs' : Removals}
    (h : prune d v x rs = (d', rs', true)) :
    x ∈ dget d v ∧ d' = dupdate d v ((dget d v).erase x) ∧ rs' = rs ++ [(v, x)] := by
  by_cases hx : x ∈ dget d v
  · refine ⟨hx, ?_, ?_⟩ <;> · simp [prune, hx] at h; simp [h.1.symm, h.2.symm]
  · simp [prune, hx] at h

lemma prune_false {d : Doms} {v x : Nat} {rs : Removals} {d' : Doms} {rs' : Removals}
    (h : prune d v x rs = (d', rs', false)) : d' = d ∧ rs' = rs := by
  by_cases hx : x ∈ dget d v
  · simp [prune, hx] at h
  · simp [prune, hx] at h
    exact ⟨h.1.symm, h.2.symm⟩

/-- The common shape of every pruning loop of the solver: iterate over a
snapshot `list(current_domains[v])` and `_prune` each value for which `keep`
fails, recording whether anything was pruned (`revised` in `_revise`,
`pruned` in `_constraint_propagation`). -/
def pruneFilterGo (keep : Doms → Nat → Bool) (v : Nat) :
    List Nat → Doms → Removals → Bool → Doms × Removals × Bool
  | [], d, rs, flag => (d, rs, flag)
  | x :: rest, d, rs, flag =>
    if keep d x then pruneFilterGo keep v rest d rs flag
    else
      let t := prune d v x rs
      pruneFilterGo keep v rest t.1 t.2.1 (flag || t.2.2)

/-- Prune from `v`'s working domain every currently-listed value for which
`keep` fails. -/
def pruneFilter (keep : Doms → Nat → Bool) (v : Nat) (d : Doms) (rs : Removals) :
    Doms × Removals × Bool :=
  pruneFilterGo keep v (fiter (dget d v)) d rs false

lemma pruneFilterGo_cons_keep {keep : Doms → Nat → Bool} {v x : Nat} {rest : List Nat}
    {d : Doms} {rs : Removals} {flag : Bool} (hk : keep d x = true) :
    pruneFilterGo keep v (x :: rest) d rs flag = pruneFilterGo keep v rest d rs flag := by
  simp [pruneFilterGo, hk]

lemma pruneFilterGo_cons_mem {keep : Doms → Nat → Bool} {v x : Nat} {rest : List Nat}
    {d : Doms} {rs : Removals} {flag : Bool} (hk : keep d x = false) (hx : x ∈ dget d v) :
    pruneFilterGo keep v (x :: rest) d rs flag =
      pruneFilterGo keep v rest (dupdate d v ((dget d v).erase x)) (rs ++ [(v, x)]) true := by
  simp [pruneFilterGo, hk, prune, hx]

lemma pruneFilterGo_cons_notmem {keep : Doms → Nat → Bool} {v x : Nat} {rest : List Nat}
    {d : Doms} {rs : Removals} {flag : Bool} (hk : keep d x = false) (hx : x ∉ dget d v) :
    pruneFilterGo keep v (x :: rest) d rs flag = pruneFilterGo keep v rest d rs flag := by
  simp [pruneFilterGo, hk, prune, hx]

lemma pruneFilterGo_size_le (keep : Doms → Nat → Bool) (v : Nat) (l : List Nat)
    (d : Doms) (rs : Removals) (flag : Bool) :
    totalSize (pruneFilterGo keep v l d rs flag).1 ≤ totalSize d := by
  induction l generalizing d rs flag with
  | nil => simp [pruneFilterGo]
  | cons x rest ih =>
    by_cases hk : keep d x
    · rw [pruneFilterGo_cons_keep hk]
      exact ih d rs flag
    · rw [Bool.not_eq_true] at hk
      by_cases hx : x ∈ dget d v
      · rw [pruneFilterGo_cons_mem hk hx]
        have hlt := totalSize_dupdate_erase hx
        have hle := ih (dupdate d v ((dget d v).erase x)) (rs ++ [(v, x)]) true
        omega
      · rw [pruneFilterGo_cons_notmem hk hx]
        exact ih d rs flag

lemma pruneFilterGo_flag_mono (keep : Doms → Nat → Bool) (v : Nat) (l : List Nat)
    (d : Doms) (rs : Removals) :
    (pruneFilterGo keep v l d rs true).2.2 = true := by
  induction l generalizing d rs with
  | nil => simp [pruneFilterGo]
  | cons x rest ih =>
    by_cases hk : keep d x
    · rw [pruneFilterGo_cons_keep hk]
      exact ih d rs
    · rw [Bool.not_eq_true] at hk
      by_cases hx : x ∈ dget d v
      · rw [pruneFilterGo_cons_mem hk hx]
        exact ih _ _
      · rw [pruneFilterGo_cons_notmem hk hx]
        exact ih d rs

lemma pruneFilterGo_flag_false (keep : Doms → Nat → Bool) (v : Nat) (l : List Nat)
    (d : Doms) (rs : Removals)
    (h : (pruneFilterGo keep v l d rs false).2.2 = false) :
    pruneFilterGo keep v l d rs false = (d, rs, false) := by
  induction l generalizing d rs with
  | nil => simp [pruneFilterGo]
  | cons x rest ih =>
    by_cases hk : keep d x
    · rw [pruneFilterGo_cons_keep hk] at h ⊢
      exact ih d rs h
    · rw [Bool.not_eq_true] at hk
      by_cases hx : x ∈ dget d v
      · rw [pruneFilterGo_cons_mem hk hx] at h
        rw [pruneFilterGo_flag_mono] at h
        exact absurd h (by simp)
      · rw [pruneFilterGo_cons_notmem hk hx] at h ⊢
        exact ih d rs h

lemma pruneFilterGo_flag_true (keep : Doms → Nat → Bool) (v : Nat) (l : List Nat)
    (d : Doms) (rs : Removals)
    (h : (pruneFilterGo keep v l d rs false).2.2 = true) :
    totalSize (pruneFilterGo keep v l d rs false).1 < totalSize d := by
  induction l generalizing d rs with
  | nil => simp [pruneFilterGo] at h
  | cons x rest ih =>
    by_cases hk : keep d x
    · rw [pruneFilterGo_cons_keep hk] at h ⊢
      exact ih d rs h
    · rw [Bool.not_eq_true] at hk
      by_cases hx : x ∈ dget d v
      · rw [pruneFilterGo_cons_mem hk hx]
        have hlt := totalSize_dupdate_erase hx
        have hle := pruneFilterGo_size_le keep v rest
          (dupdate d v ((dget d v).erase x)) (rs ++ [(v, x)]) true
        omega
      · rw [pruneFilterGo_cons_notmem hk hx] at h ⊢
        exact ih d rs h

lemma pruneFilter_size_le (keep : Doms → Nat → Bool) (v : Nat) (d : Doms) (rs : Removals) :
    totalSize (pruneFilter keep v d rs).1 ≤ totalSize d :=
  pruneFilterGo_size_le keep v _ d rs false

lemma pruneFilter_flag_false {keep : Doms → Nat → Bool} {v : Nat} {d : Doms} {rs : Removals}
    (h : (pruneFilter keep v d rs).2.2 = false) :
    pruneFilter keep v d rs = (d, rs, false) :=
  pruneFilterGo_flag_false keep v _ d rs h

lemma pruneFilter_flag_true {keep : Doms → Nat → Bool} {v : Nat} {d : Doms} {rs : Removals}
    (h : (pruneFilter keep v d rs).2.2 = true) :
    totalSize (pruneFilter keep v d rs).1 < totalSize d :=
  pruneFilterGo_flag_true keep v _ d rs h

/-! ## The inference techniques (`inference_backtracking.py`) -/

/-- `_has_support` (`inference_backtracking.py` lines 313-329): `value` for
`xi` is supported if some value of `xj`'s current working domain makes the
assignment extended with both consistent for `xi`. -/
def hasSupport (csp : CSPModel) (d : Doms) (a : Assign) (xi value xj : Nat) : Bool :=
  let dj := dget d xj
  if dj = ∅ then false
  else (fiter dj).any (fun yj => isConsistent csp xi value ((xj, yj) :: (xi, value) :: a))

/-- `_revise` (`inference_backtracking.py` lines 302-311): prune from `xi`
every value with no support in `xj`; report whether anything was pruned. -/
def revise (csp : CSPModel) (a : Assign) (xi xj : Nat) (d : Doms) (rs : Removals) :
    Doms × Removals × Bool :=
  pruneFilter (fun d' value => hasSupport csp d' a xi value xj) xi d rs

/-- `_arc_consistency`'s worklist (`inference_backtracking.py` lines
281-300): pop an arc `(xi, xj)`, skip degenerate arcs, revise `xi` against
`xj`; an emptied domain is failure, and a revised non-empty domain
re-enqueues `(xk, xi)` for every neighbour `xk ≠ xj` of `xi`. -/
def ac3Loop (csp : CSPModel) (a : Assign) :
    Doms → Removals → List (Nat × Nat) → Doms × Removals × Bool
  | d, rs, [] => (d, rs, true)
  | d, rs, (xi, xj) :: rest =>
    if xi = xj then ac3Loop csp a d rs rest
    else if ¬ (dmem d xi = true ∧ dmem d xj = true) then ac3Loop csp a d rs rest
    else
      match h : revise csp a xi xj d rs with
      | (d', rs', true) =>
        if dget d' xi = ∅ then (d', rs', false)
        else
          ac3Loop csp a d' rs'
            (rest ++ (neighborsOf csp xi).filterMap
              (fun xk => if xk = xj then none else some (xk, xi)))
      | (d', rs', false) => ac3Loop csp a d' rs' rest
  termination_by d _ q => (totalSize d, q.length)
  decreasing_by
  · exact Prod.Lex.right (totalSize d) (Nat.lt_succ_self rest.length)
  · exact Prod.Lex.right (totalSize d) (Nat.lt_succ_self rest.length)
  · rw [revise] at h
    have h2 : (pruneFilter (fun d' value => hasSupport csp d' a xi value xj) xi d rs).2.2 = true := by
      rw [h]
    have h3 := pruneFilter_flag_true h2
    rw [h] at h3
    exact Prod.Lex.left _ _ (by simpa using h3)
  · have hf : (revise csp a xi xj d rs).2.2 = false := by rw [h]
    have := @pruneFilter_flag_false (fun d' value => hasSupport csp d' a xi value xj)
      xi d rs hf
    rw [revise] at h
    rw [this] at h
    cases h
    exact Prod.Lex.right (totalSize d) (Nat.lt_succ_self rest.length)

/-- `_arc_consistency` (`inference_backtracking.py` lines 272-300): the
queue is seeded with the arcs `(neighbor, var)` pointing at the newly
assigned variable only. -/
def arcConsistency (csp : CSPModel) (var : Nat) (a : Assign) (d : Doms) (rs : Removals) :
    Doms × Removals × Bool :=
  ac3Loop csp a d rs ((neighborsOf csp var).map (fun n => (n, var)))

/-- The inner neighbour pass of `_constraint_propagation`
(`inference_backtracking.py` lines 253-268): prune every value of each
unassigned neighbour that is inconsistent with the assignment; an emptied
domain is failure; neighbours that lost a value are collected for
re-enqueueing. -/
def cpProcessNeighbors (csp : CSPModel) (a : Assign) :
    List Nat → Doms → Removals → List Nat → Doms × Removals × Bool × List Nat
  | [], d, rs, appended => (d, rs, true, appended)
  | n :: rest, d, rs, appended =>
    if (alookup a n).isSome then cpProcessNeighbors csp a rest d rs appended
    else
      let t := pruneFilter (fun _ nv => isConsistent csp n nv a) n d rs
      if dget t.1 n = ∅ then (t.1, t.2.1, false, appended)
      else
        cpProcessNeighbors csp a rest t.1 t.2.1
          (if t.2.2 then appended ++ [n] else appended)

lemma cpProcessNeighbors_app_le {csp : CSPModel} {a : Assign} (ns : List Nat)
    (d : Doms) (rs : Removals) (app : List Nat) :
    app.length ≤ (cpProcessNeighbors csp a ns d rs app).2.2.2.length := by
  induction ns generalizing d rs app with
  | nil => simp [cpProcessNeighbors]
  | cons n rest ih =>
    by_cases ha : (alookup a n).isSome
    · simp only [cpProcessNeighbors, ha, if_pos]
      exact ih d rs app
    · simp only [cpProcessNeighbors, ha, if_neg, Bool.not_eq_true]
      set t := pruneFilter (fun _ nv => isConsistent csp n nv a) n d rs with ht
      by_cases he : dget t.1 n = ∅
      · simp [he]
      · simp only [he, if_neg, not_false_iff]
        by_cases hfl : t.2.2 = true
        · rw [if_pos hfl]
          have := ih t.1 t.2.1 (app ++ [n])
          simp only [List.length_append, List.length_cons, List.length_nil] at this
          omega
        · rw [if_neg hfl]
          exact ih t.1 t.2.1 app

lemma cpProcessNeighbors_true {csp : CSPModel} {a : Assign} {ns : List Nat}
    {d d' : Doms} {rs rs' : Removals} {app app' : List Nat}
    (h : cpProcessNeighbors csp a ns d rs app = (d', rs', true, app')) :
    totalSize d' ≤ totalSize d ∧ (app' = app → d' = d) ∧
      (app' ≠ app → totalSize d' < totalSize d) := by
  induction ns generalizing d rs app with
  | nil =>
    simp only [cpProcessNeighbors, Prod.mk.injEq] at h
    obtain ⟨h1, -, -, h4⟩ := h
    subst h1; subst h4
    exact ⟨Nat.le_refl _, fun _ => rfl, fun hne => absurd rfl hne⟩
  | cons n rest ih =>
    by_cases ha : (alookup a n).isSome
    · simp only [cpProcessNeighbors, ha, if_pos] at h
      exact ih h
    · simp only [cpProcessNeighbors, ha, if_neg, Bool.not_eq_true] at h
      set t := pruneFilter (fun _ nv => isConsistent csp n nv a) n d rs with ht
      by_cases he : dget t.1 n = ∅
      · simp only [he, if_pos, Prod.mk.injEq] at h
        exact absurd h.2.2.1 (by simp)
      · simp only [he, if_neg, not_false_iff] at h
        by_cases hfl : t.2.2 = true
        · rw [if_pos hfl] at h
          have hlt : totalSize t.1 < totalSize d := pruneFilter_flag_true hfl
          obtain ⟨h1, -, -⟩ := ih h
          have hstrict : totalSize d' < totalSize d := Nat.lt_of_le_of_lt h1 hlt
          refine ⟨Nat.le_of_lt hstrict, ?_, fun _ => hstrict⟩
          intro happ
          exfalso
          have hgrow := @cpProcessNeighbors_app_le csp a rest t.1 t.2.1 (app ++ [n])
          rw [h, happ] at hgrow
          simp at hgrow
        · rw [if_neg hfl] at h
          have hfl' : t.2.2 = false := by
            cases hb : t.2.2
            · rfl
            · exact absurd hb hfl
          have hid : t = (d, rs, false) := pruneFilter_flag_false hfl'
          have hd : t.1 = d := by rw [hid]
          have hrs : t.2.1 = rs := by rw [hid]
          rw [hd, hrs] at h
          exact ih h

/-- `_constraint_propagation`'s worklist (`inference_backtracking.py` lines
249-270): pop a variable, prune its unassigned neighbours, and re-enqueue
every neighbour whose domain shrank. -/
def cpLoop (csp : CSPModel) (a : Assign) :
    Doms → Removals → List Nat → Doms × Removals × Bool
  | d, rs, [] => (d, rs, true)
  | d, rs, current :: queue =>
    match h : cpProcessNeighbors csp a (neighborsOf csp current) d rs [] with
    | (d', rs', false, _) => (d', rs', false)
    | (d', rs', true, appended) => cpLoop csp a d' rs' (queue ++ appended)
  termination_by d _ q => (totalSize d, q.length)
  decreasing_by
  · obtain ⟨h1, h2, h3⟩ := cpProcessNeighbors_true h
    by_cases happ : appended = []
    · rw [h2 happ, happ]
      exact Prod.Lex.right (totalSize d) (by simp [Nat.lt_succ_self])
    · exact Prod.Lex.left _ _ (h3 happ)

/-- `_constraint_propagation` (`inference_backtracking.py` lines 245-270):
the worklist is seeded with the newly assigned variable. -/
def constraintPropagation (csp : CSPModel) (var : Nat) (a : Assign)
    (d : Doms) (rs : Removals) : Doms × Removals × Bool :=
  cpLoop csp a d rs [var]

/-- `_forward_check` (`inference_backtracking.py` lines 227-243): for each
unassigned neighbour of the newly assigned variable, prune the neighbour
values inconsistent with the assignment; an emptied domain is failure. -/
def fcNeighbors (csp : CSPModel) (a : Assign) :
    List Nat → Doms → Removals → Doms × Removals × Bool
  | [], d, rs => (d, rs, true)
  | n :: rest, d, rs =>
    if (alookup a n).isSome then fcNeighbors csp a rest d rs
    else
      let t := pruneFilter (fun _ nv => isConsistent csp n nv a) n d rs
      if dget t.1 n = ∅ then (t.1, t.2.1, false)
      else fcNeighbors csp a rest t.1 t.2.1

/-- `_forward_check` entry: iterate over the neighbours of `var`. -/
def forwardCheck (csp : CSPModel) (var : Nat) (a : Assign) (d : Doms) (rs : Removals) :
    Doms × Removals × Bool :=
  fcNeighbors csp a (neighborsOf csp var) d rs

/-- `_restrict_to_assignment` (`inference_backtracking.py` lines 333-346):
fail if the assigned value is no longer in the working domain, otherwise
prune every other value of the variable. -/
def restrictToAssignment (var value : Nat) (d : Doms) (rs : Removals) :
    Doms × Removals × Bool :=
  if value ∉ dget d var then (d, rs, false)
  else
    let t := pruneFilter (fun _ other => other = value) var d rs
    (t.1, t.2.1, true)

/-- The three inference techniques of `InferenceBacktrackingSolver.TECHNIQUES`
(`inference_backtracking.py` lines 71-87). -/
inductive Tech where
  | fc : Tech
  | cp : Tech
  | ac3 : Tech
deriving DecidableEq

/-- Dispatch one technique handler. -/
def runTechnique (csp : CSPModel) (t : Tech) (var : Nat) (a : Assign)
    (d : Doms) (rs : Removals) : Doms × Removals × Bool :=
  match t with
  | Tech.fc => forwardCheck csp var a d rs
  | Tech.cp => constraintPropagation csp var a d rs
  | Tech.ac3 => arcConsistency csp var a d rs

/-- The technique chain of `_apply_inference` (`inference_backtracking.py`
lines 210-213): run in declared order, aborting on the first failure but
keeping the removals already recorded. -/
def runTechniques (csp : CSPModel) (var : Nat) (a : Assign) :
    List Tech → Doms → Removals → Doms × Removals × Bool
  | [], d, rs => (d, rs, true)
  | t :: rest, d, rs =>
    let r := runTechnique csp t var a d rs
    if r.2.2 then runTechniques csp var a rest r.1 r.2.1
    else (r.1, r.2.1, false)

/-- `_apply_inference` (`inference_backtracking.py` lines 206-213): first
narrow the assigned variable's own working domain to its value, then run the
configured techniques. -/
def applyInference (csp : CSPModel) (techs : List Tech) (var : Nat) (a : Assign)
    (d : Doms) (rs : Removals) : Doms × Removals × Bool :=
  let r0 := restrictToAssignment var ((alookup a var).getD 0) d rs
  if r0.2.2 then runTechniques csp var a techs r0.1 r0.2.1
  else (r0.1, r0.2.1, false)

/-- The MRV-with-identity-tie-break order used by
`_select_unassigned_variable` (`inference_backtracking.py` line 203):
Python sorts by `(len(current_domains[var]), str(var))`. -/
def ibKeyLe (d : Doms) (u w : Nat) : Prop :=
  (dget d u).card < (dget d w).card ∨ ((dget d u).card = (dget d w).card ∧ u ≤ w)

instance (d : Doms) : DecidableRel (ibKeyLe d) := fun u w => by
  unfold ibKeyLe; infer_instance

/-- `_select_unassigned_variable` (`inference_backtracking.py` lines
194-204): the unassigned variable with the smallest working domain, ties
broken by variable identity. -/
def ibSelectVar (csp : CSPModel) (d : Doms) (a : Assign) : Option Nat :=
  let unassigned := csp.vars.filter (fun v => (alookup a v).isNone)
  (unassigned.insertionSort (ibKeyLe d)).head?

/-- `_order_values` (`inference_backtracking.py` lines 220-225):
`list(self.current_domains[var])`. -/
def ibOrderValues (d : Doms) (var : Nat) : List Nat :=
  fiter (dget d var)

/-- The value loop of `_backtrack` (`inference_backtracking.py` lines
174-189): skip inconsistent values; otherwise assign, run inference with a
fresh removal trail, recurse on success of the inference, and on any failure
replay the trail in reverse before trying the next value.  `rec` is the
recursive call one level deeper. -/
def ibTryValues (csp : CSPModel) (techs : List Tech)
    (rec : Assign → Doms → Option Assign × Doms)
    (a : Assign) (var : Nat) : Doms → List Nat → Option Assign × Doms
  | d, [] => (none, d)
  | d, value :: rest =>
    if ¬ isConsistent csp var value a then ibTryValues csp techs rec a var d rest
    else
      match applyInference csp techs var ((var, value) :: a) d [] with
      | (d1, rs1, true) =>
        match rec ((var, value) :: a) d1 with
        | (some r, d2) => (some r, d2)
        | (none, d2) => ibTryValues csp techs rec a var (drestore rs1 d2) rest
      | (d1, rs1, false) => ibTryValues csp techs rec a var (drestore rs1 d1) rest

/-- `_backtrack` (`inference_backtracking.py` lines 159-190), with explicit
fuel for the call stack.  The working domain map is threaded through and
returned alongside the result. -/
def ibBacktrack (csp : CSPModel) (techs : List Tech) :
    Nat → Assign → Doms → Option Assign × Doms
  | fuel, a, d =>
    if a.length = csp.vars.length then (some a, d)
    else
      match fuel with
      | 0 => (none, d)
      | Nat.succ f =>
        match ibSelectVar csp d a with
        | none => (none, d)
        | some var =>
          ibTryValues csp techs (ibBacktrack csp techs f) a var d (ibOrderValues d var)

/-- `_prepare` (`inference_backtracking.py` lines 148-157): the working
domain map is a fresh copy of the CSP's domains. -/
def initDoms (csp : CSPModel) : Doms :=
  csp.vars.map (fun v => (v, (csp.domains v).toFinset))

/-- `solve_with_metrics` (`inference_backtracking.py` lines 115-144) without
its timing/memory observers (pure counters that do not affect control flow):
prepare the working domains and run `_backtrack` from the empty
assignment. -/
def ibSolveRun (csp : CSPModel) (techs : List Tech) : Option Assign × Doms :=
  ibBacktrack csp techs csp.vars.length [] (initDoms csp)

/-- `InferenceBacktrackingSolver.solve` (`inference_backtracking.py` lines
110-113). -/
def ibSolve (csp : CSPModel) (techs : List Tech) : Option Assign :=
  (ibSolveRun csp techs).1

/-- The technique registry keys (`inference_backtracking.py` lines 71-87). -/
def techOfName (name : String) : Option Tech :=
  if name = "forward_checking" then some Tech.fc
  else if name = "constraint_propagation" then some Tech.cp
  else if name = "arc_consistency" then some Tech.ac3
  else none

/-- The unknown names collected by `InferenceBacktrackingSolver.__init__`
(`inference_backtracking.py` line 90). -/
def unknownTechniques (names : List String) : List String :=
  names.filter (fun n => (techOfName n).isNone)

/-- `InferenceBacktrackingSolver.__init__` (`inference_backtracking.py`
lines 89-94): raise `UnknownTechniqueError` if any requested name is
unknown, otherwise build the technique list in declared order. -/
def mkInferenceSolver (names : List String) : Except (List String) (List Tech) :=
  if unknownTechniques names = [] then Except.ok (names.filterMap techOfName)
  else Except.error (unknownTechniques names)

/-- `inference_backtracking_search` composed with the constructor
(`inference_backtracking.py` lines 360-376): an unknown technique name
raises before any search starts. -/
def inferenceSolveByNames (names : List String) (csp : CSPModel) :
    Except (List String) (Option Assign × Doms) :=
  match mkInferenceSolver names with
  | Except.error u => Except.error u
  | Except.ok techs => Except.ok (ibSolveRun csp techs)

/-! ## Exactness of trail replay

Every pruning operation `op` of the solver extends the removal trail by the
values it removed; replaying the extended trail over the resulting domains
yields the same map as replaying the original trail over the original
domains.  With an empty initial trail this says the trail undoes the
operation exactly. -/

lemma dmem_of_mem_dget {d : Doms} {v x : Nat} (h : x ∈ dget d v) : dmem d v = true := by
  induction d with
  | nil => simp [dget] at h
  | cons p rest ih =>
    obtain ⟨k, s₀⟩ := p
    by_cases hk : k = v
    · simp [dmem, hk]
    · rw [dget_cons_ne hk] at h
      simp [dmem, hk, ih h]

lemma dget_dupdate_self {d : Doms} {v : Nat} (s : Finset Nat) (h : dmem d v = true) :
    dget (dupdate d v s) v = s := by
  induction d with
  | nil => simp [dmem] at h
  | cons p rest ih =>
    obtain ⟨k, s₀⟩ := p
    by_cases hk : k = v
    · subst hk
      rw [dupdate_cons_self, dget_cons_self]
    · rw [dupdate_cons_ne hk, dget_cons_ne hk]
      simp only [dmem, hk, decide_eq_true_eq, Bool.false_or] at h
      exact ih (by simpa [hk] using h)

lemma dupdate_dupdate (d : Doms) (v : Nat) (s s' : Finset Nat) :
    dupdate (dupdate d v s) v s' = dupdate d v s' := by
  induction d with
  | nil => simp [dupdate]
  | cons p rest ih =>
    obtain ⟨k, s₀⟩ := p
    by_cases hk : k = v
    · subst hk
      rw [dupdate_cons_self, dupdate_cons_self, dupdate_cons_self]
    · rw [dupdate_cons_ne hk, dupdate_cons_ne hk, dupdate_cons_ne hk, ih]

lemma dupdate_dget_self (d : Doms) (v : Nat) : dupdate d v (dget d v) = d := by
  induction d with
  | nil => simp [dupdate]
  | cons p rest ih =>
    obtain ⟨k, s₀⟩ := p
    by_cases hk : k = v
    · subst hk
      rw [dget_cons_self, dupdate_cons_self]
    · rw [dget_cons_ne hk, dupdate_cons_ne hk, ih]

lemma drestore_append_one (rs : Removals) (p : Nat × Nat) (d : Doms) :
    drestore (rs ++ [p]) d = drestore rs (dupdate d p.1 (insert p.2 (dget d p.1))) := by
  unfold drestore
  rw [List.foldr_append]
  rfl

lemma prune_undo (d : Doms) (v x : Nat) (rs : Removals) :
    drestore (prune d v x rs).2.1 (prune d v x rs).1 = drestore rs d := by
  by_cases hx : x ∈ dget d v
  · have hmem : dmem d v = true := dmem_of_mem_dget hx
    simp only [prune, hx, if_pos]
    rw [drestore_append_one]
    have h1 : dget (dupdate d v ((dget d v).erase x)) v = (dget d v).erase x :=
      dget_dupdate_self _ hmem
    rw [h1, Finset.insert_erase hx, dupdate_dupdate, dupdate_dget_self]
  · simp [prune, hx]

lemma pruneFilterGo_undo (keep : Doms → Nat → Bool) (v : Nat) (l : List Nat)
    (d : Doms) (rs : Removals) (flag : Bool) :
    drestore (pruneFilterGo keep v l d rs flag).2.1 (pruneFilterGo keep v l d rs flag).1 =
      drestore rs d := by
  induction l generalizing d rs flag with
  | nil => simp [pruneFilterGo]
  | cons x rest ih =>
    by_cases hk : keep d x
    · rw [pruneFilterGo_cons_keep hk]
      exact ih d rs flag
    · rw [Bool.not_eq_true] at hk
      by_cases hx : x ∈ dget d v
      · rw [pruneFilterGo_cons_mem hk hx]
        rw [ih _ _ true]
        have := prune_undo d v x rs
        simp only [prune, hx, if_pos] at this
        exact this
      · rw [pruneFilterGo_cons_notmem hk hx]
        exact ih d rs flag

lemma pruneFilter_undo (keep : Doms → Nat → Bool) (v : Nat) (d : Doms) (rs : Removals) :
    drestore (pruneFilter keep v d rs).2.1 (pruneFilter keep v d rs).1 = drestore rs d :=
  pruneFilterGo_undo keep v _ d rs false

lemma fcNeighbors_undo (csp : CSPModel) (a : Assign) (ns : List Nat)
    (d : Doms) (rs : Removals) :
    drestore (fcNeighbors csp a ns d rs).2.1 (fcNeighbors csp a ns d rs).1 =
      drestore rs d := by
  induction ns generalizing d rs with
  | nil => simp [fcNeighbors]
  | cons n rest ih =>
    by_cases ha : (alookup a n).isSome
    · simp only [fcNeighbors, ha, if_pos]
      exact ih d rs
    · simp only [fcNeighbors, ha, if_neg, Bool.not_eq_true]
      set t := pruneFilter (fun _ nv => isConsistent csp n nv a) n d rs with ht
      by_cases he : dget t.1 n = ∅
      · simp only [he, if_pos]
        exact pruneFilter_undo _ n d rs
      · simp only [he, if_neg, not_false_iff]
        rw [ih t.1 t.2.1]
        exact pruneFilter_undo _ n d rs

lemma cpProcessNeighbors_undo (csp : CSPModel) (a : Assign) (ns : List Nat)
    (d : Doms) (rs : Removals) (app : List Nat) :
    drestore (cpProcessNeighbors csp a ns d rs app).2.1
        (cpProcessNeighbors csp a ns d rs app).1 = drestore rs d := by
  induction ns generalizing d rs app with
  | nil => simp [cpProcessNeighbors]
  | cons n rest ih =>
    by_cases ha : (alookup a n).isSome
    · simp only [cpProcessNeighbors, ha, if_pos]
      exact ih d rs app
    · simp only [cpProcessNeighbors, ha, if_neg, Bool.not_eq_true]
      set t := pruneFilter (fun _ nv => isConsistent csp n nv a) n d rs with ht
      by_cases he : dget t.1 n = ∅
      · simp only [he, if_pos]
        exact pruneFilter_undo _ n d rs
      · simp only [he, if_neg, not_false_iff]
        rw [ih t.1 t.2.1]
        exact pruneFilter_undo _ n d rs

lemma cpLoop_nil (csp : CSPModel) (a : Assign) (d : Doms) (rs : Removals) :
    cpLoop csp a d rs [] = (d, rs, true) := by
  rw [cpLoop]

lemma cpLoop_cons_fail {csp : CSPModel} {a : Assign} {d d' : Doms} {rs rs' : Removals}
    {current : Nat} {queue app : List Nat}
    (h : cpProcessNeighbors csp a (neighborsOf csp current) d rs [] = (d', rs', false, app)) :
    cpLoop csp a d rs (current :: queue) = (d', rs', false) := by
  rw [cpLoop, h]

lemma cpLoop_cons_ok {csp : CSPModel} {a : Assign} {d d' : Doms} {rs rs' : Removals}
    {current : Nat} {queue appended : List Nat}
    (h : cpProcessNeighbors csp a (neighborsOf csp current) d rs [] = (d', rs', true, appended)) :
    cpLoop csp a d rs (current :: queue) = cpLoop csp a d' rs' (queue ++ appended) := by
  rw [cpLoop, h]

lemma cpLoop_undo (csp : CSPModel) (a : Assign) (d : Doms) (rs : Removals) (q : List Nat) :
    drestore (cpLoop csp a d rs q).2.1 (cpLoop csp a d rs q).1 = drestore rs d := by
  induction d, rs, q using cpLoop.induct csp a with
  | case1 d rs => rw [cpLoop_nil]
  | case2 d rs current queue d' rs' app h =>
    rw [cpLoop_cons_fail h]
    have := cpProcessNeighbors_undo csp a (neighborsOf csp current) d rs []
    rw [h] at this
    exact this
  | case3 d rs current queue d' rs' appended h ih =>
    rw [cpLoop_cons_ok h]
    rw [ih]
    have := cpProcessNeighbors_undo csp a (neighborsOf csp current) d rs []
    rw [h] at this
    exact this

lemma revise_undo (csp : CSPModel) (a : Assign) (xi xj : Nat) (d : Doms) (rs : Removals) :
    drestore (revise csp a xi xj d rs).2.1 (revise csp a xi xj d rs).1 = drestore rs d :=
  pruneFilter_undo _ xi d rs

/-- The arcs `(xk, xi)` re-enqueued after a successful revision of `xi`
against `xj`. -/
def ac3Requeue (csp : CSPModel) (xi xj : Nat) : List (Nat × Nat) :=
  (neighborsOf csp xi).filterMap (fun xk => if xk = xj then none else some (xk, xi))

lemma ac3Loop_nil (csp : CSPModel) (a : Assign) (d : Doms) (rs : Removals) :
    ac3Loop csp a d rs [] = (d, rs, true) := by
  rw [ac3Loop]

lemma ac3Loop_cons_same (csp : CSPModel) (a : Assign) (d : Doms) (rs : Removals)
    (xj : Nat) (rest : List (Nat × Nat)) :
    ac3Loop csp a d rs ((xj, xj) :: rest) = ac3Loop csp a d rs rest := by
  rw [ac3Loop, if_pos rfl]

lemma ac3Loop_cons_skip {csp : CSPModel} {a : Assign} {d : Doms} {rs : Removals}
    {xi xj : Nat} {rest : List (Nat × Nat)} (hne : xi ≠ xj)
    (hmem : ¬ (dmem d xi = true ∧ dmem d xj = true)) :
    ac3Loop csp a d rs ((xi, xj) :: rest) = ac3Loop csp a d rs rest := by
  rw [ac3Loop, if_neg hne, if_pos hmem]

lemma ac3Loop_cons_fail {csp : CSPModel} {a : Assign} {d d' : Doms} {rs rs' : Removals}
    {xi xj : Nat} {rest : List (Nat × Nat)} (hne : xi ≠ xj)
    (hmem : dmem d xi = true ∧ dmem d xj = true)
    (hrev : revise csp a xi xj d rs = (d', rs', true)) (hemp : dget d' xi = ∅) :
    ac3Loop csp a d rs ((xi, xj) :: rest) = (d', rs', false) := by
  rw [ac3Loop, if_neg hne, if_neg (not_not_intro hmem), hrev]
  simp only [hemp, if_pos]

lemma ac3Loop_cons_requeue {csp : CSPModel} {a : Assign} {d d' : Doms} {rs rs' : Removals}
    {xi xj : Nat} {rest : List (Nat × Nat)} (hne : xi ≠ xj)
    (hmem : dmem d xi = true ∧ dmem d xj = true)
    (hrev : revise csp a xi xj d rs = (d', rs', true)) (hemp : dget d' xi ≠ ∅) :
    ac3Loop csp a d rs ((xi, xj) :: rest) =
      ac3Loop csp a d' rs' (rest ++ ac3Requeue csp xi xj) := by
  rw [ac3Loop, if_neg hne, if_neg (not_not_intro hmem), hrev]
  simp only [hemp, if_neg, not_false_iff]
  rfl

lemma ac3Loop_cons_norevise {csp : CSPModel} {a : Assign} {d d' : Doms} {rs rs' : Removals}
    {xi xj : Nat} {rest : List (Nat × Nat)} (hne : xi ≠ xj)
    (hmem : dmem d xi = true ∧ dmem d xj = true)
    (hrev : revise csp a xi xj d rs = (d', rs', false)) :
    ac3Loop csp a d rs ((xi, xj) :: rest) = ac3Loop csp a d' rs' rest := by
  rw [ac3Loop, if_neg hne, if_neg (not_not_intro hmem), hrev]

lemma ac3Loop_undo (csp : CSPModel) (a : Assign) (d : Doms) (rs : Removals)
    (q : List (Nat × Nat)) :
    drestore (ac3Loop csp a d rs q).2.1 (ac3Loop csp a d rs q).1 = drestore rs d := by
  induction d, rs, q using ac3Loop.induct csp a with
  | case1 d rs => rw [ac3Loop_nil]
  | case2 d rs xj rest ih =>
    rw [ac3Loop_cons_same]
    exact ih
  | case3 d rs xi xj rest hne hmem ih =>
    rw [ac3Loop_cons_skip hne hmem]
    exact ih
  | case4 d rs xi xj rest hne hmem d' rs' hrev hemp =>
    rw [ac3Loop_cons_fail hne (not_not.mp hmem) hrev hemp]
    have := revise_undo csp a xi xj d rs
    rw [hrev] at this
    exact this
  | case5 d rs xi xj rest hne hmem d' rs' hrev hemp ih =>
    rw [ac3Loop_cons_requeue hne (not_not.mp hmem) hrev hemp]
    have ih' : drestore (ac3Loop csp a d' rs' (rest ++ ac3Requeue csp xi xj)).2.1
        (ac3Loop csp a d' rs' (rest ++ ac3Requeue csp xi xj)).1 = drestore rs' d' := ih
    rw [ih']
    have := revise_undo csp a xi xj d rs
    rw [hrev] at this
    exact this
  | case6 d rs xi xj rest hne hmem d' rs' hrev ih =>
    rw [ac3Loop_cons_norevise hne (not_not.mp hmem) hrev]
    rw [ih]
    have := revise_undo csp a xi xj d rs
    rw [hrev] at this
    exact this

lemma restrictToAssignment_undo (var value : Nat) (d : Doms) (rs : Removals) :
    drestore (restrictToAssignment var value d rs).2.1
      (restrictToAssignment var value d rs).1 = drestore rs d := by
  by_cases hx : value ∉ dget d var
  · simp [restrictToAssignment, hx]
  · simp only [restrictToAssignment, hx, if_neg, not_false_iff]
    exact pruneFilter_undo _ var d rs

lemma runTechnique_undo (csp : CSPModel) (t : Tech) (var : Nat) (a : Assign)
    (d : Doms) (rs : Removals) :
    drestore (runTechnique csp t var a d rs).2.1 (runTechnique csp t var a d rs).1 =
      drestore rs d := by
  cases t with
  | fc => exact fcNeighbors_undo csp a _ d rs
  | cp => exact cpLoop_undo csp a d rs [var]
  | ac3 => exact ac3Loop_undo csp a d rs _

lemma runTechniques_undo (csp : CSPModel) (var : Nat) (a : Assign) (ts : List Tech)
    (d : Doms) (rs : Removals) :
    drestore (runTechniques csp var a ts d rs).2.1 (runTechniques csp var a ts d rs).1 =
      drestore rs d := by
  induction ts generalizing d rs with
  | nil => simp [runTechniques]
  | cons t rest ih =>
    simp only [runTechniques]
    set r := runTechnique csp t var a d rs with hr
    by_cases hok : r.2.2
    · rw [if_pos hok, ih r.1 r.2.1]
      exact runTechnique_undo csp t var a d rs
    · rw [if_neg hok]
      exact runTechnique_undo csp t var a d rs

lemma applyInference_undo (csp : CSPModel) (techs : List Tech) (var : Nat) (a : Assign)
    (d : Doms) (rs : Removals) :
    drestore (applyInference csp techs var a d rs).2.1
      (applyInference csp techs var a d rs).1 = drestore rs d := by
  unfold applyInference
  set r0 := restrictToAssignment var ((alookup a var).getD 0) d rs with hr0
  by_cases hok : r0.2.2
  · simp only [hok, if_pos]
    rw [runTechniques_undo]
    exact restrictToAssignment_undo _ _ d rs
  · simp only [hok, if_neg, Bool.not_eq_true]
    exact restrictToAssignment_undo _ _ d rs

lemma drestore_nil (d : Doms) : drestore [] d = d := rfl

lemma applyInference_empty_undo (csp : CSPModel) (techs : List Tech) (var : Nat)
    (a : Assign) (d : Doms) :
    drestore (applyInference csp techs var a d []).2.1
      (applyInference csp techs var a d []).1 = d := by
  rw [applyInference_undo, drestore_nil]

lemma ibTryValues_nil (csp : CSPModel) (techs : List Tech)
    (rec : Assign → Doms → Option Assign × Doms) (a : Assign) (var : Nat) (d : Doms) :
    ibTryValues csp techs rec a var d [] = (none, d) := rfl

lemma ibTryValues_cons_skip {csp : CSPModel} {techs : List Tech}
    {rec : Assign → Doms → Option Assign × Doms} {a : Assign} {var v : Nat}
    {d : Doms} {rest : List Nat} (hc : ¬ isConsistent csp var v a = true) :
    ibTryValues csp techs rec a var d (v :: rest) =
      ibTryValues csp techs rec a var d rest := by
  simp only [ibTryValues]
  rw [if_pos (by simp [hc])]

lemma ibTryValues_cons_found {csp : CSPModel} {techs : List Tech}
    {rec : Assign → Doms → Option Assign × Doms} {a : Assign} {var v : Nat}
    {d d1 d2 : Doms} {rs1 : Removals} {rest : List Nat} {r : Assign}
    (hc : isConsistent csp var v a = true)
    (happ : applyInference csp techs var ((var, v) :: a) d [] = (d1, rs1, true))
    (hr : rec ((var, v) :: a) d1 = (some r, d2)) :
    ibTryValues csp techs rec a var d (v :: rest) = (some r, d2) := by
  simp only [ibTryValues]
  rw [if_neg (by simp [hc])]
  simp only [happ, hr]

lemma ibTryValues_cons_deeperfail {csp : CSPModel} {techs : List Tech}
    {rec : Assign → Doms → Option Assign × Doms} {a : Assign} {var v : Nat}
    {d d1 d2 : Doms} {rs1 : Removals} {rest : List Nat}
    (hc : isConsistent csp var v a = true)
    (happ : applyInference csp techs var ((var, v) :: a) d [] = (d1, rs1, true))
    (hr : rec ((var, v) :: a) d1 = (none, d2)) :
    ibTryValues csp techs rec a var d (v :: rest) =
      ibTryValues csp techs rec a var (drestore rs1 d2) rest := by
  simp only [ibTryValues]
  rw [if_neg (by simp [hc])]
  simp only [happ, hr]

lemma ibTryValues_cons_inffail {csp : CSPModel} {techs : List Tech}
    {rec : Assign → Doms → Option Assign × Doms} {a : Assign} {var v : Nat}
    {d d1 : Doms} {rs1 : Removals} {rest : List Nat}
    (hc : isConsistent csp var v a = true)
    (happ : applyInference csp techs var ((var, v) :: a) d [] = (d1, rs1, false)) :
    ibTryValues csp techs rec a var d (v :: rest) =
      ibTryValues csp techs rec a var (drestore rs1 d1) rest := by
  simp only [ibTryValues]
  rw [if_neg (by simp [hc])]
  simp only [happ]

lemma ibTryValues_none_doms {csp : CSPModel} {techs : List Tech}
    {rec : Assign → Doms → Option Assign × Doms}
    (hrec : ∀ a' d' d2, rec a' d' = (none, d2) → d2 = d')
    (a : Assign) (var : Nat) :
    ∀ (vals : List Nat) (d dOut : Doms),
      ibTryValues csp techs rec a var d vals = (none, dOut) → dOut = d := by
  intro vals
  induction vals with
  | nil =>
    intro d dOut h
    rw [ibTryValues_nil] at h
    simp only [Prod.mk.injEq] at h
    exact h.2.symm
  | cons v rest ih =>
    intro d dOut h
    by_cases hc : isConsistent csp var v a = true
    · rcases happ : applyInference csp techs var ((var, v) :: a) d [] with ⟨d1, rs1, ok⟩
      have hundo := applyInference_empty_undo csp techs var ((var, v) :: a) d
      rw [happ] at hundo
      cases ok with
      | true =>
        rcases hr : rec ((var, v) :: a) d1 with ⟨o, d2⟩
        cases o with
        | some r =>
          rw [ibTryValues_cons_found hc happ hr] at h
          simp at h
        | none =>
          rw [ibTryValues_cons_deeperfail hc happ hr] at h
          rw [hrec _ _ _ hr] at h
          rw [show drestore rs1 d1 = d from hundo] at h
          exact ih d dOut h
      | false =>
        rw [ibTryValues_cons_inffail hc happ] at h
        rw [show drestore rs1 d1 = d from hundo] at h
        exact ih d dOut h
    · rw [ibTryValues_cons_skip hc] at h
      exact ih d dOut h

lemma ibBacktrack_none_doms {csp : CSPModel} {techs : List Tech} :
    ∀ (fuel : Nat) (a : Assign) (d dOut : Doms),
      ibBacktrack csp techs fuel a d = (none, dOut) → dOut = d := by
  intro fuel
  induction fuel with
  | zero =>
    intro a d dOut h
    rw [ibBacktrack] at h
    by_cases hcomp : a.length = csp.vars.length
    · rw [if_pos hcomp] at h
      simp at h
    · rw [if_neg hcomp] at h
      simp only [Prod.mk.injEq] at h
      exact h.2.symm
  | succ f ih =>
    intro a d dOut h
    rw [ibBacktrack] at h
    by_cases hcomp : a.length = csp.vars.length
    · rw [if_pos hcomp] at h
      simp at h
    · rw [if_neg hcomp] at h
      cases hsel : ibSelectVar csp d a with
      | none =>
        rw [hsel] at h
        simp only [Prod.mk.injEq] at h
        exact h.2.symm
      | some var =>
        rw [hsel] at h
        exact ibTryValues_none_doms (fun a' d' d2 hr => ih a' d' d2 hr) a var _ d dOut h

/-! ## Pointwise domain shrinking

Every pruning operation only removes values: each working domain of the
result is a subset of the corresponding input domain. -/

/-- `d'` refines `d` pointwise. -/
def DomLe (d' d : Doms) : Prop := ∀ v, dget d' v ⊆ dget d v

lemma DomLe.rfl {d : Doms} : DomLe d d := fun _ => Finset.Subset.refl _

lemma DomLe.trans {d₁ d₂ d₃ : Doms} (h₁ : DomLe d₁ d₂) (h₂ : DomLe d₂ d₃) : DomLe d₁ d₃ :=
  fun v => Finset.Subset.trans (h₁ v) (h₂ v)

lemma prune_domle (d : Doms) (v x : Nat) (rs : Removals) : DomLe (prune d v x rs).1 d := by
  intro w
  by_cases hx : x ∈ dget d v
  · simp only [prune, hx, if_pos]
    by_cases hw : v = w
    · subst hw
      rw [dget_dupdate_self _ (dmem_of_mem_dget hx)]
      exact Finset.erase_subset x _
    · rw [dget_dupdate_ne _ _ _ _ hw]
  · simp [prune, hx, Finset.Subset.refl]

lemma pruneFilterGo_domle (keep : Doms → Nat → Bool) (v : Nat) (l : List Nat)
    (d : Doms) (rs : Removals) (flag : Bool) :
    DomLe (pruneFilterGo keep v l d rs flag).1 d := by
  induction l generalizing d rs flag with
  | nil => exact DomLe.rfl
  | cons x rest ih =>
    by_cases hk : keep d x
    · rw [pruneFilterGo_cons_keep hk]
      exact ih d rs flag
    · rw [Bool.not_eq_true] at hk
      by_cases hx : x ∈ dget d v
      · rw [pruneFilterGo_cons_mem hk hx]
        refine DomLe.trans (ih _ _ true) ?_
        have := prune_domle d v x rs
        simp only [prune, hx, if_pos] at this
        exact this
      · rw [pruneFilterGo_cons_notmem hk hx]
        exact ih d rs flag

lemma pruneFilter_domle (keep : Doms → Nat → Bool) (v : Nat) (d : Doms) (rs : Removals) :
    DomLe (pruneFilter keep v d rs).1 d :=
  pruneFilterGo_domle keep v _ d rs false

lemma fcNeighbors_domle (csp : CSPModel) (a : Assign) (ns : List Nat)
    (d : Doms) (rs : Removals) : DomLe (fcNeighbors csp a ns d rs).1 d := by
  induction ns generalizing d rs with
  | nil => exact DomLe.rfl
  | cons n rest ih =>
    by_cases ha : (alookup a n).isSome
    · simp only [fcNeighbors, ha, if_pos]
      exact ih d rs
    · simp only [fcNeighbors, ha, if_neg, Bool.not_eq_true]
      set t := pruneFilter (fun _ nv => isConsistent csp n nv a) n d rs with ht
      by_cases he : dget t.1 n = ∅
      · simp only [he, if_pos]
        exact pruneFilter_domle _ n d rs
      · simp only [he, if_neg, not_false_iff]
        exact DomLe.trans (ih t.1 t.2.1) (pruneFilter_domle _ n d rs)

lemma cpProcessNeighbors_domle (csp : CSPModel) (a : Assign) (ns : List Nat)
    (d : Doms) (rs : Removals) (app : List Nat) :
    DomLe (cpProcessNeighbors csp a ns d rs app).1 d := by
  induction ns generalizing d rs app with
  | nil => exact DomLe.rfl
  | cons n rest ih =>
    by_cases ha : (alookup a n).isSome
    · simp only [cpProcessNeighbors, ha, if_pos]
      exact ih d rs app
    · simp only [cpProcessNeighbors, ha, if_neg, Bool.not_eq_true]
      set t := pruneFilter (fun _ nv => isConsistent csp n nv a) n d rs with ht
      by_cases he : dget t.1 n = ∅
      · simp only [he, if_pos]
        exact pruneFilter_domle _ n d rs
      · simp only [he, if_neg, not_false_iff]
        exact DomLe.trans (ih t.1 t.2.1 _) (pruneFilter_domle _ n d rs)

lemma cpLoop_domle (csp : CSPModel) (a : Assign) (d : Doms) (rs : Removals)
    (q : List Nat) : DomLe (cpLoop csp a d rs q).1 d := by
  induction d, rs, q using cpLoop.induct csp a with
  | case1 d rs =>
    rw [cpLoop_nil]
    exact DomLe.rfl
  | case2 d rs current queue d' rs' app h =>
    rw [cpLoop_cons_fail h]
    have := cpProcessNeighbors_domle csp a (neighborsOf csp current) d rs []
    rw [h] at this
    exact this
  | case3 d rs current queue d' rs' appended h ih =>
    rw [cpLoop_cons_ok h]
    refine DomLe.trans ih ?_
    have := cpProcessNeighbors_domle csp a (neighborsOf csp current) d rs []
    rw [h] at this
    exact this

lemma ac3Loop_domle (csp : CSPModel) (a : Assign) (d : Doms) (rs : Removals)
    (q : List (Nat × Nat)) : DomLe (ac3Loop csp a d rs q).1 d := by
  induction d, rs, q using ac3Loop.induct csp a with
  | case1 d rs =>
    rw [ac3Loop_nil]
    exact DomLe.rfl
  | case2 d rs xj rest ih =>
    rw [ac3Loop_cons_same]
    exact ih
  | case3 d rs xi xj rest hne hmem ih =>
    rw [ac3Loop_cons_skip hne hmem]
    exact ih
  | case4 d rs xi xj rest hne hmem d' rs' hrev hemp =>
    rw [ac3Loop_cons_fail hne (not_not.mp hmem) hrev hemp]
    have := pruneFilter_domle (fun d'' value => hasSupport csp d'' a xi value xj) xi d rs
    rw [show pruneFilter (fun d'' value => hasSupport csp d'' a xi value xj) xi d rs =
      revise csp a xi xj d rs from rfl, hrev] at this
    exact this
  | case5 d rs xi xj rest hne hmem d' rs' hrev hemp ih =>
    rw [ac3Loop_cons_requeue hne (not_not.mp hmem) hrev hemp]
    have ih' : DomLe (ac3Loop csp a d' rs' (rest ++ ac3Requeue csp xi xj)).1 d' := ih
    refine DomLe.trans ih' ?_
    have := pruneFilter_domle (fun d'' value => hasSupport csp d'' a xi value xj) xi d rs
    rw [show pruneFilter (fun d'' value => hasSupport csp d'' a xi value xj) xi d rs =
      revise csp a xi xj d rs from rfl, hrev] at this
    exact this
  | case6 d rs xi xj rest hne hmem d' rs' hrev ih =>
    rw [ac3Loop_cons_norevise hne (not_not.mp hmem) hrev]
    refine DomLe.trans ih ?_
    have := pruneFilter_domle (fun d'' value => hasSupport csp d'' a xi value xj) xi d rs
    rw [show pruneFilter (fun d'' value => hasSupport csp d'' a xi value xj) xi d rs =
      revise csp a xi xj d rs from rfl, hrev] at this
    exact this

lemma restrictToAssignment_domle (var value : Nat) (d : Doms) (rs : Removals) :
    DomLe (restrictToAssignment var value d rs).1 d := by
  by_cases hx : value ∉ dget d var
  · simp [restrictToAssignment, hx, DomLe.rfl]
  · simp only [restrictToAssignment, hx, if_neg, not_false_iff]
    exact pruneFilter_domle _ var d rs

lemma runTechnique_domle (csp : CSPModel) (t : Tech) (var : Nat) (a : Assign)
    (d : Doms) (rs : Removals) : DomLe (runTechnique csp t var a d rs).1 d := by
  cases t with
  | fc => exact fcNeighbors_domle csp a _ d rs
  | cp => exact cpLoop_domle csp a d rs [var]
  | ac3 => exact ac3Loop_domle csp a d rs _

lemma runTechniques_domle (csp : CSPModel) (var : Nat) (a : Assign) (ts : List Tech)
    (d : Doms) (rs : Removals) : DomLe (runTechniques csp var a ts d rs).1 d := by
  induction ts generalizing d rs with
  | nil => exact DomLe.rfl
  | cons t rest ih =>
    simp only [runTechniques]
    set r := runTechnique csp t var a d rs with hr
    by_cases hok : r.2.2
    · rw [if_pos hok]
      exact DomLe.trans (ih r.1 r.2.1) (runTechnique_domle csp t var a d rs)
    · rw [if_neg hok]
      exact runTechnique_domle csp t var a d rs

lemma applyInference_domle (csp : CSPModel) (techs : List Tech) (var : Nat) (a : Assign)
    (d : Doms) (rs : Removals) : DomLe (applyInference csp techs var a d rs).1 d := by
  unfold applyInference
  set r0 := restrictToAssignment var ((alookup a var).getD 0) d rs with hr0
  by_cases hok : r0.2.2
  · simp only [hok, if_pos]
    exact DomLe.trans (runTechniques_domle csp var a techs r0.1 r0.2.1)
      (restrictToAssignment_domle _ _ d rs)
  · simp only [hok, if_neg, Bool.not_eq_true]
    exact restrictToAssignment_domle _ _ d rs

/-! ## The search invariant and soundness -/

/-- The claim's wording of constraint satisfaction: satisfied vacuously when
some scope variable is unassigned, otherwise the relation must hold of the
scope values in order. -/
def satisfiedSpec (c : ConstraintC) (a : Assign) : Prop :=
  (∃ v ∈ c.scope, alookup a v = none) ∨
    relationHolds c.relation (c.scope.map (fun v => (alookup a v).getD 0)) = true

lemma isSatisfiedC_iff_satisfiedSpec (c : ConstraintC) (a : Assign) :
    isSatisfiedC c a = true ↔ satisfiedSpec c a := by
  unfold isSatisfiedC satisfiedSpec
  by_cases h : c.scope.any (fun v => (alookup a v).isNone) = true
  · simp only [h, if_pos, true_iff]
    left
    obtain ⟨v, hv, hnone⟩ := List.any_eq_true.mp h
    exact ⟨v, hv, Option.isNone_iff_eq_none.mp hnone⟩
  · simp only [h, if_neg, Bool.not_eq_true]
    constructor
    · intro hr
      exact Or.inr hr
    · intro hor
      rcases hor with ⟨v, hv, hnone⟩ | hr
      · exact absurd (List.any_eq_true.mpr ⟨v, hv, Option.isNone_iff_eq_none.mpr hnone⟩) h
      · exact hr

lemma isConsistent_iff (csp : CSPModel) (var value : Nat) (a : Assign) :
    isConsistent csp var value a = true ↔
      ∀ c ∈ csp.constraints, var ∈ c.scope → isSatisfiedC c ((var, value) :: a) = true := by
  unfold isConsistent
  rw [List.all_eq_true]
  constructor
  · intro h c hc hvar
    have := h c hc
    rwa [if_pos hvar] at this
  · intro h c hc
    by_cases hvar : var ∈ c.scope
    · rw [if_pos hvar]
      exact h c hc hvar
    · rw [if_neg hvar]


lemma alookup_cons_self (a : Assign) (v x : Nat) : alookup ((v, x) :: a) v = some x := by
  simp [alookup]

lemma alookup_cons_ne {w v : Nat} (a : Assign) (x : Nat) (h : w ≠ v) :
    alookup ((w, x) :: a) v = alookup a v := by
  simp [alookup, h]

lemma alookup_eq_none_iff {a : Assign} {v : Nat} :
    alookup a v = none ↔ v ∉ a.map Prod.fst := by
  induction a with
  | nil => simp [alookup]
  | cons p rest ih =>
    obtain ⟨k, x⟩ := p
    by_cases hk : k = v
    · subst hk
      simp [alookup]
    · rw [alookup_cons_ne rest x hk]
      simp only [List.map_cons, List.mem_cons]
      rw [ih]
      constructor
      · intro hn hmem
        rcases hmem with he | hmem
        · exact hk he.symm
        · exact hn hmem
      · intro hn hmem
        exact hn (Or.inr hmem)

lemma alookup_isSome_of_mem_keys {a : Assign} {v : Nat} (h : v ∈ a.map Prod.fst) :
    (alookup a v).isSome = true := by
  cases ho : alookup a v with
  | none => exact absurd h (alookup_eq_none_iff.mp ho)
  | some x => rfl

lemma isSatisfiedC_congr {c : ConstraintC} {a a' : Assign}
    (h : ∀ v ∈ c.scope, alookup a' v = alookup a v) :
    isSatisfiedC c a' = isSatisfiedC c a := by
  unfold isSatisfiedC
  have hany : ∀ (l : List Nat) (p q : Nat → Bool), (∀ x ∈ l, p x = q x) →
      l.any p = l.any q := by
    intro l p q hpq
    induction l with
    | nil => rfl
    | cons x xs ih =>
      simp only [List.any_cons]
      rw [hpq x (List.mem_cons_self x xs), ih (fun y hy => hpq y (List.mem_cons_of_mem x hy))]
  have h1 : (c.scope.any fun v => (alookup a' v).isNone) =
      (c.scope.any fun v => (alookup a v).isNone) := by
    apply hany
    intro v hv
    rw [h v hv]
  rw [h1]
  have h2 : (c.scope.map fun v => (alookup a' v).getD 0) =
      (c.scope.map fun v => (alookup a v).getD 0) := by
    apply List.map_congr_left
    intro v hv
    rw [h v hv]
  rw [h2]

/-- The invariant maintained along every search branch of all three solvers:
the assignment binds each variable at most once, binds only CSP variables to
values of their domains, and satisfies every constraint whose scope it fully
assigns. -/
structure SearchInv (csp : CSPModel) (a : Assign) : Prop where
  nodupKeys : (a.map Prod.fst).Nodup
  keysVars : ∀ p ∈ a, p.1 ∈ csp.vars
  valsDom : ∀ p ∈ a, p.2 ∈ csp.domains p.1
  fullSat : ∀ c ∈ csp.constraints,
    (∀ v ∈ c.scope, (alookup a v).isSome = true) → isSatisfiedC c a = true

lemma SearchInv.nil (csp : CSPModel) (hwf : WF csp) : SearchInv csp [] := by
  refine ⟨List.nodup_nil, ?_, ?_, ?_⟩
  · intro p hp
    exact absurd hp (List.not_mem_nil p)
  · intro p hp
    exact absurd hp (List.not_mem_nil p)
  · intro c hc hall
    exfalso
    obtain ⟨hne, -⟩ := hwf.2.1 c hc
    cases hs : c.scope with
    | nil => exact hne hs
    | cons v vs =>
      have := hall v (by rw [hs]; exact List.mem_cons_self v vs)
      simp [alookup] at this

lemma SearchInv.step {csp : CSPModel} {a : Assign} {var value : Nat}
    (hinv : SearchInv csp a) (hvar : var ∈ csp.vars) (hun : alookup a var = none)
    (hdom : value ∈ csp.domains var) (hcons : isConsistent csp var value a = true) :
    SearchInv csp ((var, value) :: a) := by
  refine ⟨?_, ?_, ?_, ?_⟩
  · simp only [List.map_cons]
    exact List.Nodup.cons (alookup_eq_none_iff.mp hun) hinv.nodupKeys
  · intro p hp
    rcases List.mem_cons.mp hp with he | hmem
    · rw [he]
      exact hvar
    · exact hinv.keysVars p hmem
  · intro p hp
    rcases List.mem_cons.mp hp with he | hmem
    · rw [he]
      exact hdom
    · exact hinv.valsDom p hmem
  · intro c hc hall
    by_cases hvc : var ∈ c.scope
    · exact (isConsistent_iff csp var value a).mp hcons c hc hvc
    · have hlk : ∀ v ∈ c.scope, alookup ((var, value) :: a) v = alookup a v := by
        intro v hv
        exact alookup_cons_ne a value (fun he => hvc (he ▸ hv))
      rw [isSatisfiedC_congr hlk]
      exact hinv.fullSat c hc (fun v hv => by rw [← hlk v hv]; exact hall v hv)

lemma SearchInv.solution {csp : CSPModel} {a : Assign}
    (hinv : SearchInv csp a) (hwf : WF csp) (hlen : a.length = csp.vars.length) :
    isSolution csp a = true := by
  have hkeys : ∀ v ∈ csp.vars, (alookup a v).isSome = true := by
    intro v hv
    have hsub : (a.map Prod.fst).toFinset ⊆ csp.vars.toFinset := by
      intro x hx
      rw [List.mem_toFinset] at hx ⊢
      obtain ⟨p, hp, hpe⟩ := List.mem_map.mp hx
      rw [← hpe]
      exact hinv.keysVars p hp
    have hcard1 : (a.map Prod.fst).toFinset.card = a.length := by
      rw [List.toFinset_card_of_nodup hinv.nodupKeys, List.length_map]
    have hcard2 : csp.vars.toFinset.card = csp.vars.length :=
      List.toFinset_card_of_nodup hwf.1
    have heq : (a.map Prod.fst).toFinset = csp.vars.toFinset := by
      apply Finset.eq_of_subset_of_card_le hsub
      rw [hcard1, hcard2, hlen]
    have : v ∈ (a.map Prod.fst).toFinset := by
      rw [heq, List.mem_toFinset]
      exact hv
    exact alookup_isSome_of_mem_keys (List.mem_toFinset.mp this)
  have hcomp : isComplete csp a = true := by
    unfold isComplete
    simp [hlen]
  unfold isSolution
  rw [if_neg (by simp [hcomp])]
  rw [List.all_eq_true]
  intro c hc
  exact hinv.fullSat c hc (fun v hv => hkeys v ((hwf.2.1 c hc).2 v hv))

/-- Soundness of the shared value loop: any success it returns comes either
from the continuation on a consistent extension by a listed value. -/
lemma btTryValues_some {csp : CSPModel} {rec : Assign → Option Assign}
    {a : Assign} {var : Nat} (Q : Assign → Prop)
    (hrec : ∀ value r, value ∈ vals → isConsistent csp var value a = true →
      rec ((var, value) :: a) = some r → Q r)
    (h : btTryValues csp rec a var vals = some r) : Q r := by
  induction vals with
  | nil => simp [btTryValues] at h
  | cons v rest ih =>
    simp only [btTryValues] at h
    by_cases hc : isConsistent csp var v a = true
    · rw [if_pos hc] at h
      cases hr : rec ((var, v) :: a) with
      | some r' =>
        rw [hr] at h
        cases h
        exact hrec v r (List.mem_cons_self v rest) hc hr
      | none =>
        rw [hr] at h
        exact ih (fun value r' hm hc' hr' => hrec value r' (List.mem_cons_of_mem v hm) hc' hr') h
    · rw [if_neg hc] at h
      exact ih (fun value r' hm hc' hr' => hrec value r' (List.mem_cons_of_mem v hm) hc' hr') h

lemma selectUnassignedVariable_some {csp : CSPModel} {a : Assign} {var : Nat}
    (h : selectUnassignedVariable csp a = some var) :
    var ∈ csp.vars ∧ alookup a var = none := by
  unfold selectUnassignedVariable at h
  refine ⟨List.mem_of_find?_eq_some h, ?_⟩
  have := List.find?_some h
  simpa [Option.isNone_iff_eq_none] using this

/-- Soundness of the plain solver: any returned assignment extends the
invariant to a full solution. -/
lemma recursiveBacktrack_sound {csp : CSPModel} (hwf : WF csp) :
    ∀ (fuel : Nat) (a r : Assign), SearchInv csp a →
      recursiveBacktrack csp fuel a = some r → isSolution csp r = true ∧ SearchInv csp r := by
  intro fuel
  induction fuel with
  | zero =>
    intro a r hinv h
    rw [recursiveBacktrack] at h
    by_cases hcomp : isComplete csp a = true
    · rw [if_pos hcomp] at h
      cases h
      exact ⟨hinv.solution hwf (by simpa [isComplete] using hcomp), hinv⟩
    · rw [if_neg hcomp] at h
      simp at h
  | succ f ih =>
    intro a r hinv h
    rw [recursiveBacktrack] at h
    by_cases hcomp : isComplete csp a = true
    · rw [if_pos hcomp] at h
      cases h
      exact ⟨hinv.solution hwf (by simpa [isComplete] using hcomp), hinv⟩
    · rw [if_neg hcomp] at h
      cases hsel : selectUnassignedVariable csp a with
      | none =>
        rw [hsel] at h
        simp at h
      | some var =>
        rw [hsel] at h
        obtain ⟨hvar, hun⟩ := selectUnassignedVariable_some hsel
        refine btTryValues_some (fun r' => isSolution csp r' = true ∧ SearchInv csp r') ?_ h
        intro value r' hm hc hr
        exact ih ((var, value) :: a) r' (hinv.step hvar hun hm hc) hr

lemma pyMax_mem {l : List Nat} (h : l ≠ []) : pyMax l ∈ l := by
  induction l with
  | nil => exact absurd rfl h
  | cons x xs ih =>
    show List.foldr max 0 (x :: xs) ∈ x :: xs
    rw [List.foldr_cons]
    cases hxs : xs with
    | nil =>
      subst hxs
      simp
    | cons y ys =>
      subst hxs
      rcases max_choice x (List.foldr max 0 (y :: ys)) with hc | hc
      · rw [hc]
        exact List.mem_cons_self x _
      · rw [hc]
        exact List.mem_cons_of_mem x (ih (by simp))

lemma pyMax_ge {l : List Nat} {x : Nat} (h : x ∈ l) : x ≤ pyMax l := by
  induction l with
  | nil => exact absurd h (List.not_mem_nil x)
  | cons y ys ih =>
    show x ≤ List.foldr max 0 (y :: ys)
    rw [List.foldr_cons]
    rcases List.mem_cons.mp h with he | hmem
    · rw [he]
      exact le_max_left y _
    · exact Nat.le_trans (ih hmem) (le_max_right y _)

lemma foldr_min_mem : ∀ (xs : List Nat) (x : Nat), xs.foldr min x ∈ x :: xs := by
  intro xs
  induction xs with
  | nil => simp
  | cons y ys ih =>
    intro x
    rw [List.foldr_cons]
    rcases min_choice y (ys.foldr min x) with hc | hc
    · rw [hc]
      exact List.mem_cons_of_mem x (List.mem_cons_self y ys)
    · rw [hc]
      rcases List.mem_cons.mp (ih x) with he | hmem
      · rw [he]
        exact List.mem_cons_self x (y :: ys)
      · exact List.mem_cons_of_mem x (List.mem_cons_of_mem y hmem)

lemma foldr_min_le : ∀ (xs : List Nat) (x z : Nat), z ∈ x :: xs → xs.foldr min x ≤ z := by
  intro xs
  induction xs with
  | nil =>
    intro x z h
    simp only [List.mem_cons, List.not_mem_nil, or_false] at h
    simp [h]
  | cons y ys ih =>
    intro x z h
    rw [List.foldr_cons]
    rcases List.mem_cons.mp h with he | hmem
    · have h1 : ys.foldr min x ≤ x := ih x x (List.mem_cons_self x ys)
      rw [he]
      exact Nat.le_trans (Nat.min_le_right _ _) h1
    · rcases List.mem_cons.mp hmem with he' | hmem'
      · rw [he']
        exact Nat.min_le_left _ _
      · exact Nat.le_trans (Nat.min_le_right _ _) (ih x z (List.mem_cons_of_mem x hmem'))

lemma pyMin_mem {l : List Nat} (h : l ≠ []) : pyMin l ∈ l := by
  cases l with
  | nil => exact absurd rfl h
  | cons x xs => exact foldr_min_mem xs x

lemma pyMin_le {l : List Nat} {x : Nat} (h : x ∈ l) : pyMin l ≤ x := by
  cases l with
  | nil => exact absurd h (List.not_mem_nil x)
  | cons y ys => exact foldr_min_le ys y x h

lemma mem_hCandidates {csp : CSPModel} {a : Assign} {c : HCand} :
    c ∈ hCandidates csp a ↔ ∃ v ∈ csp.vars, alookup a v = none ∧
      c = ⟨v, getLegalValues csp v a, (getLegalValues csp v a).length,
        countUnassignedNeighbors csp v a⟩ := by
  unfold hCandidates
  rw [List.mem_filterMap]
  constructor
  · rintro ⟨v, hv, hsome⟩
    by_cases hl : (alookup a v).isSome
    · rw [if_pos hl] at hsome
      simp at hsome
    · rw [if_neg hl] at hsome
      simp only [Option.some.injEq] at hsome
      exact ⟨v, hv, Option.not_isSome_iff_eq_none.mp hl, hsome.symm⟩
  · rintro ⟨v, hv, hnone, hc⟩
    refine ⟨v, hv, ?_⟩
    rw [if_neg (by simp [hnone])]
    rw [hc]

lemma hFilterDegree_subset {cands : List HCand} {b : Bool} :
    ∀ c ∈ hFilterDegree cands b, c ∈ cands := by
  intro c hc
  unfold hFilterDegree at hc
  by_cases hb : b
  · rw [if_pos hb] at hc
    exact List.mem_of_mem_filter hc
  · rw [if_neg hb] at hc
    exact hc

lemma hFilterMrv_subset {cands : List HCand} {b : Bool} :
    ∀ c ∈ hFilterMrv cands b, c ∈ cands := by
  intro c hc
  unfold hFilterMrv at hc
  by_cases hb : b
  · rw [if_pos hb] at hc
    exact List.mem_of_mem_filter hc
  · rw [if_neg hb] at hc
    exact hc

lemma hFilterDegree_ne_nil {cands : List HCand} {b : Bool} (h : cands ≠ []) :
    hFilterDegree cands b ≠ [] := by
  unfold hFilterDegree
  by_cases hb : b
  · rw [if_pos hb]
    have hmax : pyMax (cands.map HCand.degree) ∈ cands.map HCand.degree :=
      pyMax_mem (by simpa using h)
    obtain ⟨c, hc, hdeg⟩ := List.mem_map.mp hmax
    exact List.ne_nil_of_mem (List.mem_filter.mpr ⟨hc, by simp [hdeg]⟩)
  · rw [if_neg hb]
    exact h

lemma hFilterMrv_ne_nil {cands : List HCand} {b : Bool} (h : cands ≠ []) :
    hFilterMrv cands b ≠ [] := by
  unfold hFilterMrv
  by_cases hb : b
  · rw [if_pos hb]
    have hmin : pyMin (cands.map HCand.count) ∈ cands.map HCand.count :=
      pyMin_mem (by simpa using h)
    obtain ⟨c, hc, hcnt⟩ := List.mem_map.mp hmin
    exact List.ne_nil_of_mem (List.mem_filter.mpr ⟨hc, by simp [hcnt]⟩)
  · rw [if_neg hb]
    exact h

lemma hSelectUnassignedVariable_some {csp : CSPModel} {a : Assign} {m deg : Bool}
    {var : Nat} {legal : List Nat}
    (h : hSelectUnassignedVariable csp a m deg = (some var, legal)) :
    var ∈ csp.vars ∧ alookup a var = none ∧ legal = getLegalValues csp var a := by
  unfold hSelectUnassignedVariable at h
  cases hcand : hCandidates csp a with
  | nil =>
    rw [hcand] at h
    simp at h
  | cons c0 cs =>
    rw [hcand] at h
    cases hsort : (hFilterMrv (hFilterDegree (c0 :: cs) deg) m).insertionSort hCandLe with
    | nil =>
      simp only [hsort] at h
      simp at h
    | cons best rest =>
      simp only [hsort, Prod.mk.injEq, Option.some.injEq] at h
      have hbmem : best ∈ (hFilterMrv (hFilterDegree (c0 :: cs) deg) m).insertionSort hCandLe := by
        rw [hsort]
        exact List.mem_cons_self best rest
      have hbf : best ∈ hFilterMrv (hFilterDegree (c0 :: cs) deg) m :=
        (List.Perm.mem_iff (List.perm_insertionSort hCandLe _)).mp hbmem
      have hbc : best ∈ hCandidates csp a := by
        rw [hcand]
        exact hFilterDegree_subset best (hFilterMrv_subset best hbf)
      obtain ⟨v, hv, hnone, hceq⟩ := mem_hCandidates.mp hbc
      have hvar : best.var = v := by rw [hceq]
      have hleg : best.legal = getLegalValues csp v a := by rw [hceq]
      refine ⟨?_, ?_, ?_⟩
      · rw [← h.1, hvar]
        exact hv
      · rw [← h.1, hvar]
        exact hnone
      · rw [← h.2, hleg, ← h.1, hvar]

lemma orderDomainValues_perm (csp : CSPModel) (var : Nat) (legal : List Nat)
    (a : Assign) (useLcv : Bool) :
    List.Perm (orderDomainValues csp var legal a useLcv) legal := by
  unfold orderDomainValues
  by_cases hl : useLcv
  · rw [if_neg (by simp [hl])]
    have hp := List.perm_insertionSort lcvLe
      (legal.map (fun value => (countValueImpact csp var value a, value)))
    have hm := hp.map Prod.snd
    have : (legal.map (fun value => (countValueImpact csp var value a, value))).map Prod.snd
        = legal := by
      rw [List.map_map]
      exact List.map_id legal
    rwa [this] at hm
  · rw [if_pos (by simp [hl])]

lemma mem_getLegalValues {csp : CSPModel} {var value : Nat} {a : Assign}
    (h : value ∈ getLegalValues csp var a) :
    value ∈ csp.domains var ∧ isConsistent csp var value a = true := by
  unfold getLegalValues at h
  exact ⟨List.mem_of_mem_filter h, by simpa using List.of_mem_filter h⟩

/-- Soundness of the heuristic solver. -/
lemma hRecursiveBacktrack_sound {csp : CSPModel} (hwf : WF csp) (m deg lcv : Bool) :
    ∀ (fuel : Nat) (a r : Assign), SearchInv csp a →
      hRecursiveBacktrack csp m deg lcv fuel a = some r →
      isSolution csp r = true ∧ SearchInv csp r := by
  intro fuel
  induction fuel with
  | zero =>
    intro a r hinv h
    rw [hRecursiveBacktrack] at h
    by_cases hcomp : isComplete csp a = true
    · rw [if_pos hcomp] at h
      cases h
      exact ⟨hinv.solution hwf (by simpa [isComplete] using hcomp), hinv⟩
    · rw [if_neg hcomp] at h
      simp at h
  | succ f ih =>
    intro a r hinv h
    rw [hRecursiveBacktrack] at h
    by_cases hcomp : isComplete csp a = true
    · rw [if_pos hcomp] at h
      cases h
      exact ⟨hinv.solution hwf (by simpa [isComplete] using hcomp), hinv⟩
    · rw [if_neg hcomp] at h
      rcases hsel : hSelectUnassignedVariable csp a m deg with ⟨ovar, legal⟩
      cases ovar with
      | none =>
        simp only [hsel] at h
        simp at h
      | some var =>
        simp only [hsel] at h
        by_cases hleg : legal = []
        · rw [if_pos hleg] at h
          simp at h
        · rw [if_neg hleg] at h
          obtain ⟨hvar, hun, hlegal⟩ := hSelectUnassignedVariable_some hsel
          refine btTryValues_some (fun r' => isSolution csp r' = true ∧ SearchInv csp r') ?_ h
          intro value r' hm hc hr
          have hvdom : value ∈ csp.domains var := by
            have h1 : value ∈ legal :=
              (List.Perm.mem_iff (orderDomainValues_perm csp var legal a lcv)).mp hm
            rw [hlegal] at h1
            exact (mem_getLegalValues h1).1
          exact ih ((var, value) :: a) r' (hinv.step hvar hun hvdom hc) hr

/-- `current_domains` pointwise refines the declared domains. -/
def DomSub (csp : CSPModel) (d : Doms) : Prop :=
  ∀ v, dget d v ⊆ (csp.domains v).toFinset

lemma dget_map_mk (l : List Nat) (f : Nat → Finset Nat) (v : Nat) :
    dget (l.map (fun w => (w, f w))) v = if v ∈ l then f v else ∅ := by
  induction l with
  | nil => simp [dget]
  | cons x xs ih =>
    by_cases hx : x = v
    · subst hx
      simp [dget_cons_self]
    · rw [List.map_cons, dget_cons_ne hx, ih]
      by_cases hv : v ∈ xs
      · simp [hv, hx]
      · have hvx : v ≠ x := fun he => hx he.symm
        simp [hv, hvx]

lemma initDoms_domsub (csp : CSPModel) : DomSub csp (initDoms csp) := by
  intro v
  unfold initDoms
  rw [dget_map_mk]
  by_cases hv : v ∈ csp.vars
  · rw [if_pos hv]
  · rw [if_neg hv]
    exact Finset.empty_subset _

lemma ibSelectVar_some {csp : CSPModel} {d : Doms} {a : Assign} {var : Nat}
    (h : ibSelectVar csp d a = some var) :
    var ∈ csp.vars ∧ alookup a var = none := by
  have h2 : ((csp.vars.filter (fun v => (alookup a v).isNone)).insertionSort
      (ibKeyLe d)).head? = some var := h
  clear h
  rename' h2 => h
  cases hs : (csp.vars.filter (fun v => (alookup a v).isNone)).insertionSort (ibKeyLe d) with
  | nil =>
    rw [hs] at h
    simp at h
  | cons b bs =>
    rw [hs] at h
    simp only [List.head?_cons, Option.some.injEq] at h
    have hbmem : b ∈ (csp.vars.filter (fun v => (alookup a v).isNone)).insertionSort (ibKeyLe d) := by
      rw [hs]
      exact List.mem_cons_self b bs
    have hbf : b ∈ csp.vars.filter (fun v => (alookup a v).isNone) :=
      (List.Perm.mem_iff (List.perm_insertionSort (ibKeyLe d) _)).mp hbmem
    rw [← h]
    exact ⟨List.mem_of_mem_filter hbf,
      by simpa [Option.isNone_iff_eq_none] using List.of_mem_filter hbf⟩

/-- Soundness of the inference solver's value loop: any returned success comes
from the continuation applied to a consistent extension by a listed value,
with the domains produced by the inference step on the loop's entry
domains. -/
lemma ibTryValues_some {csp : CSPModel} {techs : List Tech}
    {rec : Assign → Doms → Option Assign × Doms} {a : Assign} {var : Nat}
    {d dOut : Doms} {r : Assign} (Q : Assign → Prop)
    (hrecFail : ∀ a' d' d2, rec a' d' = (none, d2) → d2 = d') :
    ∀ vals : List Nat,
      (∀ value d1 rs1 r' dr, value ∈ vals → isConsistent csp var value a = true →
        applyInference csp techs var ((var, value) :: a) d [] = (d1, rs1, true) →
        rec ((var, value) :: a) d1 = (some r', dr) → Q r') →
      ibTryValues csp techs rec a var d vals = (some r, dOut) → Q r := by
  intro vals
  induction vals with
  | nil =>
    intro _ h
    rw [ibTryValues_nil] at h
    simp at h
  | cons v rest ih =>
    intro hrec h
    by_cases hc : isConsistent csp var v a = true
    · rcases happ : applyInference csp techs var ((var, v) :: a) d [] with ⟨d1, rs1, ok⟩
      have hundo := applyInference_empty_undo csp techs var ((var, v) :: a) d
      rw [happ] at hundo
      cases ok with
      | true =>
        rcases hr : rec ((var, v) :: a) d1 with ⟨o, d2⟩
        cases o with
        | some r' =>
          rw [ibTryValues_cons_found hc happ hr] at h
          simp only [Prod.mk.injEq, Option.some.injEq] at h
          rw [← h.1]
          exact hrec v d1 rs1 r' d2 (List.mem_cons_self v rest) hc happ hr
        | none =>
          rw [ibTryValues_cons_deeperfail hc happ hr] at h
          rw [hrecFail _ _ _ hr] at h
          rw [show drestore rs1 d1 = d from hundo] at h
          exact ih (fun value d1' rs1' r' dr hm hc' happ' hr' =>
            hrec value d1' rs1' r' dr (List.mem_cons_of_mem v hm) hc' happ' hr') h
      | false =>
        rw [ibTryValues_cons_inffail hc happ] at h
        rw [show drestore rs1 d1 = d from hundo] at h
        exact ih (fun value d1' rs1' r' dr hm hc' happ' hr' =>
          hrec value d1' rs1' r' dr (List.mem_cons_of_mem v hm) hc' happ' hr') h
    · rw [ibTryValues_cons_skip hc] at h
      exact ih (fun value d1' rs1' r' dr hm hc' happ' hr' =>
        hrec value d1' rs1' r' dr (List.mem_cons_of_mem v hm) hc' happ' hr') h

/-- Soundness of the inference solver. -/
lemma ibBacktrack_sound {csp : CSPModel} {techs : List Tech} (hwf : WF csp) :
    ∀ (fuel : Nat) (a : Assign) (d : Doms) (r : Assign) (dOut : Doms),
      SearchInv csp a → DomSub csp d →
      ibBacktrack csp techs fuel a d = (some r, dOut) →
      isSolution csp r = true ∧ SearchInv csp r := by
  intro fuel
  induction fuel with
  | zero =>
    intro a d r dOut hinv hds h
    rw [ibBacktrack] at h
    by_cases hcomp : a.length = csp.vars.length
    · rw [if_pos hcomp] at h
      simp only [Prod.mk.injEq, Option.some.injEq] at h
      rw [← h.1]
      exact ⟨hinv.solution hwf hcomp, hinv⟩
    · rw [if_neg hcomp] at h
      simp at h
  | succ f ih =>
    intro a d r dOut hinv hds h
    rw [ibBacktrack] at h
    by_cases hcomp : a.length = csp.vars.length
    · rw [if_pos hcomp] at h
      simp only [Prod.mk.injEq, Option.some.injEq] at h
      rw [← h.1]
      exact ⟨hinv.solution hwf hcomp, hinv⟩
    · rw [if_neg hcomp] at h
      cases hsel : ibSelectVar csp d a with
      | none =>
        rw [hsel] at h
        simp at h
      | some var =>
        rw [hsel] at h
        obtain ⟨hvar, hun⟩ := ibSelectVar_some hsel
        refine ibTryValues_some (fun r' => isSolution csp r' = true ∧ SearchInv csp r')
          (fun a' d' d2 hr => ibBacktrack_none_doms f a' d' d2 hr) (ibOrderValues d var) ?_ h
        intro value d1 rs1 r' dr hm hc happ hr
        have hvdom : value ∈ csp.domains var := by
          have h1 : value ∈ dget d var := by
            unfold ibOrderValues at hm
            exact mem_fiter.mp hm
          exact List.mem_toFinset.mp (hds var h1)
        have hds1 : DomSub csp d1 := by
          intro v
          have hdomle := applyInference_domle csp techs var ((var, value) :: a) d []
          rw [happ] at hdomle
          exact Finset.Subset.trans (hdomle v) (hds v)
        exact ih ((var, value) :: a) d1 r' dr (hinv.step hvar hun hvdom hc) hds1 hr

/-! ## Concrete instances used by the witnesses -/

/-- Binary inequality constraint for the concrete test instances. -/
def neqRel : Relation :=
  Relation.predRel (fun vals =>
    match vals with
    | [x, y] => decide (x ≠ y)
    | _ => false)

/-- A concrete 3-variable, 2-colour path-colouring instance. -/
def cspW : CSPModel :=
  CSPModel.mk [0, 1, 2] (fun _ => [0, 1])
    [ConstraintC.mk [0, 1] neqRel, ConstraintC.mk [1, 2] neqRel]

/-- The assignment the solvers find on `cspW`. -/
def aW : Assign := [(2, 0), (1, 1), (0, 0)]

/-- An unsatisfiable instance: two variables, a single shared value, and an
inequality constraint. -/
def cspU : CSPModel :=
  CSPModel.mk [0, 1] (fun _ => [5]) [ConstraintC.mk [0, 1] neqRel]

/-! ## Theorems -/

/-- C4. Consistency-check semantics: `is_consistent(var, value, assignment)`
is true iff every constraint whose scope contains `var` is satisfied by the
assignment extended with `var ↦ value`, a constraint with an unassigned
scope variable counting as (vacuously) satisfied; and a constraint not
touching `var` is never evaluated — adding any such constraint to the CSP
cannot change the result. -/
theorem c4_consistency_semantics (csp : CSPModel) (var value : Nat) (a : Assign) :
    (isConsistent csp var value a = true ↔
      ∀ c ∈ csp.constraints, var ∈ c.scope → satisfiedSpec c ((var, value) :: a)) ∧
    (∀ c : ConstraintC, var ∉ c.scope →
      isConsistent (CSPModel.mk csp.vars csp.domains (csp.constraints ++ [c])) var value a =
        isConsistent csp var value a) := by
  constructor
  · rw [isConsistent_iff]
    constructor
    · intro h c hc hvar
      exact (isSatisfiedC_iff_satisfiedSpec c _).mp (h c hc hvar)
    · intro h c hc hvar
      exact (isSatisfiedC_iff_satisfiedSpec c _).mpr (h c hc hvar)
  · intro c hc
    unfold isConsistent
    simp only [List.all_append, List.all_cons, List.all_nil, Bool.and_true]
    rw [if_neg hc]
    simp

/-- C9. Zero-variable degenerate case: on a CSP with an empty variable set,
every solve entry point returns the empty assignment (a trivial solution)
rather than failing. -/
theorem c9_zero_variables (csp : CSPModel) (hwf : WF csp) (h : csp.vars = []) :
    backtrackingSearch csp = some [] ∧
    (∀ useMrv useDegree useLcv,
      heuristicBacktrackingSearch csp useMrv useDegree useLcv = some []) ∧
    (∀ techs : List Tech, ibSolveRun csp techs = (some [], initDoms csp)) ∧
    isSolution csp [] = true := by
  refine ⟨?_, ?_, ?_, ?_⟩
  · unfold backtrackingSearch recursiveBacktrack
    simp [isComplete, h]
  · intro m d l
    unfold heuristicBacktrackingSearch hRecursiveBacktrack
    simp [isComplete, h]
  · intro techs
    unfold ibSolveRun ibBacktrack
    simp [h]
  · have hc : csp.constraints = [] := by
      cases hcs : csp.constraints with
      | nil => rfl
      | cons c rest =>
        exfalso
        obtain ⟨hne, hsub⟩ := hwf.2.1 c (by rw [hcs]; exact List.mem_cons_self c rest)
        cases hsc : c.scope with
        | nil => exact hne hsc
        | cons v vs =>
          have := hsub v (by rw [hsc]; exact List.mem_cons_self v vs)
          rw [h] at this
          exact absurd this (List.not_mem_nil v)
    unfold isSolution isComplete
    simp [h, hc]

/-- C7. Unknown inference technique fails closed: if any requested name is
not one of `forward_checking`, `constraint_propagation`, `arc_consistency`,
constructing the solver yields the `UnknownTechniqueError` (listing exactly
the unknown names) for every CSP, before any search runs; if every name is
known, no error is raised and the search runs. -/
theorem c7_unknown_technique (names : List String) :
    ((∃ n ∈ names, techOfName n = none) →
      unknownTechniques names ≠ [] ∧
      ∀ csp : CSPModel,
        inferenceSolveByNames names csp = Except.error (unknownTechniques names)) ∧
    ((∀ n ∈ names, (techOfName n).isSome) →
      ∀ csp : CSPModel,
        inferenceSolveByNames names csp =
          Except.ok (ibSolveRun csp (names.filterMap techOfName))) ∧
    (∀ n : String, techOfName n = none ↔
      (n ≠ "forward_checking" ∧ n ≠ "constraint_propagation" ∧ n ≠ "arc_consistency")) := by
  refine ⟨?_, ?_, ?_⟩
  · intro ⟨n, hn, hnone⟩
    have hne : unknownTechniques names ≠ [] := by
      unfold unknownTechniques
      intro hemp
      have : n ∈ List.filter (fun n => (techOfName n).isNone) names :=
        List.mem_filter.mpr ⟨hn, by simp [hnone]⟩
      rw [hemp] at this
      exact absurd this (List.not_mem_nil n)
    refine ⟨hne, fun csp => ?_⟩
    unfold inferenceSolveByNames mkInferenceSolver
    rw [if_neg hne]
  · intro hall csp
    have hemp : unknownTechniques names = [] := by
      unfold unknownTechniques
      rw [List.filter_eq_nil_iff]
      intro n hn
      simp [Option.isNone_iff_eq_none, Option.isSome_iff_ne_none.mp (hall n hn)]
    unfold inferenceSolveByNames mkInferenceSolver
    rw [if_pos hemp]
  · intro n
    unfold techOfName
    by_cases h1 : n = "forward_checking"
    · simp [h1]
    · by_cases h2 : n = "constraint_propagation"
      · simp [h1, h2]
      · by_cases h3 : n = "arc_consistency"
        · simp [h1, h2, h3]
        · simp [h1, h2, h3]

/-- C1. Soundness of the backtracking solvers: whenever
`backtracking_search`, `heuristic_backtracking_search` (under any heuristic
flags) or `InferenceBacktrackingSolver.solve` (under any technique list)
returns an assignment rather than `None`, that assignment is complete and
satisfies every constraint, i.e. `is_solution` of it is true. -/
theorem c1_soundness (csp : CSPModel) (hwf : WF csp) :
    (∀ a, backtrackingSearch csp = some a → isSolution csp a = true) ∧
    (∀ useMrv useDegree useLcv a,
      heuristicBacktrackingSearch csp useMrv useDegree useLcv = some a →
        isSolution csp a = true) ∧
    (∀ techs a, ibSolve csp techs = some a → isSolution csp a = true) := by
  refine ⟨?_, ?_, ?_⟩
  · intro a h
    exact (recursiveBacktrack_sound hwf csp.vars.length [] a (SearchInv.nil csp hwf) h).1
  · intro m deg lcv a h
    exact (hRecursiveBacktrack_sound hwf m deg lcv csp.vars.length [] a
      (SearchInv.nil csp hwf) h).1
  · intro techs a h
    unfold ibSolve ibSolveRun at h
    rcases hr : ibBacktrack csp techs csp.vars.length [] (initDoms csp) with ⟨o, dOut⟩
    rw [hr] at h
    simp only at h
    rw [h] at hr
    exact (ibBacktrack_sound hwf csp.vars.length [] (initDoms csp) a dOut
      (SearchInv.nil csp hwf) (initDoms_domsub csp) hr).1

/-- Witness for C1 at the concrete instance `cspW`. -/
theorem c1_soundness_witness :
    backtrackingSearch cspW = some aW ∧ isSolution cspW aW = true :=
  ⟨by decide, (c1_soundness cspW (by decide)).1 aW (by decide)⟩

/-- The zero-variable CSP. -/
def cspZ : CSPModel := CSPModel.mk [] (fun _ => []) []

/-- Witness for C9 at the zero-variable CSP. -/
theorem c9_zero_variables_witness :
    backtrackingSearch cspZ = some [] ∧
    heuristicBacktrackingSearch cspZ true true true = some [] ∧
    ibSolveRun cspZ [Tech.ac3] = (some [], initDoms cspZ) ∧
    isSolution cspZ [] = true := by
  have h := c9_zero_variables cspZ (by decide) rfl
  exact ⟨h.1, h.2.1 true true true, h.2.2.1 [Tech.ac3], h.2.2.2⟩

/-- Witness for C7 at concrete technique-name lists. -/
theorem c7_unknown_technique_witness :
    inferenceSolveByNames ["bogus"] cspU = Except.error ["bogus"] ∧
    inferenceSolveByNames ["forward_checking"] cspU =
      Except.ok (ibSolveRun cspU [Tech.fc]) := by
  constructor
  · have h := (c7_unknown_technique ["bogus"]).1 ⟨"bogus", by decide, by decide⟩
    rw [h.2 cspU]
    rfl
  · have h := (c7_unknown_technique ["forward_checking"]).2.1 (by decide) cspU
    rw [h]
    rfl

/-- A satisfiable one-variable instance with no constraints. -/
def csp3 : CSPModel := CSPModel.mk [0] (fun _ => [1, 2]) []

/-- C3 (counterexample to the claim as stated).  The claim asserts that after
`solve()` returns, "whether a solution was found or not", every variable's
working domain equals its pre-solve value.  On the one-variable constraint-free
CSP the solver succeeds, and variable 0's working domain afterwards is the
pruned singleton, not its pre-solve two-value domain. -/
theorem c3_success_not_restored :
    (ibSolveRun csp3 []).1.isSome = true ∧
    dget (ibSolveRun csp3 []).2 0 ≠ dget (initDoms csp3) 0 := by decide

/-- C3 (amended).  Domain restoration invariant: for every CSP and technique
selection, the removal trail of a TRY undoes its inference pruning exactly —
replaying the trail over the domains any `_apply_inference` call produces
restores the domains at entry to the TRY; consequently every failed
`_backtrack` call leaves `current_domains` exactly as it found it, and when
`solve()` returns `None` every working domain equals its pre-solve value.
(On success the prunings of the solution branch are not undone, per the
counterexample.) -/
theorem c3_domain_restoration (csp : CSPModel) (techs : List Tech) :
    (∀ var a d d1 rs ok, applyInference csp techs var a d [] = (d1, rs, ok) →
      drestore rs d1 = d) ∧
    (∀ fuel a d dOut, ibBacktrack csp techs fuel a d = (none, dOut) → dOut = d) ∧
    ((ibSolveRun csp techs).1 = none → (ibSolveRun csp techs).2 = initDoms csp) := by
  refine ⟨?_, ?_, ?_⟩
  · intro var a d d1 rs ok h
    have := applyInference_empty_undo csp techs var a d
    rw [h] at this
    exact this
  · intro fuel a d dOut h
    exact ibBacktrack_none_doms fuel a d dOut h
  · intro h
    unfold ibSolveRun at h ⊢
    rcases hr : ibBacktrack csp techs csp.vars.length [] (initDoms csp) with ⟨o, dOut⟩
    rw [hr] at h
    simp only at h
    rw [h] at hr
    exact ibBacktrack_none_doms csp.vars.length [] (initDoms csp) dOut hr

/-- Witness for C3 (amended) at the unsatisfiable instance `cspU` with
forward checking: the search fails and the working domains are exactly the
pre-solve domains. -/
theorem c3_domain_restoration_witness :
    (ibSolveRun cspU [Tech.fc]).1 = none ∧
    (ibSolveRun cspU [Tech.fc]).2 = initDoms cspU :=
  ⟨by decide, (c3_domain_restoration cspU [Tech.fc]).2.2 (by decide)⟩

/-! ## C6: combined variable selection -/

instance : IsTrans HCand hCandLe :=
  ⟨fun _ _ _ hab hbc => Nat.le_trans hab hbc⟩

instance : IsTotal HCand hCandLe :=
  ⟨fun c c' => Nat.le_total c.var c'.var⟩

lemma sorted_head_min {l : List HCand} {best : HCand} {rest : List HCand}
    (h : l.insertionSort hCandLe = best :: rest) :
    ∀ c ∈ l, hCandLe best c := by
  have hs : List.Sorted hCandLe (l.insertionSort hCandLe) :=
    List.sorted_insertionSort hCandLe l
  rw [h] at hs
  intro c hc
  have hmem : c ∈ best :: rest := by
    rw [← h]
    exact (List.Perm.mem_iff (List.perm_insertionSort hCandLe l)).mpr hc
  rcases List.mem_cons.mp hmem with he | hm
  · rw [he]
    exact Nat.le_refl _
  · exact (List.sorted_cons.mp hs).1 c hm

lemma hCand_fields {csp : CSPModel} {a : Assign} {c : HCand} (h : c ∈ hCandidates csp a) :
    c.degree = countUnassignedNeighbors csp c.var a ∧
    c.count = (getLegalValues csp c.var a).length ∧
    c.legal = getLegalValues csp c.var a ∧
    c.var ∈ csp.vars ∧ alookup a c.var = none := by
  obtain ⟨v, hv, hn, hc⟩ := mem_hCandidates.mp h
  subst hc
  exact ⟨rfl, rfl, rfl, hv, hn⟩

/-- The unassigned variables, in variable order (claim wording). -/
def unassignedVars (csp : CSPModel) (a : Assign) : List Nat :=
  csp.vars.filter (fun v => (alookup a v).isNone)

/-- Claim wording: the unassigned variables with the maximum count of
unassigned neighbours. -/
def degreeSurvivors (csp : CSPModel) (a : Assign) : List Nat :=
  (unassignedVars csp a).filter
    (fun v => countUnassignedNeighbors csp v a =
      pyMax ((unassignedVars csp a).map (fun w => countUnassignedNeighbors csp w a)))

/-- Claim wording: among the degree survivors, the variables with the
minimum legal-value count. -/
def mrvSurvivors (csp : CSPModel) (a : Assign) : List Nat :=
  (degreeSurvivors csp a).filter
    (fun v => (getLegalValues csp v a).length =
      pyMin ((degreeSurvivors csp a).map (fun w => (getLegalValues csp w a).length)))

lemma filter_map_var (l : List HCand) (q : Nat → Bool) :
    (l.map HCand.var).filter q = (l.filter (fun c => q c.var)).map HCand.var := by
  induction l with
  | nil => rfl
  | cons c cs ih =>
    rw [List.map_cons, List.filter_cons, List.filter_cons]
    by_cases hq : q c.var
    · rw [if_pos (by simpa using hq), if_pos (by simpa using hq), List.map_cons, ih]
    · rw [if_neg (by simpa using hq), if_neg (by simpa using hq), ih]

lemma map_var_hCandidates (csp : CSPModel) (a : Assign) :
    (hCandidates csp a).map HCand.var = unassignedVars csp a := by
  unfold hCandidates unassignedVars
  induction csp.vars with
  | nil => rfl
  | cons v vs ih =>
    rw [List.filterMap_cons, List.filter_cons]
    by_cases hv : (alookup a v).isSome
    · have hnone : (alookup a v).isNone = false := by
        cases ho : alookup a v with
        | none =>
          rw [ho] at hv
          simp at hv
        | some x => rfl
      simp only [hv, if_true, hnone, Bool.false_eq_true, if_false]
      exact ih
    · have hnone : (alookup a v).isNone = true := by
        simp [Option.not_isSome_iff_eq_none.mp hv]
      simp only [hv, Bool.false_eq_true, if_false, hnone, if_true, List.map_cons]
      rw [ih]

lemma map_var_filter_eq (q : Nat → Bool) {cands : List HCand} {p : HCand → Bool}
    (hpq : ∀ c ∈ cands, p c = q c.var) :
    (cands.filter p).map HCand.var = (cands.map HCand.var).filter q := by
  have h1 : cands.filter p = cands.filter (fun c => q c.var) := List.filter_congr hpq
  rw [h1, filter_map_var]

lemma map_var_f1 (csp : CSPModel) (a : Assign) :
    (hFilterDegree (hCandidates csp a) true).map HCand.var = degreeSurvivors csp a := by
  unfold hFilterDegree degreeSurvivors
  rw [if_pos rfl]
  have hm : (hCandidates csp a).map HCand.degree =
      (unassignedVars csp a).map (fun w => countUnassignedNeighbors csp w a) := by
    rw [← map_var_hCandidates, List.map_map]
    exact List.map_congr_left (fun c hc => (hCand_fields hc).1)
  rw [hm]
  rw [map_var_filter_eq
    (fun v => decide (countUnassignedNeighbors csp v a =
      pyMax ((unassignedVars csp a).map (fun w => countUnassignedNeighbors csp w a))))
    (fun c hc => by rw [(hCand_fields hc).1]), map_var_hCandidates]

lemma map_var_f2 (csp : CSPModel) (a : Assign) :
    (hFilterMrv (hFilterDegree (hCandidates csp a) true) true).map HCand.var =
      mrvSurvivors csp a := by
  unfold hFilterMrv mrvSurvivors
  rw [if_pos rfl]
  have hsub : ∀ c ∈ hFilterDegree (hCandidates csp a) true, c ∈ hCandidates csp a :=
    hFilterDegree_subset
  have hm : (hFilterDegree (hCandidates csp a) true).map HCand.count =
      (degreeSurvivors csp a).map (fun w => (getLegalValues csp w a).length) := by
    rw [← map_var_f1, List.map_map]
    exact List.map_congr_left (fun c hc => (hCand_fields (hsub c hc)).2.1)
  rw [hm]
  rw [map_var_filter_eq
    (fun v => decide ((getLegalValues csp v a).length =
      pyMin ((degreeSurvivors csp a).map (fun w => (getLegalValues csp w a).length))))
    (fun c hc => by rw [(hCand_fields (hsub c hc)).2.1]), map_var_f1]

/-- C6. Combined variable-selection order: with Degree and MRV both enabled
and at least one unassigned variable, the selected variable is an unassigned
variable of maximum unassigned-neighbour count (Degree filter) whose
legal-value count is minimal among those survivors (MRV filter), and among
the remaining ties it is the least in the total order on variable identity —
hence uniquely determined; the returned legal values are its legal values. -/
theorem c6_combined_selection (csp : CSPModel) (a : Assign)
    (h : ∃ v ∈ csp.vars, alookup a v = none) :
    ∃ var legal, hSelectUnassignedVariable csp a true true = (some var, legal) ∧
      var ∈ mrvSurvivors csp a ∧
      (∀ w ∈ mrvSurvivors csp a, var ≤ w) ∧
      legal = getLegalValues csp var a := by
  obtain ⟨v0, hv0, hn0⟩ := h
  have hcne : hCandidates csp a ≠ [] := by
    have hv0m : v0 ∈ (hCandidates csp a).map HCand.var := by
      rw [map_var_hCandidates]
      exact List.mem_filter.mpr ⟨hv0, by simp [hn0]⟩
    intro hnil
    rw [hnil] at hv0m
    exact absurd hv0m (List.not_mem_nil v0)
  cases hcand : hCandidates csp a with
  | nil => exact absurd hcand hcne
  | cons c0 cs =>
    have hf2ne : hFilterMrv (hFilterDegree (c0 :: cs) true) true ≠ [] :=
      hFilterMrv_ne_nil (hFilterDegree_ne_nil (by simp))
    cases hsort : (hFilterMrv (hFilterDegree (c0 :: cs) true) true).insertionSort hCandLe with
    | nil =>
      exfalso
      have hperm := List.perm_insertionSort hCandLe
        (hFilterMrv (hFilterDegree (c0 :: cs) true) true)
      rw [hsort] at hperm
      exact hf2ne (List.Perm.nil_eq hperm).symm
    | cons best rest =>
      have hb1 : best ∈ (hFilterMrv (hFilterDegree (c0 :: cs) true) true).insertionSort
          hCandLe := by
        rw [hsort]
        exact List.mem_cons_self best rest
      have hbmem : best ∈ hFilterMrv (hFilterDegree (c0 :: cs) true) true :=
        (List.Perm.mem_iff (List.perm_insertionSort hCandLe _)).mp hb1
      have hbc : best ∈ hCandidates csp a := by
        rw [hcand]
        exact hFilterDegree_subset best (hFilterMrv_subset best hbmem)
      refine ⟨best.var, best.legal, ?_, ?_, ?_, ?_⟩
      · unfold hSelectUnassignedVariable
        simp only [hcand, hsort]
      · have hv : best.var ∈
            (hFilterMrv (hFilterDegree (hCandidates csp a) true) true).map HCand.var := by
          rw [hcand]
          exact List.mem_map_of_mem HCand.var hbmem
        rw [map_var_f2] at hv
        exact hv
      · intro w hw
        have hv : w ∈
            (hFilterMrv (hFilterDegree (hCandidates csp a) true) true).map HCand.var := by
          rw [map_var_f2]
          exact hw
        rw [hcand] at hv
        obtain ⟨c, hc, hcv⟩ := List.mem_map.mp hv
        rw [← hcv]
        exact sorted_head_min hsort c hc
      · exact (hCand_fields hbc).2.2.1

/-- Witness for C6 at the concrete instance `cspW` with the empty
assignment: variable 1 (degree 2) is selected. -/
theorem c6_combined_selection_witness :
    (∃ v ∈ cspW.vars, alookup ([] : Assign) v = none) ∧
    (∃ var legal, hSelectUnassignedVariable cspW [] true true = (some var, legal) ∧
      var ∈ mrvSurvivors cspW [] ∧
      (∀ w ∈ mrvSurvivors cspW [], var ≤ w) ∧
      legal = getLegalValues cspW var []) :=
  ⟨by decide, c6_combined_selection cspW [] (by decide)⟩

/-! ## C8: least-constraining-value ordering -/

lemma not_mem_neighborsOf_self (csp : CSPModel) (v : Nat) : v ∉ neighborsOf csp v := by
  unfold neighborsOf
  intro h
  rw [List.mem_dedup, List.mem_flatMap] at h
  obtain ⟨c, -, hmem⟩ := h
  have := List.of_mem_filter hmem
  simp at this

lemma ne_of_mem_neighborsOf {csp : CSPModel} {v n : Nat} (h : n ∈ neighborsOf csp v) :
    n ≠ v := by
  unfold neighborsOf at h
  rw [List.mem_dedup, List.mem_flatMap] at h
  obtain ⟨c, -, hmem⟩ := h
  have := List.of_mem_filter hmem
  simpa using this

/-- Assigning a previously-unassigned variable can only invalidate values of
another variable, never legalise them. -/
lemma isConsistent_mono {csp : CSPModel} {n x var value : Nat} {a : Assign}
    (hnv : n ≠ var) (hun : alookup a var = none)
    (h : isConsistent csp n x ((var, value) :: a) = true) :
    isConsistent csp n x a = true := by
  rw [isConsistent_iff] at h ⊢
  intro c hc hnc
  by_cases hall : ∀ v ∈ c.scope, (alookup ((n, x) :: a) v).isSome = true
  · have hvars : var ∉ c.scope := by
      intro hvc
      have hs := hall var hvc
      rw [alookup_cons_ne a x (fun he => hnv he)] at hs
      rw [hun] at hs
      simp at hs
    have hlk : ∀ v ∈ c.scope,
        alookup ((n, x) :: (var, value) :: a) v = alookup ((n, x) :: a) v := by
      intro v hv
      by_cases hvn : n = v
      · subst hvn
        rw [alookup_cons_self, alookup_cons_self]
      · rw [alookup_cons_ne _ _ hvn, alookup_cons_ne _ _ hvn]
        exact alookup_cons_ne a value (fun he => hvars (he ▸ hv))
    rw [← isSatisfiedC_congr hlk]
    exact h c hc hnc
  · push_neg at hall
    obtain ⟨v, hv, hns⟩ := hall
    unfold isSatisfiedC
    rw [if_pos]
    exact List.any_eq_true.mpr ⟨v, hv, by
      rw [Option.not_isSome_iff_eq_none.mp hns]
      rfl⟩

lemma countP_split (l : List Nat) (p q1 q2 : Nat → Bool)
    (hcover : ∀ x ∈ l, p x = (q1 x || q2 x))
    (hdisj : ∀ x ∈ l, ¬ (q1 x = true ∧ q2 x = true)) :
    l.countP p = l.countP q1 + l.countP q2 := by
  induction l with
  | nil => rfl
  | cons y ys ih =>
    rw [List.countP_cons, List.countP_cons, List.countP_cons]
    have hys := ih (fun x hx => hcover x (List.mem_cons_of_mem y hx))
      (fun x hx => hdisj x (List.mem_cons_of_mem y hx))
    have hy := hcover y (List.mem_cons_self y ys)
    have hdy := hdisj y (List.mem_cons_self y ys)
    rw [hys, hy]
    cases h1 : q1 y with
    | true =>
      cases h2 : q2 y with
      | true => exact absurd ⟨h1, h2⟩ hdy
      | false =>
        simp only [h1, h2, Bool.true_or]
        simp
        omega
    | false =>
      cases h2 : q2 y with
      | true =>
        simp only [h1, h2, Bool.false_or]
        simp
        omega
      | false =>
        simp only [h1, h2, Bool.or_false]
        simp

lemma countP_compl (l : List Nat) (p : Nat → Bool) :
    l.countP p + l.countP (fun x => ! p x) = l.length := by
  induction l with
  | nil => rfl
  | cons y ys ih =>
    rw [List.countP_cons, List.countP_cons, List.length_cons]
    cases h : p y <;> simp [h] <;> omega

lemma foldr_add_sum (g : Nat → Nat) (l : List Nat) :
    l.foldr (fun n acc => g n + acc) 0 = (l.map g).sum := by
  induction l with
  | nil => rfl
  | cons y ys ih => simp [ih]

lemma sum_map_add (l : List Nat) (f g : Nat → Nat) :
    (l.map (fun n => f n + g n)).sum = (l.map f).sum + (l.map g).sum := by
  induction l with
  | nil => rfl
  | cons y ys ih =>
    simp only [List.map_cons, List.sum_cons, ih]
    omega

/-- Claim wording: the number of domain values of unassigned neighbours that
become inconsistent when `var := value` is tentatively assigned (consistent
before, inconsistent after). -/
def becomeInconsistent (csp : CSPModel) (var value : Nat) (a : Assign) : Nat :=
  (((neighborsOf csp var).filter (fun n => (alookup a n).isNone)).map
    (fun n => (csp.domains n).countP
      (fun x => isConsistent csp n x a && ! isConsistent csp n x ((var, value) :: a)))).sum

/-- The neighbour values that were already inconsistent before the tentative
assignment; this does not depend on the candidate value. -/
def alreadyInconsistent (csp : CSPModel) (var : Nat) (a : Assign) : Nat :=
  (((neighborsOf csp var).filter (fun n => (alookup a n).isNone)).map
    (fun n => (csp.domains n).countP (fun x => ! isConsistent csp n x a))).sum

lemma countValueImpact_decompose (csp : CSPModel) (var value : Nat) (a : Assign)
    (hun : alookup a var = none) :
    countValueImpact csp var value a =
      becomeInconsistent csp var value a + alreadyInconsistent csp var a := by
  unfold countValueImpact becomeInconsistent alreadyInconsistent
  rw [foldr_add_sum, ← sum_map_add]
  apply congrArg
  apply List.map_congr_left
  intro n hn
  have hnv : n ≠ var := ne_of_mem_neighborsOf (List.mem_of_mem_filter hn)
  have hcompl := countP_compl (csp.domains n)
    (fun x => isConsistent csp n x ((var, value) :: a))
  have hsplit := countP_split (csp.domains n)
    (fun x => ! isConsistent csp n x ((var, value) :: a))
    (fun x => isConsistent csp n x a && ! isConsistent csp n x ((var, value) :: a))
    (fun x => ! isConsistent csp n x a)
    (by
      intro x hx
      cases hb : isConsistent csp n x a with
      | true => simp [hb]
      | false =>
        have hafter : isConsistent csp n x ((var, value) :: a) = false := by
          cases haf : isConsistent csp n x ((var, value) :: a) with
          | false => rfl
          | true =>
            rw [isConsistent_mono hnv hun haf] at hb
            exact absurd hb (by simp)
        simp [hb, hafter])
    (by
      intro x hx h
      obtain ⟨h1, h2⟩ := h
      simp only [Bool.and_eq_true, Bool.not_eq_true'] at h1 h2
      rw [h1.1] at h2
      exact absurd h2 (by simp))
  have hflen : ((csp.domains n).filter
      (fun x => isConsistent csp n x ((var, value) :: a))).length =
      (csp.domains n).countP (fun x => isConsistent csp n x ((var, value) :: a)) := by
    rw [List.countP_eq_length_filter]
  rw [hflen]
  omega

instance : IsTrans (Nat × Nat) lcvLe :=
  ⟨fun p q r hpq hqr => by
    unfold lcvLe at *
    omega⟩

instance : IsTotal (Nat × Nat) lcvLe :=
  ⟨fun p q => by
    unfold lcvLe
    omega⟩

/-- Claim wording of the LCV order: ascending by number of neighbour values
that become inconsistent, ties broken by the value itself. -/
def lcvClaimLe (csp : CSPModel) (var : Nat) (a : Assign) (v w : Nat) : Prop :=
  becomeInconsistent csp var v a < becomeInconsistent csp var w a ∨
  (becomeInconsistent csp var v a = becomeInconsistent csp var w a ∧ v ≤ w)

/-- C8. LCV value ordering: with LCV enabled the returned list is a
permutation of the legal values (the ordering step removes nothing), sorted
ascending by the number of neighbour-domain values that become inconsistent
under the tentative assignment, ties broken by the deterministic value
order; with LCV disabled the legal values are returned in their given
order. -/
theorem c8_lcv_ordering (csp : CSPModel) (var : Nat) (legal : List Nat) (a : Assign)
    (hun : alookup a var = none) :
    List.Perm (orderDomainValues csp var legal a true) legal ∧
    List.Sorted (lcvClaimLe csp var a) (orderDomainValues csp var legal a true) ∧
    orderDomainValues csp var legal a false = legal := by
  refine ⟨orderDomainValues_perm csp var legal a true, ?_, by unfold orderDomainValues; simp⟩
  unfold orderDomainValues
  rw [if_neg (by simp)]
  have hsorted : List.Sorted lcvLe
      ((legal.map (fun value => (countValueImpact csp var value a, value))).insertionSort
        lcvLe) :=
    List.sorted_insertionSort lcvLe _
  have hcanon : ∀ p ∈ (legal.map
      (fun value => (countValueImpact csp var value a, value))).insertionSort lcvLe,
      p.1 = countValueImpact csp var p.2 a := by
    intro p hp
    have hm : p ∈ legal.map (fun value => (countValueImpact csp var value a, value)) :=
      (List.Perm.mem_iff (List.perm_insertionSort lcvLe _)).mp hp
    obtain ⟨v, hv, hpe⟩ := List.mem_map.mp hm
    rw [← hpe]
  rw [List.Sorted, List.pairwise_map]
  refine List.Pairwise.imp_of_mem ?_ hsorted
  intro p q hp hq hle
  have e1 : p.1 = becomeInconsistent csp var p.2 a + alreadyInconsistent csp var a := by
    rw [hcanon p hp, countValueImpact_decompose csp var p.2 a hun]
  have e2 : q.1 = becomeInconsistent csp var q.2 a + alreadyInconsistent csp var a := by
    rw [hcanon q hq, countValueImpact_decompose csp var q.2 a hun]
  unfold lcvLe at hle
  unfold lcvClaimLe
  omega

/-- Witness for C8 at the concrete instance `cspW`. -/
theorem c8_lcv_ordering_witness :
    List.Perm (orderDomainValues cspW 0 [0, 1] [(1, 0)] true) [0, 1] ∧
    List.Sorted (lcvClaimLe cspW 0 [(1, 0)]) (orderDomainValues cspW 0 [0, 1] [(1, 0)] true) ∧
    orderDomainValues cspW 0 [0, 1] [(1, 0)] false = [0, 1] :=
  c8_lcv_ordering cspW 0 [0, 1] [(1, 0)] (by decide)

/-! ## C5: the AC-3 technique -/

/-- Exact characterisation of one pruning pass when the `keep` predicate does
not depend on the pruned variable's own entry: exactly the kept values
survive, no other entry changes, and the flag reports whether anything was
pruned. -/
lemma pruneFilterGo_char (keep : Doms → Nat → Bool) (v : Nat)
    (hkeep : ∀ d₁ d₂ x, (∀ w, w ≠ v → dget d₁ w = dget d₂ w) → keep d₁ x = keep d₂ x) :
    ∀ (l : List Nat) (d : Doms) (rs : Removals) (flag : Bool),
      l.Nodup → (∀ x ∈ l, x ∈ dget d v) →
      dget (pruneFilterGo keep v l d rs flag).1 v =
        (dget d v).filter (fun x => decide (x ∉ l) || keep d x) ∧
      (∀ w, w ≠ v → dget (pruneFilterGo keep v l d rs flag).1 w = dget d w) ∧
      (pruneFilterGo keep v l d rs flag).2.2 = (flag || l.any (fun x => ! keep d x)) := by
  intro l
  induction l with
  | nil =>
    intro d rs flag hnd hmem
    refine ⟨?_, fun w hw => rfl, by simp [pruneFilterGo]⟩
    simp only [pruneFilterGo]
    apply Eq.symm
    apply Finset.filter_true_of_mem
    intro x hx
    simp
  | cons x rest ih =>
    intro d rs flag hnd hmem
    have hx : x ∈ dget d v := hmem x (List.mem_cons_self x rest)
    have hndr : rest.Nodup := (List.nodup_cons.mp hnd).2
    have hxr : x ∉ rest := (List.nodup_cons.mp hnd).1
    by_cases hk : keep d x = true
    · rw [pruneFilterGo_cons_keep hk]
      obtain ⟨h1, h2, h3⟩ := ih d rs flag hndr (fun y hy => hmem y (List.mem_cons_of_mem x hy))
      refine ⟨?_, h2, ?_⟩
      · rw [h1]
        apply Finset.filter_congr
        intro y hy
        by_cases hyx : y = x
        · subst hyx
          simp [hxr, hk]
        · simp [List.mem_cons, hyx]
      · rw [h3, List.any_cons, hk]
        simp
    · rw [Bool.not_eq_true] at hk
      rw [pruneFilterGo_cons_mem hk hx]
      set d₁ := dupdate d v ((dget d v).erase x) with hd₁
      have hothers : ∀ w, w ≠ v → dget d₁ w = dget d w := by
        intro w hw
        exact dget_dupdate_ne d v w _ (fun he => hw he.symm)
      have hkd : ∀ y, keep d₁ y = keep d y := fun y => hkeep d₁ d y hothers
      have hd₁v : dget d₁ v = (dget d v).erase x :=
        dget_dupdate_self _ (dmem_of_mem_dget hx)
      obtain ⟨h1, h2, h3⟩ := ih d₁ (rs ++ [(v, x)]) true hndr (by
        intro y hy
        rw [hd₁v, Finset.mem_erase]
        exact ⟨fun he => hxr (he ▸ hy), hmem y (List.mem_cons_of_mem x hy)⟩)
      refine ⟨?_, ?_, ?_⟩
      · rw [h1, hd₁v]
        ext y
        simp only [Finset.mem_filter, Finset.mem_erase, Bool.or_eq_true, decide_eq_true_eq,
          List.mem_cons, hkd]
        constructor
        · rintro ⟨⟨hyx, hyd⟩, hpred⟩
          refine ⟨hyd, ?_⟩
          rcases hpred with hnin | hkeep'
          · exact Or.inl (fun hc => hc.elim hyx hnin)
          · exact Or.inr hkeep'
        · rintro ⟨hyd, hpred⟩
          by_cases hyx : y = x
          · subst hyx
            rcases hpred with hnin | hkeep'
            · exact absurd (Or.inl rfl) hnin
            · rw [hkeep'] at hk
              exact absurd hk (by simp)
          · refine ⟨⟨hyx, hyd⟩, ?_⟩
            rcases hpred with hnin | hkeep'
            · exact Or.inl (fun hc => hnin (Or.inr hc))
            · exact Or.inr hkeep'
      · intro w hw
        rw [h2 w hw]
        exact hothers w hw
      · rw [h3, List.any_cons, hk]
        simp only [Bool.not_false, Bool.true_or, Bool.or_true]

/-- Exact characterisation of `pruneFilter` for entry-stable `keep` predicates:
it keeps exactly the values passing `keep`, leaves every other entry alone,
and flags iff some value was removed. -/
lemma pruneFilter_char (keep : Doms → Nat → Bool) (v : Nat)
    (hkeep : ∀ d₁ d₂ x, (∀ w, w ≠ v → dget d₁ w = dget d₂ w) → keep d₁ x = keep d₂ x)
    (d : Doms) (rs : Removals) :
    dget (pruneFilter keep v d rs).1 v = (dget d v).filter (fun x => keep d x) ∧
    (∀ w, w ≠ v → dget (pruneFilter keep v d rs).1 w = dget d w) ∧
    ((pruneFilter keep v d rs).2.2 = true ↔ ∃ x ∈ dget d v, keep d x = false) := by
  unfold pruneFilter
  obtain ⟨h1, h2, h3⟩ := pruneFilterGo_char keep v hkeep (fiter (dget d v)) d rs false
    (fiter_nodup _) (fun x hx => mem_fiter.mp hx)
  refine ⟨?_, h2, ?_⟩
  · rw [h1]
    apply Finset.filter_congr
    intro y hy
    simp [mem_fiter.mpr hy]
  · rw [h3]
    simp only [Bool.false_or, List.any_eq_true]
    constructor
    · rintro ⟨x, hx, hkx⟩
      exact ⟨x, mem_fiter.mp hx, by simpa using hkx⟩
    · rintro ⟨x, hx, hkx⟩
      exact ⟨x, mem_fiter.mpr hx, by simp [hkx]⟩

/-- `_revise` characterised: revising `xi` against `xj ≠ xi` keeps exactly the
values of `xi` with support in `xj`'s current domain, changes no other entry,
and reports `true` iff some value lacked support. -/
lemma revise_char (csp : CSPModel) (a : Assign) (xi xj : Nat) (hne : xi ≠ xj)
    (d : Doms) (rs : Removals) :
    dget (revise csp a xi xj d rs).1 xi =
      (dget d xi).filter (fun x => hasSupport csp d a xi x xj) ∧
    (∀ w, w ≠ xi → dget (revise csp a xi xj d rs).1 w = dget d w) ∧
    ((revise csp a xi xj d rs).2.2 = true ↔
      ∃ x ∈ dget d xi, hasSupport csp d a xi x xj = false) := by
  unfold revise
  refine pruneFilter_char _ xi ?_ d rs
  intro d₁ d₂ x hw
  simp only [hasSupport]
  rw [hw xj (Ne.symm hne)]

/-- The queue the claim describes: every ordered pair `(Xi, Xj)` of
neighbouring variables of the CSP. -/
def ac3AllPairsSeed (csp : CSPModel) : List (Nat × Nat) :=
  csp.vars.flatMap (fun xi => (neighborsOf csp xi).map (fun xj => (xi, xj)))

/-- A 3-variable instance in which the assigned variable 0 has no neighbours,
while variables 1 and 2 are linked by an order constraint. -/
def csp5 : CSPModel :=
  CSPModel.mk [0, 1, 2] (fun v => if v = 0 then [5] else [1, 2])
    [ConstraintC.mk [1, 2] (Relation.predRel (fun vals =>
      match vals with
      | [x, y] => decide (x < y)
      | _ => false))]

/-- C5 (counterexample to the claim as stated).  The claim says the
arc-consistency technique seeds its queue with ALL ordered neighbour pairs
`(Xi, Xj)`.  In the code, `_arc_consistency` seeds only the arcs
`(neighbour, X)` pointing into the newly assigned variable `X`.  On `csp5`
with the assignment `0 := 5`, variable 0 has no neighbours, so the code's
queue is empty and no pruning happens; the claim's all-pairs-seeded loop
prunes variable 1's domain to `{1}`.  The two runs therefore differ. -/
theorem c5_seed_counterexample :
    dget (arcConsistency csp5 0 [(0, 5)] (initDoms csp5) []).1 1 = {1, 2} ∧
    dget (ac3Loop csp5 [(0, 5)] (initDoms csp5) [] (ac3AllPairsSeed csp5)).1 1 = {1} ∧
    arcConsistency csp5 0 [(0, 5)] (initDoms csp5) [] ≠
      ac3Loop csp5 [(0, 5)] (initDoms csp5) [] (ac3AllPairsSeed csp5) := by
  have hcode : arcConsistency csp5 0 [(0, 5)] (initDoms csp5) [] =
      (initDoms csp5, [], true) := by
    unfold arcConsistency
    rw [show (neighborsOf csp5 0).map (fun n => (n, 0)) = ([] : List (Nat × Nat)) from
      by decide]
    exact ac3Loop_nil _ _ _ _
  have hrev1 : revise csp5 [(0, 5)] 1 2 (initDoms csp5) [] =
      ([(0, {5}), (1, {1}), (2, {1, 2})], [(1, 2)], true) := by decide
  have hrev2 : revise csp5 [(0, 5)] 2 1 [(0, {5}), (1, {1}), (2, {1, 2})] [(1, 2)] =
      ([(0, {5}), (1, {1}), (2, {2})], [(1, 2), (2, 1)], true) := by decide
  have hclaim : ac3Loop csp5 [(0, 5)] (initDoms csp5) [] (ac3AllPairsSeed csp5) =
      ([(0, {5}), (1, {1}), (2, {2})], [(1, 2), (2, 1)], true) := by
    rw [show ac3AllPairsSeed csp5 = [(1, 2), (2, 1)] from by decide]
    rw [ac3Loop_cons_requeue (by decide) (by decide) hrev1 (by decide)]
    rw [show ([(2, 1)] ++ ac3Requeue csp5 1 2 : List (Nat × Nat)) = [(2, 1)] from by decide]
    rw [ac3Loop_cons_requeue (by decide) (by decide) hrev2 (by decide)]
    rw [show (([] : List (Nat × Nat)) ++ ac3Requeue csp5 2 1) = ([] : List (Nat × Nat)) from
      by decide]
    exact ac3Loop_nil _ _ _ _
  refine ⟨?_, ?_, ?_⟩
  · rw [hcode]; decide
  · rw [hclaim]; decide
  · rw [hcode, hclaim]; decide

/-- C5 (amended).  Arc-consistency steps as implemented: for an assignment to
`var`, `_arc_consistency` seeds its queue with the arcs `(Xi, var)` for the
neighbours `Xi` of `var` only (not with all ordered neighbour pairs); an empty
queue succeeds with domains untouched; popping `(xi, xj)` revises `xi`,
removing exactly the values lacking support in `xj`'s current domain and
touching no other entry, with the revised flag set iff something was removed;
an emptied domain aborts with failure, a shrunk non-empty domain re-enqueues
`(xk, xi)` for every neighbour `xk ≠ xj` of `xi`, and an unrevised domain
continues with the remaining queue. -/
theorem c5_ac3_steps (csp : CSPModel) (a : Assign) :
    (∀ var d rs, arcConsistency csp var a d rs =
      ac3Loop csp a d rs ((neighborsOf csp var).map (fun n => (n, var)))) ∧
    (∀ d rs, ac3Loop csp a d rs [] = (d, rs, true)) ∧
    (∀ xi xj d rs, xi ≠ xj →
      dget (revise csp a xi xj d rs).1 xi =
        (dget d xi).filter (fun x => hasSupport csp d a xi x xj) ∧
      (∀ w, w ≠ xi → dget (revise csp a xi xj d rs).1 w = dget d w) ∧
      ((revise csp a xi xj d rs).2.2 = true ↔
        ∃ x ∈ dget d xi, hasSupport csp d a xi x xj = false)) ∧
    (∀ xi xj rest d rs d' rs', xi ≠ xj → dmem d xi = true → dmem d xj = true →
      (revise csp a xi xj d rs = (d', rs', true) → dget d' xi = ∅ →
        ac3Loop csp a d rs ((xi, xj) :: rest) = (d', rs', false)) ∧
      (revise csp a xi xj d rs = (d', rs', true) → dget d' xi ≠ ∅ →
        ac3Loop csp a d rs ((xi, xj) :: rest) =
          ac3Loop csp a d' rs' (rest ++ (neighborsOf csp xi).filterMap
            (fun xk => if xk = xj then none else some (xk, xi)))) ∧
      (revise csp a xi xj d rs = (d', rs', false) →
        ac3Loop csp a d rs ((xi, xj) :: rest) = ac3Loop csp a d' rs' rest)) := by
  refine ⟨fun var d rs => rfl, fun d rs => ac3Loop_nil csp a d rs, ?_, ?_⟩
  · intro xi xj d rs hne
    exact revise_char csp a xi xj hne d rs
  · intro xi xj rest d rs d' rs' hne hmi hmj
    exact ⟨fun hrev hemp => ac3Loop_cons_fail hne ⟨hmi, hmj⟩ hrev hemp,
      fun hrev hemp => ac3Loop_cons_requeue hne ⟨hmi, hmj⟩ hrev hemp,
      fun hrev => ac3Loop_cons_norevise hne ⟨hmi, hmj⟩ hrev⟩

/-- C5 witness: the amended theorem applied on `csp5` yields the concrete
revise characterisation and a concrete requeue step. -/
theorem c5_ac3_steps_witness :
    dget (revise csp5 [(0, 5)] 1 2 (initDoms csp5) []).1 1 =
      (dget (initDoms csp5) 1).filter
        (fun x => hasSupport csp5 (initDoms csp5) [(0, 5)] 1 x 2) ∧
    ac3Loop csp5 [(0, 5)] (initDoms csp5) [] [(1, 2)] =
      ac3Loop csp5 [(0, 5)] [(0, {5}), (1, {1}), (2, {1, 2})] [(1, 2)]
        ([] ++ (neighborsOf csp5 1).filterMap
          (fun xk => if xk = 2 then none else some (xk, 1))) := by
  have h := c5_ac3_steps csp5 [(0, 5)]
  refine ⟨(h.2.2.1 1 2 (initDoms csp5) [] (by decide)).1, ?_⟩
  exact (h.2.2.2 1 2 [] (initDoms csp5) [] [(0, {5}), (1, {1}), (2, {1, 2})] [(1, 2)]
    (by decide) (by decide) (by decide)).2.1 (by decide) (by decide)

/-! ## C2: completeness -/

/-- A genuine solution of the model: a choice of a domain value for every
variable satisfying every constraint (the assignments the data model
allows). -/
def Solvable (csp : CSPModel) : Prop :=
  ∃ f : Nat → Nat, (∀ v ∈ csp.vars, f v ∈ csp.domains v) ∧
    ∀ c ∈ csp.constraints, relationHolds c.relation (c.scope.map f) = true

/-- `a` assigns each bound variable its `f`-value. -/
def Agrees (f : Nat → Nat) (a : Assign) : Prop := ∀ p ∈ a, p.2 = f p.1

lemma agrees_nil (f : Nat → Nat) : Agrees f [] := fun p hp => absurd hp (List.not_mem_nil p)

lemma agrees_cons {f : Nat → Nat} {a : Assign} (h : Agrees f a) (v : Nat) :
    Agrees f ((v, f v) :: a) := by
  intro p hp
  rcases List.mem_cons.mp hp with he | hm
  · rw [he]
  · exact h p hm

lemma alookup_mem {a : Assign} {v x : Nat} (h : alookup a v = some x) : (v, x) ∈ a := by
  induction a with
  | nil => simp [alookup] at h
  | cons p rest ih =>
    obtain ⟨k, y⟩ := p
    by_cases hk : k = v
    · subst hk
      rw [alookup_cons_self] at h
      simp only [Option.some.injEq] at h
      subst h
      exact List.mem_cons_self _ _
    · rw [alookup_cons_ne rest y hk] at h
      exact List.mem_cons_of_mem _ (ih h)

lemma alookup_agrees {f : Nat → Nat} {a : Assign} {v x : Nat}
    (hag : Agrees f a) (h : alookup a v = some x) : x = f v := by
  have := hag _ (alookup_mem h)
  simpa using this

lemma isSatisfiedC_of_agrees {csp : CSPModel} {f : Nat → Nat} {a : Assign} {c : ConstraintC}
    (hfc : ∀ c ∈ csp.constraints, relationHolds c.relation (c.scope.map f) = true)
    (hc : c ∈ csp.constraints) (hag : Agrees f a) : isSatisfiedC c a = true := by
  rw [isSatisfiedC_iff_satisfiedSpec]
  by_cases hun : ∃ v ∈ c.scope, alookup a v = none
  · exact Or.inl hun
  · right
    push_neg at hun
    have hmap : c.scope.map (fun v => (alookup a v).getD 0) = c.scope.map f := by
      apply List.map_congr_left
      intro v hv
      cases ho : alookup a v with
      | none => exact absurd ho (hun v hv)
      | some x => simp [alookup_agrees hag ho]
    rw [hmap]
    exact hfc c hc

lemma isConsistent_of_agrees {csp : CSPModel} {f : Nat → Nat} {a : Assign}
    (hfc : ∀ c ∈ csp.constraints, relationHolds c.relation (c.scope.map f) = true)
    (hag : Agrees f a) (var : Nat) : isConsistent csp var (f var) a = true := by
  rw [isConsistent_iff]
  intro c hc _
  exact isSatisfiedC_of_agrees hfc hc (agrees_cons hag var)

/-- The number of still-unassigned variables; the completeness induction
measure. -/
def uCount (csp : CSPModel) (a : Assign) : Nat :=
  (csp.vars.filter (fun v => (alookup a v).isNone)).length

lemma length_eq_of_all_assigned {csp : CSPModel} {a : Assign} (hwf : WF csp)
    (hinv : SearchInv csp a)
    (hall : ∀ v ∈ csp.vars, (alookup a v).isNone = false) :
    a.length = csp.vars.length := by
  have hsub : (a.map Prod.fst).toFinset ⊆ csp.vars.toFinset := by
    intro x hx
    rw [List.mem_toFinset] at hx ⊢
    obtain ⟨p, hp, hpe⟩ := List.mem_map.mp hx
    rw [← hpe]
    exact hinv.keysVars p hp
  have hsup : csp.vars.toFinset ⊆ (a.map Prod.fst).toFinset := by
    intro v hv
    rw [List.mem_toFinset] at hv ⊢
    have hnone := hall v hv
    cases ho : alookup a v with
    | none => rw [ho] at hnone; simp at hnone
    | some x => exact List.mem_map.mpr ⟨(v, x), alookup_mem ho, rfl⟩
  have heq : (a.map Prod.fst).toFinset = csp.vars.toFinset :=
    Finset.Subset.antisymm hsub hsup
  have h1 : a.length = (a.map Prod.fst).toFinset.card := by
    rw [List.toFinset_card_of_nodup hinv.nodupKeys, List.length_map]
  have h2 : csp.vars.toFinset.card = csp.vars.length :=
    List.toFinset_card_of_nodup hwf.1
  rw [h1, heq, h2]

lemma complete_of_uCount_zero {csp : CSPModel} {a : Assign} (hwf : WF csp)
    (hinv : SearchInv csp a) (h : uCount csp a = 0) : isComplete csp a = true := by
  unfold uCount at h
  rw [List.length_eq_zero] at h
  have hall : ∀ v ∈ csp.vars, (alookup a v).isNone = false := by
    intro v hv
    cases hio : (alookup a v).isNone
    · rfl
    · have hmem : v ∈ csp.vars.filter (fun v => (alookup a v).isNone) :=
        List.mem_filter.mpr ⟨hv, hio⟩
      rw [h] at hmem
      exact absurd hmem (List.not_mem_nil v)
  unfold isComplete
  simp [length_eq_of_all_assigned hwf hinv hall]

lemma exists_unassigned_of_not_complete {csp : CSPModel} {a : Assign} (hwf : WF csp)
    (hinv : SearchInv csp a) (h : ¬ isComplete csp a = true) :
    ∃ v ∈ csp.vars, (alookup a v).isNone = true := by
  by_contra hne
  push_neg at hne
  have hall : ∀ v ∈ csp.vars, (alookup a v).isNone = false := by
    intro v hv
    cases hio : (alookup a v).isNone
    · rfl
    · exact absurd hio (hne v hv)
  refine h ?_
  unfold isComplete
  simp [length_eq_of_all_assigned hwf hinv hall]

lemma filter_length_assign {l : List Nat} {p q : Nat → Bool} {var : Nat}
    (hnd : l.Nodup) (hv : var ∈ l) (hp : p var = true) (hq : q var = false)
    (hoth : ∀ v, v ≠ var → q v = p v) :
    (l.filter q).length + 1 = (l.filter p).length := by
  induction l with
  | nil => exact absurd hv (List.not_mem_nil var)
  | cons x xs ih =>
    rw [List.nodup_cons] at hnd
    rw [List.filter_cons, List.filter_cons]
    by_cases hx : x = var
    · subst hx
      rw [if_pos hp, if_neg (by simp [hq])]
      have hcong : xs.filter q = xs.filter p := by
        apply List.filter_congr
        intro v hv'
        exact hoth v (fun he => hnd.1 (he ▸ hv'))
      rw [hcong]
      simp
    · have hvxs : var ∈ xs := by
        rcases List.mem_cons.mp hv with he | hm
        · exact absurd he.symm hx
        · exact hm
      have hqx : q x = p x := hoth x hx
      by_cases hpx : p x = true
      · rw [if_pos hpx, if_pos (by rw [hqx]; exact hpx)]
        have := ih hnd.2 hvxs
        simp only [List.length_cons]
        omega
      · rw [if_neg hpx, if_neg (by rw [hqx]; exact hpx)]
        exact ih hnd.2 hvxs

lemma uCount_assign {csp : CSPModel} {a : Assign} {var : Nat} (hnd : csp.vars.Nodup)
    (hvar : var ∈ csp.vars) (hun : alookup a var = none) (x : Nat) :
    uCount csp ((var, x) :: a) + 1 = uCount csp a := by
  unfold uCount
  apply filter_length_assign hnd hvar
  · simp [hun]
  · simp [alookup_cons_self]
  · intro v hv
    simp [alookup_cons_ne a x (fun he => hv he.symm)]

/-- Completeness of the shared value loop: if the continuation succeeds on
the solution value and that value is listed, the loop succeeds. -/
lemma btTryValues_complete {csp : CSPModel} {f : Nat → Nat}
    {rec : Assign → Option Assign} {a : Assign} {var : Nat}
    (hfc : ∀ c ∈ csp.constraints, relationHolds c.relation (c.scope.map f) = true)
    (hag : Agrees f a)
    (hrec : (rec ((var, f var) :: a)).isSome = true) :
    ∀ vals, f var ∈ vals → (btTryValues csp rec a var vals).isSome = true := by
  intro vals
  induction vals with
  | nil =>
    intro h
    exact absurd h (List.not_mem_nil _)
  | cons v rest ih =>
    intro hm
    by_cases hv : v = f var
    · subst hv
      have hc : isConsistent csp var (f var) a = true := isConsistent_of_agrees hfc hag var
      simp only [btTryValues]
      rw [if_pos hc]
      cases hr : rec ((var, f var) :: a) with
      | none =>
        rw [hr] at hrec
        simp at hrec
      | some r => simp [hr]
    · have hm' : f var ∈ rest := by
        rcases List.mem_cons.mp hm with he | hm2
        · exact absurd he.symm hv
        · exact hm2
      by_cases hc : isConsistent csp var v a = true
      · simp only [btTryValues]
        rw [if_pos hc]
        cases hr : rec ((var, v) :: a) with
        | some r => simp [hr]
        | none =>
          simp only [hr]
          exact ih hm'
      · simp only [btTryValues]
        rw [if_neg hc]
        exact ih hm'

/-- Completeness of the plain solver. -/
lemma recursiveBacktrack_complete {csp : CSPModel} {f : Nat → Nat} (hwf : WF csp)
    (hfd : ∀ v ∈ csp.vars, f v ∈ csp.domains v)
    (hfc : ∀ c ∈ csp.constraints, relationHolds c.relation (c.scope.map f) = true) :
    ∀ (fuel : Nat) (a : Assign), SearchInv csp a → Agrees f a →
      uCount csp a ≤ fuel → (recursiveBacktrack csp fuel a).isSome = true := by
  intro fuel
  induction fuel with
  | zero =>
    intro a hinv hag hcnt
    rw [recursiveBacktrack]
    rw [if_pos (complete_of_uCount_zero hwf hinv (Nat.le_zero.mp hcnt))]
    rfl
  | succ fl ih =>
    intro a hinv hag hcnt
    rw [recursiveBacktrack]
    by_cases hcomp : isComplete csp a = true
    · rw [if_pos hcomp]
      rfl
    · rw [if_neg hcomp]
      obtain ⟨v0, hv0, hun0⟩ := exists_unassigned_of_not_complete hwf hinv hcomp
      cases hselv : selectUnassignedVariable csp a with
      | none =>
        have : (selectUnassignedVariable csp a).isSome = true := by
          unfold selectUnassignedVariable
          rw [List.find?_isSome]
          exact ⟨v0, hv0, hun0⟩
        rw [hselv] at this
        simp at this
      | some var =>
        obtain ⟨hvar, hun⟩ := selectUnassignedVariable_some hselv
        refine btTryValues_complete hfc hag ?_ (csp.domains var) (hfd var hvar)
        refine ih ((var, f var) :: a)
          (hinv.step hvar hun (hfd var hvar) (isConsistent_of_agrees hfc hag var))
          (agrees_cons hag var) ?_
        have := uCount_assign hwf.1 hvar hun (f var)
        omega

lemma all_assigned_of_complete {csp : CSPModel} {a : Assign} (hwf : WF csp)
    (hinv : SearchInv csp a) (hlen : a.length = csp.vars.length) :
    ∀ v ∈ csp.vars, (alookup a v).isSome = true := by
  intro v hv
  have hsub : (a.map Prod.fst).toFinset ⊆ csp.vars.toFinset := by
    intro x hx
    rw [List.mem_toFinset] at hx ⊢
    obtain ⟨p, hp, hpe⟩ := List.mem_map.mp hx
    rw [← hpe]
    exact hinv.keysVars p hp
  have hcard1 : (a.map Prod.fst).toFinset.card = a.length := by
    rw [List.toFinset_card_of_nodup hinv.nodupKeys, List.length_map]
  have hcard2 : csp.vars.toFinset.card = csp.vars.length :=
    List.toFinset_card_of_nodup hwf.1
  have heq : (a.map Prod.fst).toFinset = csp.vars.toFinset := by
    apply Finset.eq_of_subset_of_card_le hsub
    rw [hcard1, hcard2, hlen]
  have : v ∈ (a.map Prod.fst).toFinset := by
    rw [heq, List.mem_toFinset]
    exact hv
  exact alookup_isSome_of_mem_keys (List.mem_toFinset.mp this)

/-- Any returned solution yields a genuine solution function. -/
lemma solvable_of_sound {csp : CSPModel} {r : Assign} (hwf : WF csp)
    (hinv : SearchInv csp r) (hsol : isSolution csp r = true) : Solvable csp := by
  have hcomp : isComplete csp r = true := by
    by_contra hnc
    unfold isSolution at hsol
    rw [if_pos (by simpa using hnc)] at hsol
    exact absurd hsol (by simp)
  have hlen : r.length = csp.vars.length := by
    unfold isComplete at hcomp
    simpa using hcomp
  have hassigned := all_assigned_of_complete hwf hinv hlen
  refine ⟨fun v => (alookup r v).getD 0, ?_, ?_⟩
  · intro v hv
    cases ho : alookup r v with
    | none =>
      have := hassigned v hv
      rw [ho] at this
      simp at this
    | some x =>
      have := hinv.valsDom (v, x) (alookup_mem ho)
      simpa [ho] using this
  · intro c hc
    unfold isSolution at hsol
    rw [if_neg (by simp [hcomp])] at hsol
    have hsat := List.all_eq_true.mp hsol c hc
    rw [isSatisfiedC_iff_satisfiedSpec] at hsat
    rcases hsat with ⟨v, hv, hnone⟩ | hr
    · have := hassigned v ((hwf.2.1 c hc).2 v hv)
      rw [hnone] at this
      simp at this
    · exact hr

/-- Completeness iff for the plain solver. -/
lemma backtrackingSearch_iff {csp : CSPModel} (hwf : WF csp) :
    (backtrackingSearch csp).isSome = true ↔ Solvable csp := by
  constructor
  · intro h
    cases hr : backtrackingSearch csp with
    | none =>
      rw [hr] at h
      simp at h
    | some r =>
      obtain ⟨hsol, hinv⟩ :=
        recursiveBacktrack_sound hwf csp.vars.length [] r (SearchInv.nil csp hwf) hr
      exact solvable_of_sound hwf hinv hsol
  · rintro ⟨f, hfd, hfc⟩
    refine recursiveBacktrack_complete hwf hfd hfc csp.vars.length []
      (SearchInv.nil csp hwf) (agrees_nil f) ?_
    unfold uCount
    exact List.length_filter_le _ _

lemma hSelectUnassignedVariable_none {csp : CSPModel} {a : Assign} {m deg : Bool}
    {l : List Nat} (h : hSelectUnassignedVariable csp a m deg = (none, l)) :
    hCandidates csp a = [] := by
  by_contra hne
  unfold hSelectUnassignedVariable at h
  cases hcand : hCandidates csp a with
  | nil => exact hne hcand
  | cons c0 cs =>
    rw [hcand] at h
    cases hsort : (hFilterMrv (hFilterDegree (c0 :: cs) deg) m).insertionSort hCandLe with
    | nil =>
      have hfne : hFilterMrv (hFilterDegree (c0 :: cs) deg) m ≠ [] :=
        hFilterMrv_ne_nil (hFilterDegree_ne_nil (List.cons_ne_nil c0 cs))
      have hperm := List.perm_insertionSort hCandLe (hFilterMrv (hFilterDegree (c0 :: cs) deg) m)
      rw [hsort] at hperm
      exact hfne (List.Perm.nil_eq hperm).symm
    | cons best rest =>
      simp only [hsort] at h
      simp at h

lemma hCandidates_ne_nil {csp : CSPModel} {a : Assign} {v : Nat}
    (hv : v ∈ csp.vars) (hun : alookup a v = none) : hCandidates csp a ≠ [] := by
  have hmem : (⟨v, getLegalValues csp v a, (getLegalValues csp v a).length,
      countUnassignedNeighbors csp v a⟩ : HCand) ∈ hCandidates csp a :=
    mem_hCandidates.mpr ⟨v, hv, hun, rfl⟩
  exact List.ne_nil_of_mem hmem

/-- Completeness of the heuristic solver, for every flag combination. -/
lemma hRecursiveBacktrack_complete {csp : CSPModel} {f : Nat → Nat} (hwf : WF csp)
    (hfd : ∀ v ∈ csp.vars, f v ∈ csp.domains v)
    (hfc : ∀ c ∈ csp.constraints, relationHolds c.relation (c.scope.map f) = true)
    (m deg lcv : Bool) :
    ∀ (fuel : Nat) (a : Assign), SearchInv csp a → Agrees f a →
      uCount csp a ≤ fuel → (hRecursiveBacktrack csp m deg lcv fuel a).isSome = true := by
  intro fuel
  induction fuel with
  | zero =>
    intro a hinv hag hcnt
    rw [hRecursiveBacktrack]
    rw [if_pos (complete_of_uCount_zero hwf hinv (Nat.le_zero.mp hcnt))]
    rfl
  | succ fl ih =>
    intro a hinv hag hcnt
    rw [hRecursiveBacktrack]
    by_cases hcomp : isComplete csp a = true
    · rw [if_pos hcomp]
      rfl
    · rw [if_neg hcomp]
      obtain ⟨v0, hv0, hun0⟩ := exists_unassigned_of_not_complete hwf hinv hcomp
      rcases hsel : hSelectUnassignedVariable csp a m deg with ⟨ovar, legal⟩
      cases ovar with
      | none =>
        exact absurd (hSelectUnassignedVariable_none hsel)
          (hCandidates_ne_nil hv0 (Option.isNone_iff_eq_none.mp hun0))
      | some var =>
        simp only [hsel]
        obtain ⟨hvar, hun, hlegal⟩ := hSelectUnassignedVariable_some hsel
        have hfvl : f var ∈ legal := by
          rw [hlegal]
          unfold getLegalValues
          exact List.mem_filter.mpr
            ⟨hfd var hvar, by simp [isConsistent_of_agrees hfc hag var]⟩
        rw [if_neg (List.ne_nil_of_mem hfvl)]
        refine btTryValues_complete hfc hag ?_ _
          ((orderDomainValues_perm csp var legal a lcv).mem_iff.mpr hfvl)
        refine ih ((var, f var) :: a)
          (hinv.step hvar hun (hfd var hvar) (isConsistent_of_agrees hfc hag var))
          (agrees_cons hag var) ?_
        have := uCount_assign hwf.1 hvar hun (f var)
        omega

/-- Completeness iff for the heuristic solver. -/
lemma heuristicSearch_iff {csp : CSPModel} (hwf : WF csp) (m deg lcv : Bool) :
    (heuristicBacktrackingSearch csp m deg lcv).isSome = true ↔ Solvable csp := by
  constructor
  · intro h
    cases hr : heuristicBacktrackingSearch csp m deg lcv with
    | none =>
      rw [hr] at h
      simp at h
    | some r =>
      obtain ⟨hsol, hinv⟩ :=
        hRecursiveBacktrack_sound hwf m deg lcv csp.vars.length [] r (SearchInv.nil csp hwf) hr
      exact solvable_of_sound hwf hinv hsol
  · rintro ⟨f, hfd, hfc⟩
    refine hRecursiveBacktrack_complete hwf hfd hfc m deg lcv csp.vars.length []
      (SearchInv.nil csp hwf) (agrees_nil f) ?_
    unfold uCount
    exact List.length_filter_le _ _

lemma dmem_dupdate (d : Doms) (v : Nat) (s : Finset Nat) (w : Nat) :
    dmem (dupdate d v s) w = dmem d w := by
  induction d with
  | nil => rfl
  | cons p rest ih =>
    obtain ⟨k, s₀⟩ := p
    by_cases hk : k = v
    · subst hk
      rw [dupdate_cons_self]
      simp [dmem]
    · rw [dupdate_cons_ne hk]
      simp [dmem, ih]

lemma prune_dmem (d : Doms) (v x : Nat) (rs : Removals) (w : Nat) :
    dmem (prune d v x rs).1 w = dmem d w := by
  unfold prune
  by_cases hx : x ∈ dget d v
  · rw [if_pos hx]
    exact dmem_dupdate d v _ w
  · rw [if_neg hx]

lemma pruneFilterGo_dmem (keep : Doms → Nat → Bool) (v : Nat) (l : List Nat) :
    ∀ (d : Doms) (rs : Removals) (flag : Bool) (w : Nat),
      dmem (pruneFilterGo keep v l d rs flag).1 w = dmem d w := by
  induction l with
  | nil => intro d rs flag w; rfl
  | cons x rest ih =>
    intro d rs flag w
    by_cases hk : keep d x
    · rw [pruneFilterGo_cons_keep hk]
      exact ih d rs flag w
    · rw [Bool.not_eq_true] at hk
      by_cases hx : x ∈ dget d v
      · rw [pruneFilterGo_cons_mem hk hx]
        rw [ih _ _ _ w]
        exact dmem_dupdate d v _ w
      · rw [pruneFilterGo_cons_notmem hk hx]
        exact ih d rs flag w

lemma pruneFilter_dmem (keep : Doms → Nat → Bool) (v : Nat) (d : Doms) (rs : Removals)
    (w : Nat) : dmem (pruneFilter keep v d rs).1 w = dmem d w :=
  pruneFilterGo_dmem keep v _ d rs false w

lemma fcNeighbors_dmem (csp : CSPModel) (a : Assign) (ns : List Nat) :
    ∀ (d : Doms) (rs : Removals) (w : Nat),
      dmem (fcNeighbors csp a ns d rs).1 w = dmem d w := by
  induction ns with
  | nil => intro d rs w; rfl
  | cons n rest ih =>
    intro d rs w
    by_cases ha : (alookup a n).isSome
    · simp only [fcNeighbors, ha, if_pos]
      exact ih d rs w
    · simp only [fcNeighbors, ha, if_neg, Bool.not_eq_true]
      set t := pruneFilter (fun _ nv => isConsistent csp n nv a) n d rs with ht
      by_cases he : dget t.1 n = ∅
      · simp only [he, if_pos]
        exact pruneFilter_dmem _ n d rs w
      · simp only [he, if_neg, not_false_iff]
        rw [ih t.1 t.2.1 w]
        exact pruneFilter_dmem _ n d rs w

lemma cpProcessNeighbors_dmem (csp : CSPModel) (a : Assign) (ns : List Nat) :
    ∀ (d : Doms) (rs : Removals) (app : List Nat) (w : Nat),
      dmem (cpProcessNeighbors csp a ns d rs app).1 w = dmem d w := by
  induction ns with
  | nil => intro d rs app w; rfl
  | cons n rest ih =>
    intro d rs app w
    by_cases ha : (alookup a n).isSome
    · simp only [cpProcessNeighbors, ha, if_pos]
      exact ih d rs app w
    · simp only [cpProcessNeighbors, ha, if_neg, Bool.not_eq_true]
      set t := pruneFilter (fun _ nv => isConsistent csp n nv a) n d rs with ht
      by_cases he : dget t.1 n = ∅
      · simp only [he, if_pos]
        exact pruneFilter_dmem _ n d rs w
      · simp only [he, if_neg, not_false_iff]
        rw [ih t.1 t.2.1 _ w]
        exact pruneFilter_dmem _ n d rs w

lemma cpLoop_dmem (csp : CSPModel) (a : Assign) (d : Doms) (rs : Removals)
    (q : List Nat) : ∀ w, dmem (cpLoop csp a d rs q).1 w = dmem d w := by
  induction d, rs, q using cpLoop.induct csp a with
  | case1 d rs =>
    intro w
    rw [cpLoop_nil]
  | case2 d rs current queue d' rs' app h =>
    intro w
    rw [cpLoop_cons_fail h]
    have := cpProcessNeighbors_dmem csp a (neighborsOf csp current) d rs [] w
    rw [h] at this
    exact this
  | case3 d rs current queue d' rs' appended h ih =>
    intro w
    rw [cpLoop_cons_ok h]
    rw [ih w]
    have := cpProcessNeighbors_dmem csp a (neighborsOf csp current) d rs [] w
    rw [h] at this
    exact this

lemma ac3Loop_dmem (csp : CSPModel) (a : Assign) (d : Doms) (rs : Removals)
    (q : List (Nat × Nat)) : ∀ w, dmem (ac3Loop csp a d rs q).1 w = dmem d w := by
  induction d, rs, q using ac3Loop.induct csp a with
  | case1 d rs =>
    intro w
    rw [ac3Loop_nil]
  | case2 d rs xj rest ih =>
    intro w
    rw [ac3Loop_cons_same]
    exact ih w
  | case3 d rs xi xj rest hne hmem ih =>
    intro w
    rw [ac3Loop_cons_skip hne hmem]
    exact ih w
  | case4 d rs xi xj rest hne hmem d' rs' hrev hemp =>
    intro w
    rw [ac3Loop_cons_fail hne (not_not.mp hmem) hrev hemp]
    have := pruneFilter_dmem (fun d'' value => hasSupport csp d'' a xi value xj) xi d rs w
    rw [show pruneFilter (fun d'' value => hasSupport csp d'' a xi value xj) xi d rs =
      revise csp a xi xj d rs from rfl, hrev] at this
    exact this
  | case5 d rs xi xj rest hne hmem d' rs' hrev hemp ih =>
    intro w
    rw [ac3Loop_cons_requeue hne (not_not.mp hmem) hrev hemp]
    have ih' : dmem (ac3Loop csp a d' rs' (rest ++ ac3Requeue csp xi xj)).1 w = dmem d' w :=
      ih w
    rw [ih']
    have := pruneFilter_dmem (fun d'' value => hasSupport csp d'' a xi value xj) xi d rs w
    rw [show pruneFilter (fun d'' value => hasSupport csp d'' a xi value xj) xi d rs =
      revise csp a xi xj d rs from rfl, hrev] at this
    exact this
  | case6 d rs xi xj rest hne hmem d' rs' hrev ih =>
    intro w
    rw [ac3Loop_cons_norevise hne (not_not.mp hmem) hrev]
    rw [ih w]
    have := pruneFilter_dmem (fun d'' value => hasSupport csp d'' a xi value xj) xi d rs w
    rw [show pruneFilter (fun d'' value => hasSupport csp d'' a xi value xj) xi d rs =
      revise csp a xi xj d rs from rfl, hrev] at this
    exact this

lemma restrictToAssignment_dmem (var value : Nat) (d : Doms) (rs : Removals) (w : Nat) :
    dmem (restrictToAssignment var value d rs).1 w = dmem d w := by
  by_cases hx : value ∉ dget d var
  · simp [restrictToAssignment, hx]
  · simp only [restrictToAssignment, hx, if_neg, not_false_iff]
    exact pruneFilter_dmem _ var d rs w

lemma runTechnique_dmem (csp : CSPModel) (t : Tech) (var : Nat) (a : Assign)
    (d : Doms) (rs : Removals) (w : Nat) :
    dmem (runTechnique csp t var a d rs).1 w = dmem d w := by
  cases t with
  | fc => exact fcNeighbors_dmem csp a _ d rs w
  | cp => exact cpLoop_dmem csp a d rs [var] w
  | ac3 => exact ac3Loop_dmem csp a d rs _ w

lemma runTechniques_dmem (csp : CSPModel) (var : Nat) (a : Assign) (ts : List Tech) :
    ∀ (d : Doms) (rs : Removals) (w : Nat),
      dmem (runTechniques csp var a ts d rs).1 w = dmem d w := by
  induction ts with
  | nil => intro d rs w; rfl
  | cons t rest ih =>
    intro d rs w
    simp only [runTechniques]
    set r := runTechnique csp t var a d rs with hr
    by_cases hok : r.2.2
    · rw [if_pos hok, ih r.1 r.2.1 w]
      exact runTechnique_dmem csp t var a d rs w
    · rw [if_neg hok]
      exact runTechnique_dmem csp t var a d rs w

lemma applyInference_dmem (csp : CSPModel) (techs : List Tech) (var : Nat) (a : Assign)
    (d : Doms) (rs : Removals) (w : Nat) :
    dmem (applyInference csp techs var a d rs).1 w = dmem d w := by
  unfold applyInference
  set r0 := restrictToAssignment var ((alookup a var).getD 0) d rs with hr0
  by_cases hok : r0.2.2
  · simp only [hok, if_pos]
    rw [runTechniques_dmem csp var a techs r0.1 r0.2.1 w]
    exact restrictToAssignment_dmem _ _ d rs w
  · simp only [hok, if_neg, Bool.not_eq_true]
    exact restrictToAssignment_dmem _ _ d rs w

lemma mem_neighborsOf_vars {csp : CSPModel} (hwf : WF csp) {v n : Nat}
    (h : n ∈ neighborsOf csp v) : n ∈ csp.vars := by
  unfold neighborsOf at h
  rw [List.mem_dedup] at h
  obtain ⟨c, hc, hn⟩ := List.mem_flatMap.mp h
  exact (hwf.2.1 c (List.mem_of_mem_filter hc)).2 n (List.mem_of_mem_filter hn)

lemma dmem_map_mk (l : List Nat) (g : Nat → Finset Nat) (w : Nat) :
    dmem (l.map (fun v => (v, g v))) w = decide (w ∈ l) := by
  induction l with
  | nil => simp [dmem]
  | cons x xs ih =>
    simp only [List.map_cons, dmem, ih, List.mem_cons]
    by_cases hx : x = w
    · subst hx
      simp
    · have hwx : ¬ w = x := fun h => hx h.symm
      simp [hx, hwx]

/-- Forward checking never fails and never prunes a solution value, along an
assignment that agrees with a solution `f`. -/
lemma fcNeighbors_fpath {csp : CSPModel} {f : Nat → Nat} {a : Assign}
    (hfc : ∀ c ∈ csp.constraints, relationHolds c.relation (c.scope.map f) = true)
    (hag : Agrees f a) :
    ∀ (ns : List Nat), (∀ n ∈ ns, n ∈ csp.vars) →
      ∀ (d : Doms) (rs : Removals), (∀ w ∈ csp.vars, f w ∈ dget d w) →
      (fcNeighbors csp a ns d rs).2.2 = true ∧
      (∀ w ∈ csp.vars, f w ∈ dget (fcNeighbors csp a ns d rs).1 w) := by
  intro ns
  induction ns with
  | nil =>
    intro _ d rs hfd
    exact ⟨rfl, hfd⟩
  | cons n rest ih =>
    intro hns d rs hfd
    have hn : n ∈ csp.vars := hns n (List.mem_cons_self n rest)
    by_cases ha : (alookup a n).isSome
    · simp only [fcNeighbors, ha, if_pos]
      exact ih (fun u hu => hns u (List.mem_cons_of_mem n hu)) d rs hfd
    · simp only [fcNeighbors, ha, if_neg, Bool.not_eq_true]
      set t := pruneFilter (fun _ nv => isConsistent csp n nv a) n d rs with ht
      obtain ⟨h1, h2, -⟩ := pruneFilter_char (fun _ nv => isConsistent csp n nv a) n
        (fun d₁ d₂ x hh => rfl) d rs
      have hfd' : ∀ w ∈ csp.vars, f w ∈ dget t.1 w := by
        intro w hw
        by_cases hwn : w = n
        · subst hwn
          rw [ht, h1]
          exact Finset.mem_filter.mpr ⟨hfd w hw, isConsistent_of_agrees hfc hag w⟩
        · rw [ht, h2 w hwn]
          exact hfd w hw
      have hne : dget t.1 n ≠ ∅ := by
        intro hemp
        have := hfd' n hn
        rw [hemp] at this
        exact absurd this (Finset.not_mem_empty _)
      rw [if_neg hne]
      exact ih (fun u hu => hns u (List.mem_cons_of_mem n hu)) t.1 t.2.1 hfd'

/-- The constraint-propagation neighbour pass never fails and never prunes a
solution value. -/
lemma cpProcessNeighbors_fpath {csp : CSPModel} {f : Nat → Nat} {a : Assign}
    (hfc : ∀ c ∈ csp.constraints, relationHolds c.relation (c.scope.map f) = true)
    (hag : Agrees f a) :
    ∀ (ns : List Nat), (∀ n ∈ ns, n ∈ csp.vars) →
      ∀ (d : Doms) (rs : Removals) (app : List Nat),
      (∀ w ∈ csp.vars, f w ∈ dget d w) →
      (cpProcessNeighbors csp a ns d rs app).2.2.1 = true ∧
      (∀ w ∈ csp.vars, f w ∈ dget (cpProcessNeighbors csp a ns d rs app).1 w) := by
  intro ns
  induction ns with
  | nil =>
    intro _ d rs app hfd
    exact ⟨rfl, hfd⟩
  | cons n rest ih =>
    intro hns d rs app hfd
    have hn : n ∈ csp.vars := hns n (List.mem_cons_self n rest)
    by_cases ha : (alookup a n).isSome
    · simp only [cpProcessNeighbors, ha, if_pos]
      exact ih (fun u hu => hns u (List.mem_cons_of_mem n hu)) d rs app hfd
    · simp only [cpProcessNeighbors, ha, if_neg, Bool.not_eq_true]
      set t := pruneFilter (fun _ nv => isConsistent csp n nv a) n d rs with ht
      obtain ⟨h1, h2, -⟩ := pruneFilter_char (fun _ nv => isConsistent csp n nv a) n
        (fun d₁ d₂ x hh => rfl) d rs
      have hfd' : ∀ w ∈ csp.vars, f w ∈ dget t.1 w := by
        intro w hw
        by_cases hwn : w = n
        · subst hwn
          rw [ht, h1]
          exact Finset.mem_filter.mpr ⟨hfd w hw, isConsistent_of_agrees hfc hag w⟩
        · rw [ht, h2 w hwn]
          exact hfd w hw
      have hne : dget t.1 n ≠ ∅ := by
        intro hemp
        have := hfd' n hn
        rw [hemp] at this
        exact absurd this (Finset.not_mem_empty _)
      rw [if_neg hne]
      exact ih (fun u hu => hns u (List.mem_cons_of_mem n hu)) t.1 t.2.1 _ hfd'

/-- Constraint propagation never fails and never prunes a solution value. -/
lemma cpLoop_fpath {csp : CSPModel} {f : Nat → Nat} {a : Assign} (hwf : WF csp)
    (hfc : ∀ c ∈ csp.constraints, relationHolds c.relation (c.scope.map f) = true)
    (hag : Agrees f a) :
    ∀ (d : Doms) (rs : Removals) (q : List Nat),
      (∀ w ∈ csp.vars, f w ∈ dget d w) →
      (cpLoop csp a d rs q).2.2 = true ∧
      (∀ w ∈ csp.vars, f w ∈ dget (cpLoop csp a d rs q).1 w) := by
  intro d rs q
  induction d, rs, q using cpLoop.induct csp a with
  | case1 d rs =>
    intro hfd
    rw [cpLoop_nil]
    exact ⟨rfl, hfd⟩
  | case2 d rs current queue d' rs' app h =>
    intro hfd
    have hpn := cpProcessNeighbors_fpath hfc hag (neighborsOf csp current)
      (fun n hn => mem_neighborsOf_vars hwf hn) d rs [] hfd
    rw [h] at hpn
    exact absurd hpn.1 (by simp)
  | case3 d rs current queue d' rs' appended h ih =>
    intro hfd
    have hpn := cpProcessNeighbors_fpath hfc hag (neighborsOf csp current)
      (fun n hn => mem_neighborsOf_vars hwf hn) d rs [] hfd
    rw [h] at hpn
    rw [cpLoop_cons_ok h]
    exact ih hpn.2

/-- AC-3 never fails and never prunes a solution value (the key-set
hypothesis ties queue entries back to CSP variables). -/
lemma ac3Loop_fpath {csp : CSPModel} {f : Nat → Nat} {a : Assign} (hwf : WF csp)
    (hfc : ∀ c ∈ csp.constraints, relationHolds c.relation (c.scope.map f) = true)
    (hag : Agrees f a) :
    ∀ (d : Doms) (rs : Removals) (q : List (Nat × Nat)),
      (∀ w, dmem d w = true → w ∈ csp.vars) →
      (∀ w ∈ csp.vars, f w ∈ dget d w) →
      (ac3Loop csp a d rs q).2.2 = true ∧
      (∀ w ∈ csp.vars, f w ∈ dget (ac3Loop csp a d rs q).1 w) := by
  intro d rs q
  induction d, rs, q using ac3Loop.induct csp a with
  | case1 d rs =>
    intro _ hfd
    rw [ac3Loop_nil]
    exact ⟨rfl, hfd⟩
  | case2 d rs xj rest ih =>
    intro hkeys hfd
    rw [ac3Loop_cons_same]
    exact ih hkeys hfd
  | case3 d rs xi xj rest hne hmem ih =>
    intro hkeys hfd
    rw [ac3Loop_cons_skip hne hmem]
    exact ih hkeys hfd
  | case4 d rs xi xj rest hne hmem d' rs' hrev hemp =>
    intro hkeys hfd
    have hm := not_not.mp hmem
    have hxi : xi ∈ csp.vars := hkeys xi hm.1
    have hxj : xj ∈ csp.vars := hkeys xj hm.2
    have hchar := revise_char csp a xi xj hne d rs
    rw [hrev] at hchar
    have hsup : hasSupport csp d a xi (f xi) xj = true := by
      simp only [hasSupport]
      have hfxj : f xj ∈ dget d xj := hfd xj hxj
      rw [if_neg (by
        intro hemp2
        rw [hemp2] at hfxj
        exact absurd hfxj (Finset.not_mem_empty _))]
      exact List.any_eq_true.mpr ⟨f xj, mem_fiter.mpr hfxj,
        isConsistent_of_agrees hfc (agrees_cons (agrees_cons hag xi) xj) xi⟩
    have hfxi : f xi ∈ dget d' xi := by
      rw [hchar.1]
      exact Finset.mem_filter.mpr ⟨hfd xi hxi, hsup⟩
    rw [hemp] at hfxi
    exact absurd hfxi (Finset.not_mem_empty _)
  | case5 d rs xi xj rest hne hmem d' rs' hrev hemp ih =>
    intro hkeys hfd
    have hm := not_not.mp hmem
    have hxi : xi ∈ csp.vars := hkeys xi hm.1
    have hxj : xj ∈ csp.vars := hkeys xj hm.2
    rw [ac3Loop_cons_requeue hne hm hrev hemp]
    have hchar := revise_char csp a xi xj hne d rs
    rw [hrev] at hchar
    have hsup : hasSupport csp d a xi (f xi) xj = true := by
      simp only [hasSupport]
      have hfxj : f xj ∈ dget d xj := hfd xj hxj
      rw [if_neg (by
        intro hemp2
        rw [hemp2] at hfxj
        exact absurd hfxj (Finset.not_mem_empty _))]
      exact List.any_eq_true.mpr ⟨f xj, mem_fiter.mpr hfxj,
        isConsistent_of_agrees hfc (agrees_cons (agrees_cons hag xi) xj) xi⟩
    have hfxi : f xi ∈ dget d' xi := by
      rw [hchar.1]
      exact Finset.mem_filter.mpr ⟨hfd xi hxi, hsup⟩
    have hkeys' : ∀ w, dmem d' w = true → w ∈ csp.vars := by
      intro w hw
      apply hkeys w
      have hdm := pruneFilter_dmem (fun d'' value => hasSupport csp d'' a xi value xj) xi d rs w
      rw [show pruneFilter (fun d'' value => hasSupport csp d'' a xi value xj) xi d rs =
        revise csp a xi xj d rs from rfl, hrev] at hdm
      rw [hdm] at hw
      exact hw
    have hfd' : ∀ w ∈ csp.vars, f w ∈ dget d' w := by
      intro w hw
      by_cases hwxi : w = xi
      · subst hwxi
        exact hfxi
      · rw [hchar.2.1 w hwxi]
        exact hfd w hw
    have ihres : (ac3Loop csp a d' rs' (rest ++ ac3Requeue csp xi xj)).2.2 = true ∧
        (∀ w ∈ csp.vars, f w ∈ dget (ac3Loop csp a d' rs' (rest ++ ac3Requeue csp xi xj)).1 w) :=
      ih hkeys' hfd'
    exact ihres
  | case6 d rs xi xj rest hne hmem d' rs' hrev ih =>
    intro hkeys hfd
    have hm := not_not.mp hmem
    rw [ac3Loop_cons_norevise hne hm hrev]
    have hff : (revise csp a xi xj d rs).2.2 = false := by rw [hrev]
    have hid := pruneFilter_flag_false
      (show (pruneFilter (fun d'' value => hasSupport csp d'' a xi value xj) xi d rs).2.2 =
        false from hff)
    have hdd : revise csp a xi xj d rs = (d, rs, false) := hid
    rw [hrev] at hdd
    simp only [Prod.mk.injEq] at hdd
    obtain ⟨hd, hrs, -⟩ := hdd
    subst hd
    exact ih hkeys hfd

/-- Narrowing the assigned variable to its solution value succeeds and keeps
every solution value. -/
lemma restrictToAssignment_fpath {csp : CSPModel} {f : Nat → Nat} {var : Nat}
    (hvar : var ∈ csp.vars) (d : Doms) (rs : Removals)
    (hfd : ∀ w ∈ csp.vars, f w ∈ dget d w) :
    (restrictToAssignment var (f var) d rs).2.2 = true ∧
    (∀ w ∈ csp.vars, f w ∈ dget (restrictToAssignment var (f var) d rs).1 w) := by
  have hfv : f var ∈ dget d var := hfd var hvar
  unfold restrictToAssignment
  rw [if_neg (by simp [hfv])]
  obtain ⟨h1, h2, -⟩ := pruneFilter_char (fun _ other => other = f var) var
    (fun d₁ d₂ x hh => rfl) d rs
  refine ⟨rfl, ?_⟩
  intro w hw
  show f w ∈ dget (pruneFilter (fun _ other => other = f var) var d rs).1 w
  by_cases hwv : w = var
  · subst hwv
    rw [h1]
    exact Finset.mem_filter.mpr ⟨hfv, by simp⟩
  · rw [h2 w hwv]
    exact hfd w hw

/-- Any single technique succeeds and keeps every solution value. -/
lemma runTechnique_fpath {csp : CSPModel} {f : Nat → Nat} {a : Assign} (hwf : WF csp)
    (hfc : ∀ c ∈ csp.constraints, relationHolds c.relation (c.scope.map f) = true)
    (hag : Agrees f a) (t : Tech) (var : Nat) (d : Doms) (rs : Removals)
    (hkeys : ∀ w, dmem d w = true → w ∈ csp.vars)
    (hfd : ∀ w ∈ csp.vars, f w ∈ dget d w) :
    (runTechnique csp t var a d rs).2.2 = true ∧
    (∀ w ∈ csp.vars, f w ∈ dget (runTechnique csp t var a d rs).1 w) := by
  cases t with
  | fc => exact fcNeighbors_fpath hfc hag _ (fun n hn => mem_neighborsOf_vars hwf hn) d rs hfd
  | cp => exact cpLoop_fpath hwf hfc hag d rs [var] hfd
  | ac3 => exact ac3Loop_fpath hwf hfc hag d rs _ hkeys hfd

/-- The whole technique chain succeeds and keeps every solution value. -/
lemma runTechniques_fpath {csp : CSPModel} {f : Nat → Nat} {a : Assign} (hwf : WF csp)
    (hfc : ∀ c ∈ csp.constraints, relationHolds c.relation (c.scope.map f) = true)
    (hag : Agrees f a) (var : Nat) (ts : List Tech) :
    ∀ (d : Doms) (rs : Removals),
      (∀ w, dmem d w = true → w ∈ csp.vars) →
      (∀ w ∈ csp.vars, f w ∈ dget d w) →
      (runTechniques csp var a ts d rs).2.2 = true ∧
      (∀ w ∈ csp.vars, f w ∈ dget (runTechniques csp var a ts d rs).1 w) := by
  induction ts with
  | nil =>
    intro d rs _ hfd
    exact ⟨rfl, hfd⟩
  | cons t rest ih =>
    intro d rs hkeys hfd
    simp only [runTechniques]
    set r := runTechnique csp t var a d rs with hr
    obtain ⟨hflag, hfd'⟩ := runTechnique_fpath hwf hfc hag t var d rs hkeys hfd
    rw [if_pos hflag]
    refine ih r.1 r.2.1 ?_ hfd'
    intro w hw
    apply hkeys w
    rw [← runTechnique_dmem csp t var a d rs w]
    exact hw

/-- Along a solution `f`, the inference step after assigning `var := f var`
always succeeds, and the resulting working domains still contain every
solution value. -/
lemma applyInference_fpath {csp : CSPModel} {f : Nat → Nat} {a : Assign}
    (techs : List Tech) {var : Nat} (hwf : WF csp)
    (hfc : ∀ c ∈ csp.constraints, relationHolds c.relation (c.scope.map f) = true)
    (hag : Agrees f a) (hvar : var ∈ csp.vars) (d : Doms) (rs : Removals)
    (hkeys : ∀ w, dmem d w = true → w ∈ csp.vars)
    (hfd : ∀ w ∈ csp.vars, f w ∈ dget d w) :
    (applyInference csp techs var ((var, f var) :: a) d rs).2.2 = true ∧
    (∀ w ∈ csp.vars,
      f w ∈ dget (applyInference csp techs var ((var, f var) :: a) d rs).1 w) := by
  unfold applyInference
  have hval : (alookup ((var, f var) :: a) var).getD 0 = f var := by
    rw [alookup_cons_self]
    rfl
  rw [hval]
  obtain ⟨hr0flag, hr0fd⟩ := restrictToAssignment_fpath hvar d rs hfd
  simp only [hr0flag, if_true]
  refine runTechniques_fpath hwf hfc (agrees_cons hag var) var techs _ _ ?_ hr0fd
  intro w hw
  apply hkeys w
  rw [← restrictToAssignment_dmem var (f var) d rs w]
  exact hw

/-- Completeness of the inference solver's value loop: trail replay brings
the loop back to its entry domains after each failed value, and the solution
value always survives inference, so listing it guarantees success. -/
lemma ibTryValues_complete {csp : CSPModel} {f : Nat → Nat} {techs : List Tech}
    {fl : Nat} {a : Assign} {var : Nat} {d : Doms} (hwf : WF csp)
    (hfc : ∀ c ∈ csp.constraints, relationHolds c.relation (c.scope.map f) = true)
    (hag : Agrees f a) (hvar : var ∈ csp.vars)
    (hkeys : ∀ w, dmem d w = true → w ∈ csp.vars)
    (hfd : ∀ w ∈ csp.vars, f w ∈ dget d w)
    (hrec : ∀ d1, (∀ w, dmem d1 w = true → w ∈ csp.vars) →
      (∀ w ∈ csp.vars, f w ∈ dget d1 w) →
      ((ibBacktrack csp techs fl ((var, f var) :: a) d1).1).isSome = true) :
    ∀ vals, f var ∈ vals →
      ((ibTryValues csp techs (ibBacktrack csp techs fl) a var d vals).1).isSome = true := by
  intro vals
  induction vals with
  | nil =>
    intro h
    exact absurd h (List.not_mem_nil _)
  | cons v rest ih =>
    intro hm
    by_cases hv : v = f var
    · subst hv
      have hc : isConsistent csp var (f var) a = true := isConsistent_of_agrees hfc hag var
      rcases happ : applyInference csp techs var ((var, f var) :: a) d [] with ⟨d1, rs1, ok⟩
      have hfp := applyInference_fpath techs hwf hfc hag hvar d [] hkeys hfd
      rw [happ] at hfp
      cases ok with
      | false => exact absurd hfp.1 (by simp)
      | true =>
        have hkeys1 : ∀ w, dmem d1 w = true → w ∈ csp.vars := by
          intro w hw
          apply hkeys w
          have hdm := applyInference_dmem csp techs var ((var, f var) :: a) d [] w
          rw [happ] at hdm
          rw [hdm] at hw
          exact hw
        have hrec1 := hrec d1 hkeys1 hfp.2
        rcases hr : ibBacktrack csp techs fl ((var, f var) :: a) d1 with ⟨o, d2⟩
        cases o with
        | some r =>
          rw [ibTryValues_cons_found hc happ hr]
          rfl
        | none =>
          rw [hr] at hrec1
          simp at hrec1
    · have hm' : f var ∈ rest := by
        rcases List.mem_cons.mp hm with he | hm2
        · exact absurd he.symm hv
        · exact hm2
      by_cases hc : isConsistent csp var v a = true
      · rcases happ : applyInference csp techs var ((var, v) :: a) d [] with ⟨d1, rs1, ok⟩
        have hundo := applyInference_empty_undo csp techs var ((var, v) :: a) d
        rw [happ] at hundo
        cases ok with
        | true =>
          rcases hr : ibBacktrack csp techs fl ((var, v) :: a) d1 with ⟨o, d2⟩
          cases o with
          | some r =>
            rw [ibTryValues_cons_found hc happ hr]
            rfl
          | none =>
            rw [ibTryValues_cons_deeperfail hc happ hr]
            rw [ibBacktrack_none_doms fl _ _ _ hr]
            rw [show drestore rs1 d1 = d from hundo]
            exact ih hm'
        | false =>
          rw [ibTryValues_cons_inffail hc happ]
          rw [show drestore rs1 d1 = d from hundo]
          exact ih hm'
      · rw [ibTryValues_cons_skip hc]
        exact ih hm'

/-- Completeness of the inference solver, for every technique selection. -/
lemma ibBacktrack_complete {csp : CSPModel} {f : Nat → Nat} {techs : List Tech}
    (hwf : WF csp)
    (hfd : ∀ v ∈ csp.vars, f v ∈ csp.domains v)
    (hfc : ∀ c ∈ csp.constraints, relationHolds c.relation (c.scope.map f) = true) :
    ∀ (fuel : Nat) (a : Assign) (d : Doms), SearchInv csp a → Agrees f a →
      uCount csp a ≤ fuel →
      (∀ w, dmem d w = true → w ∈ csp.vars) →
      (∀ w ∈ csp.vars, f w ∈ dget d w) →
      ((ibBacktrack csp techs fuel a d).1).isSome = true := by
  intro fuel
  induction fuel with
  | zero =>
    intro a d hinv hag hcnt hkeys hfdd
    rw [ibBacktrack]
    have hcomp := complete_of_uCount_zero hwf hinv (Nat.le_zero.mp hcnt)
    unfold isComplete at hcomp
    rw [if_pos (by simpa using hcomp)]
    rfl
  | succ fl ih =>
    intro a d hinv hag hcnt hkeys hfdd
    rw [ibBacktrack]
    by_cases hcomp : a.length = csp.vars.length
    · rw [if_pos hcomp]
      rfl
    · rw [if_neg hcomp]
      have hncomp : ¬ isComplete csp a = true := by
        unfold isComplete
        simpa using hcomp
      obtain ⟨v0, hv0, hun0⟩ := exists_unassigned_of_not_complete hwf hinv hncomp
      cases hsel : ibSelectVar csp d a with
      | none =>
        exfalso
        have hsel2 : ((csp.vars.filter (fun v => (alookup a v).isNone)).insertionSort
            (ibKeyLe d)).head? = none := hsel
        have hfne : csp.vars.filter (fun v => (alookup a v).isNone) ≠ [] :=
          List.ne_nil_of_mem (List.mem_filter.mpr ⟨hv0, hun0⟩)
        have hperm := List.perm_insertionSort (ibKeyLe d)
          (csp.vars.filter (fun v => (alookup a v).isNone))
        cases hs : (csp.vars.filter (fun v => (alookup a v).isNone)).insertionSort
            (ibKeyLe d) with
        | nil =>
          rw [hs] at hperm
          exact hfne (List.Perm.nil_eq hperm).symm
        | cons b bs =>
          rw [hs] at hsel2
          simp at hsel2
      | some var =>
        obtain ⟨hvar, hun⟩ := ibSelectVar_some hsel
        refine ibTryValues_complete hwf hfc hag hvar hkeys hfdd ?_
          (ibOrderValues d var)
          (show f var ∈ fiter (dget d var) from mem_fiter.mpr (hfdd var hvar))
        intro d1 hkeys1 hfd1
        refine ih ((var, f var) :: a) d1
          (hinv.step hvar hun (hfd var hvar) (isConsistent_of_agrees hfc hag var))
          (agrees_cons hag var) ?_ hkeys1 hfd1
        have := uCount_assign hwf.1 hvar hun (f var)
        omega

/-- Completeness iff for the inference solver. -/
lemma ibSolve_iff {csp : CSPModel} (hwf : WF csp) (techs : List Tech) :
    (ibSolve csp techs).isSome = true ↔ Solvable csp := by
  constructor
  · intro h
    unfold ibSolve at h
    rcases hr : ibSolveRun csp techs with ⟨o, dOut⟩
    rw [hr] at h
    cases o with
    | none => simp at h
    | some r =>
      obtain ⟨hsol, hinv⟩ := ibBacktrack_sound hwf csp.vars.length [] (initDoms csp) r dOut
        (SearchInv.nil csp hwf) (initDoms_domsub csp) hr
      exact solvable_of_sound hwf hinv hsol
  · rintro ⟨f, hfd, hfc⟩
    refine ibBacktrack_complete hwf hfd hfc csp.vars.length [] (initDoms csp)
      (SearchInv.nil csp hwf) (agrees_nil f) ?_ ?_ ?_
    · unfold uCount
      exact List.length_filter_le _ _
    · intro w hw
      unfold initDoms at hw
      rw [dmem_map_mk] at hw
      simpa using hw
    · intro w hw
      unfold initDoms
      rw [dget_map_mk, if_pos hw]
      exact List.mem_toFinset.mpr (hfd w hw)

/-- C2.  Completeness: under the well-formedness the Python constructors
guarantee, each of the three solve entry points returns an assignment iff the
CSP has a solution (a choice of a domain value for every variable satisfying
every constraint), for every heuristic-flag combination and every technique
selection; equivalently, each returns None only when no solution exists. -/
theorem c2_completeness (csp : CSPModel) (hwf : WF csp) (m deg lcv : Bool)
    (techs : List Tech) :
    ((backtrackingSearch csp).isSome = true ↔ Solvable csp) ∧
    ((heuristicBacktrackingSearch csp m deg lcv).isSome = true ↔ Solvable csp) ∧
    ((ibSolve csp techs).isSome = true ↔ Solvable csp) :=
  ⟨backtrackingSearch_iff hwf, heuristicSearch_iff hwf m deg lcv, ibSolve_iff hwf techs⟩

/-- C2 witness: the completeness theorem applied to the concrete 3-variable
2-colour instance, with every heuristic enabled and the full technique
chain. -/
theorem c2_completeness_witness :
    ((backtrackingSearch cspW).isSome = true ↔ Solvable cspW) ∧
    ((heuristicBacktrackingSearch cspW true true true).isSome = true ↔ Solvable cspW) ∧
    ((ibSolve cspW [Tech.fc, Tech.cp, Tech.ac3]).isSome = true ↔ Solvable cspW) :=
  c2_completeness cspW (by decide) true true true [Tech.fc, Tech.cp, Tech.ac3]

/-! ## C10: the store model of `current_domains`

`solve_with_metrics` mutates only the value sets of the solver-private
`current_domains` dict built by `_prepare`; the input CSP's domain sets are
only read.  To state this frame property the mutable sets are given explicit
addresses in a store: `cspa v` addresses the CSP's own domain set of `v`, and
`cur v` addresses the solver's working copy.  The search is transliterated
over the store, reading and writing through `cur` exactly where the Python
code reads and writes `self.current_domains`. -/

/-- The heap of set objects. -/
structure Store where
  mem : Nat → Finset Nat

/-- Overwrite one set object. -/
def swrite (σ : Store) (addr : Nat) (s : Finset Nat) : Store :=
  ⟨fun b => if b = addr then s else σ.mem b⟩

lemma swrite_mem_self (σ : Store) (addr : Nat) (s : Finset Nat) :
    (swrite σ addr s).mem addr = s := by
  simp [swrite]

lemma swrite_mem_ne (σ : Store) (addr : Nat) (s : Finset Nat) {b : Nat} (h : b ≠ addr) :
    (swrite σ addr s).mem b = σ.mem b := by
  simp [swrite, h]

/-- Read `self.current_domains[v]` (the empty set standing for the
`KeyError` that `_prepare` makes unreachable, as in the list model). -/
def sdget (csp : CSPModel) (cur : Nat → Nat) (σ : Store) (v : Nat) : Finset Nat :=
  if v ∈ csp.vars then σ.mem (cur v) else ∅

/-- Mutate `self.current_domains[v]` in place (no-op on a missing key, as in
the list model). -/
def sdupdate (csp : CSPModel) (cur : Nat → Nat) (σ : Store) (v : Nat) (s : Finset Nat) :
    Store :=
  if v ∈ csp.vars then swrite σ (cur v) s else σ

/-- Total size of the working domains; the termination measure. -/
def stotal (csp : CSPModel) (cur : Nat → Nat) (σ : Store) : Nat :=
  (csp.vars.map (fun v => (σ.mem (cur v)).card)).sum

lemma sumcards_subset_le (cur : Nat → Nat) {σ' σ : Store}
    (h : ∀ b, σ'.mem b ⊆ σ.mem b) :
    ∀ l : List Nat, (l.map (fun w => (σ'.mem (cur w)).card)).sum ≤
      (l.map (fun w => (σ.mem (cur w)).card)).sum := by
  intro l
  induction l with
  | nil => simp
  | cons k ks ih =>
    simp only [List.map_cons, List.sum_cons]
    have := Finset.card_le_card (h (cur k))
    omega

lemma sumcards_erase_lt (cur : Nat → Nat) (σ : Store) {v x : Nat}
    (hx : x ∈ σ.mem (cur v)) :
    ∀ l : List Nat, v ∈ l →
      (l.map (fun w => ((swrite σ (cur v) ((σ.mem (cur v)).erase x)).mem (cur w)).card)).sum <
      (l.map (fun w => (σ.mem (cur w)).card)).sum := by
  have hsub : ∀ b, (swrite σ (cur v) ((σ.mem (cur v)).erase x)).mem b ⊆ σ.mem b := by
    intro b
    by_cases hb : b = cur v
    · subst hb
      rw [swrite_mem_self]
      exact Finset.erase_subset _ _
    · rw [swrite_mem_ne σ _ _ hb]
  intro l hv
  induction l with
  | nil => exact absurd hv (List.not_mem_nil v)
  | cons k ks ih =>
    simp only [List.map_cons, List.sum_cons]
    rcases List.mem_cons.mp hv with he | hm
    · have hhead : ((swrite σ (cur v) ((σ.mem (cur v)).erase x)).mem (cur k)).card <
          (σ.mem (cur k)).card := by
        rw [← he, swrite_mem_self]
        exact Finset.card_erase_lt_of_mem hx
      have htail := sumcards_subset_le cur hsub ks
      omega
    · have hhead : ((swrite σ (cur v) ((σ.mem (cur v)).erase x)).mem (cur k)).card ≤
          (σ.mem (cur k)).card := Finset.card_le_card (hsub (cur k))
      have := ih hm
      omega

lemma stotal_sdupdate_erase {csp : CSPModel} {cur : Nat → Nat} {σ : Store} {v x : Nat}
    (h : x ∈ sdget csp cur σ v) :
    stotal csp cur (sdupdate csp cur σ v ((sdget csp cur σ v).erase x)) < stotal csp cur σ := by
  unfold sdget at h ⊢
  by_cases hv : v ∈ csp.vars
  · rw [if_pos hv] at h ⊢
    unfold sdupdate
    rw [if_pos hv]
    exact sumcards_erase_lt cur σ h csp.vars hv
  · rw [if_neg hv] at h
    exact absurd h (Finset.not_mem_empty x)

/-- `_prune` over the store. -/
def sprune (csp : CSPModel) (cur : Nat → Nat) (σ : Store) (v x : Nat) (rs : Removals) :
    Store × Removals × Bool :=
  if x ∈ sdget csp cur σ v then
    (sdupdate csp cur σ v ((sdget csp cur σ v).erase x), rs ++ [(v, x)], true)
  else (σ, rs, false)

/-- `_restore` over the store. -/
def srestore (csp : CSPModel) (cur : Nat → Nat) (rs : Removals) (σ : Store) : Store :=
  rs.foldr (fun p σ => sdupdate csp cur σ p.1 (insert p.2 (sdget csp cur σ p.1))) σ

/-- The common pruning pass over the store. -/
def spruneFilterGo (csp : CSPModel) (cur : Nat → Nat) (keep : Store → Nat → Bool) (v : Nat) :
    List Nat → Store → Removals → Bool → Store × Removals × Bool
  | [], σ, rs, flag => (σ, rs, flag)
  | x :: rest, σ, rs, flag =>
    if keep σ x then spruneFilterGo csp cur keep v rest σ rs flag
    else
      let t := sprune csp cur σ v x rs
      spruneFilterGo csp cur keep v rest t.1 t.2.1 (flag || t.2.2)

/-- Prune every currently listed value failing `keep`, over the store. -/
def spruneFilter (csp : CSPModel) (cur : Nat → Nat) (keep : Store → Nat → Bool) (v : Nat)
    (σ : Store) (rs : Removals) : Store × Removals × Bool :=
  spruneFilterGo csp cur keep v (fiter (sdget csp cur σ v)) σ rs false

lemma spruneFilterGo_cons_keep {csp : CSPModel} {cur : Nat → Nat}
    {keep : Store → Nat → Bool} {v x : Nat} {rest : List Nat}
    {σ : Store} {rs : Removals} {flag : Bool} (hk : keep σ x = true) :
    spruneFilterGo csp cur keep v (x :: rest) σ rs flag =
      spruneFilterGo csp cur keep v rest σ rs flag := by
  simp [spruneFilterGo, hk]

lemma spruneFilterGo_cons_mem {csp : CSPModel} {cur : Nat → Nat}
    {keep : Store → Nat → Bool} {v x : Nat} {rest : List Nat}
    {σ : Store} {rs : Removals} {flag : Bool} (hk : keep σ x = false)
    (hx : x ∈ sdget csp cur σ v) :
    spruneFilterGo csp cur keep v (x :: rest) σ rs flag =
      spruneFilterGo csp cur keep v rest
        (sdupdate csp cur σ v ((sdget csp cur σ v).erase x)) (rs ++ [(v, x)]) true := by
  simp [spruneFilterGo, hk, sprune, hx]

lemma spruneFilterGo_cons_notmem {csp : CSPModel} {cur : Nat → Nat}
    {keep : Store → Nat → Bool} {v x : Nat} {rest : List Nat}
    {σ : Store} {rs : Removals} {flag : Bool} (hk : keep σ x = false)
    (hx : x ∉ sdget csp cur σ v) :
    spruneFilterGo csp cur keep v (x :: rest) σ rs flag =
      spruneFilterGo csp cur keep v rest σ rs flag := by
  simp [spruneFilterGo, hk, sprune, hx]

lemma spruneFilterGo_size_le (csp : CSPModel) (cur : Nat → Nat)
    (keep : Store → Nat → Bool) (v : Nat) (l : List Nat) :
    ∀ (σ : Store) (rs : Removals) (flag : Bool),
      stotal csp cur (spruneFilterGo csp cur keep v l σ rs flag).1 ≤ stotal csp cur σ := by
  induction l with
  | nil => intro σ rs flag; exact Nat.le_refl _
  | cons x rest ih =>
    intro σ rs flag
    by_cases hk : keep σ x
    · rw [spruneFilterGo_cons_keep hk]
      exact ih σ rs flag
    · rw [Bool.not_eq_true] at hk
      by_cases hx : x ∈ sdget csp cur σ v
      · rw [spruneFilterGo_cons_mem hk hx]
        have hlt := stotal_sdupdate_erase hx
        have hle := ih (sdupdate csp cur σ v ((sdget csp cur σ v).erase x)) (rs ++ [(v, x)]) true
        omega
      · rw [spruneFilterGo_cons_notmem hk hx]
        exact ih σ rs flag

lemma spruneFilterGo_flag_mono (csp : CSPModel) (cur : Nat → Nat)
    (keep : Store → Nat → Bool) (v : Nat) (l : List Nat) :
    ∀ (σ : Store) (rs : Removals),
      (spruneFilterGo csp cur keep v l σ rs true).2.2 = true := by
  induction l with
  | nil => intro σ rs; rfl
  | cons x rest ih =>
    intro σ rs
    by_cases hk : keep σ x
    · rw [spruneFilterGo_cons_keep hk]
      exact ih σ rs
    · rw [Bool.not_eq_true] at hk
      by_cases hx : x ∈ sdget csp cur σ v
      · rw [spruneFilterGo_cons_mem hk hx]
        exact ih _ _
      · rw [spruneFilterGo_cons_notmem hk hx]
        exact ih σ rs

lemma spruneFilterGo_flag_false (csp : CSPModel) (cur : Nat → Nat)
    (keep : Store → Nat → Bool) (v : Nat) (l : List Nat) :
    ∀ (σ : Store) (rs : Removals),
      (spruneFilterGo csp cur keep v l σ rs false).2.2 = false →
      spruneFilterGo csp cur keep v l σ rs false = (σ, rs, false) := by
  induction l with
  | nil => intro σ rs _; rfl
  | cons x rest ih =>
    intro σ rs h
    by_cases hk : keep σ x
    · rw [spruneFilterGo_cons_keep hk] at h ⊢
      exact ih σ rs h
    · rw [Bool.not_eq_true] at hk
      by_cases hx : x ∈ sdget csp cur σ v
      · rw [spruneFilterGo_cons_mem hk hx] at h
        rw [spruneFilterGo_flag_mono] at h
        exact absurd h (by simp)
      · rw [spruneFilterGo_cons_notmem hk hx] at h ⊢
        exact ih σ rs h

lemma spruneFilterGo_flag_true (csp : CSPModel) (cur : Nat → Nat)
    (keep : Store → Nat → Bool) (v : Nat) (l : List Nat) :
    ∀ (σ : Store) (rs : Removals),
      (spruneFilterGo csp cur keep v l σ rs false).2.2 = true →
      stotal csp cur (spruneFilterGo csp cur keep v l σ rs false).1 < stotal csp cur σ := by
  induction l with
  | nil => intro σ rs h; exact absurd h (by simp [spruneFilterGo])
  | cons x rest ih =>
    intro σ rs h
    by_cases hk : keep σ x
    · rw [spruneFilterGo_cons_keep hk] at h ⊢
      exact ih σ rs h
    · rw [Bool.not_eq_true] at hk
      by_cases hx : x ∈ sdget csp cur σ v
      · rw [spruneFilterGo_cons_mem hk hx]
        have hlt := stotal_sdupdate_erase hx
        have hle := spruneFilterGo_size_le csp cur keep v rest
          (sdupdate csp cur σ v ((sdget csp cur σ v).erase x)) (rs ++ [(v, x)]) true
        omega
      · rw [spruneFilterGo_cons_notmem hk hx] at h ⊢
        exact ih σ rs h

lemma spruneFilter_flag_false {csp : CSPModel} {cur : Nat → Nat}
    {keep : Store → Nat → Bool} {v : Nat} {σ : Store} {rs : Removals}
    (h : (spruneFilter csp cur keep v σ rs).2.2 = false) :
    spruneFilter csp cur keep v σ rs = (σ, rs, false) :=
  spruneFilterGo_flag_false csp cur keep v _ σ rs h

lemma spruneFilter_flag_true {csp : CSPModel} {cur : Nat → Nat}
    {keep : Store → Nat → Bool} {v : Nat} {σ : Store} {rs : Removals}
    (h : (spruneFilter csp cur keep v σ rs).2.2 = true) :
    stotal csp cur (spruneFilter csp cur keep v σ rs).1 < stotal csp cur σ :=
  spruneFilterGo_flag_true csp cur keep v _ σ rs h

/-- `_has_support` over the store. -/
def shasSupport (csp : CSPModel) (cur : Nat → Nat) (σ : Store) (a : Assign)
    (xi value xj : Nat) : Bool :=
  let dj := sdget csp cur σ xj
  if dj = ∅ then false
  else (fiter dj).any (fun yj => isConsistent csp xi value ((xj, yj) :: (xi, value) :: a))

/-- `_revise` over the store. -/
def srevise (csp : CSPModel) (cur : Nat → Nat) (a : Assign) (xi xj : Nat)
    (σ : Store) (rs : Removals) : Store × Removals × Bool :=
  spruneFilter csp cur (fun σ' value => shasSupport csp cur σ' a xi value xj) xi σ rs

/-- `_arc_consistency`'s worklist over the store. -/
def sac3Loop (csp : CSPModel) (cur : Nat → Nat) (a : Assign) :
    Store → Removals → List (Nat × Nat) → Store × Removals × Bool
  | σ, rs, [] => (σ, rs, true)
  | σ, rs, (xi, xj) :: rest =>
    if xi = xj then sac3Loop csp cur a σ rs rest
    else if ¬ (xi ∈ csp.vars ∧ xj ∈ csp.vars) then sac3Loop csp cur a σ rs rest
    else
      match h : srevise csp cur a xi xj σ rs with
      | (σ', rs', true) =>
        if sdget csp cur σ' xi = ∅ then (σ', rs', false)
        else
          sac3Loop csp cur a σ' rs'
            (rest ++ (neighborsOf csp xi).filterMap
              (fun xk => if xk = xj then none else some (xk, xi)))
      | (σ', rs', false) => sac3Loop csp cur a σ' rs' rest
  termination_by σ _ q => (stotal csp cur σ, q.length)
  decreasing_by
  · exact Prod.Lex.right (stotal csp cur σ) (Nat.lt_succ_self rest.length)
  · exact Prod.Lex.right (stotal csp cur σ) (Nat.lt_succ_self rest.length)
  · rw [srevise] at h
    have h2 : (spruneFilter csp cur
        (fun σ' value => shasSupport csp cur σ' a xi value xj) xi σ rs).2.2 = true := by
      rw [h]
    have h3 := spruneFilter_flag_true h2
    rw [h] at h3
    exact Prod.Lex.left _ _ (by simpa using h3)
  · have hf : (srevise csp cur a xi xj σ rs).2.2 = false := by rw [h]
    have hid := @spruneFilter_flag_false csp cur
      (fun σ' value => shasSupport csp cur σ' a xi value xj) xi σ rs hf
    rw [srevise] at h
    rw [hid] at h
    cases h
    exact Prod.Lex.right (stotal csp cur σ) (Nat.lt_succ_self rest.length)

/-- `_arc_consistency` over the store. -/
def sarcConsistency (csp : CSPModel) (cur : Nat → Nat) (var : Nat) (a : Assign)
    (σ : Store) (rs : Removals) : Store × Removals × Bool :=
  sac3Loop csp cur a σ rs ((neighborsOf csp var).map (fun n => (n, var)))

/-- The neighbour pass of `_constraint_propagation` over the store. -/
def scpProcessNeighbors (csp : CSPModel) (cur : Nat → Nat) (a : Assign) :
    List Nat → Store → Removals → List Nat → Store × Removals × Bool × List Nat
  | [], σ, rs, appended => (σ, rs, true, appended)
  | n :: rest, σ, rs, appended =>
    if (alookup a n).isSome then scpProcessNeighbors csp cur a rest σ rs appended
    else
      let t := spruneFilter csp cur (fun _ nv => isConsistent csp n nv a) n σ rs
      if sdget csp cur t.1 n = ∅ then (t.1, t.2.1, false, appended)
      else
        scpProcessNeighbors csp cur a rest t.1 t.2.1
          (if t.2.2 then appended ++ [n] else appended)

lemma scpProcessNeighbors_app_le {csp : CSPModel} {cur : Nat → Nat} {a : Assign}
    (ns : List Nat) (σ : Store) (rs : Removals) (app : List Nat) :
    app.length ≤ (scpProcessNeighbors csp cur a ns σ rs app).2.2.2.length := by
  induction ns generalizing σ rs app with
  | nil => simp [scpProcessNeighbors]
  | cons n rest ih =>
    by_cases ha : (alookup a n).isSome
    · simp only [scpProcessNeighbors, ha, if_pos]
      exact ih σ rs app
    · simp only [scpProcessNeighbors, ha, if_neg, Bool.not_eq_true]
      set t := spruneFilter csp cur (fun _ nv => isConsistent csp n nv a) n σ rs with ht
      by_cases he : sdget csp cur t.1 n = ∅
      · simp [he]
      · simp only [he, if_neg, not_false_iff]
        by_cases hfl : t.2.2 = true
        · rw [if_pos hfl]
          have := ih t.1 t.2.1 (app ++ [n])
          simp only [List.length_append, List.length_cons, List.length_nil] at this
          omega
        · rw [if_neg hfl]
          exact ih t.1 t.2.1 app

lemma scpProcessNeighbors_true {csp : CSPModel} {cur : Nat → Nat} {a : Assign}
    {ns : List Nat} {σ σ' : Store} {rs rs' : Removals} {app app' : List Nat}
    (h : scpProcessNeighbors csp cur a ns σ rs app = (σ', rs', true, app')) :
    stotal csp cur σ' ≤ stotal csp cur σ ∧ (app' = app → σ' = σ) ∧
      (app' ≠ app → stotal csp cur σ' < stotal csp cur σ) := by
  induction ns generalizing σ rs app with
  | nil =>
    simp only [scpProcessNeighbors, Prod.mk.injEq] at h
    obtain ⟨h1, -, -, h4⟩ := h
    subst h1; subst h4
    exact ⟨Nat.le_refl _, fun _ => rfl, fun hne => absurd rfl hne⟩
  | cons n rest ih =>
    by_cases ha : (alookup a n).isSome
    · simp only [scpProcessNeighbors, ha, if_pos] at h
      exact ih h
    · simp only [scpProcessNeighbors, ha, if_neg, Bool.not_eq_true] at h
      set t := spruneFilter csp cur (fun _ nv => isConsistent csp n nv a) n σ rs with ht
      by_cases he : sdget csp cur t.1 n = ∅
      · simp only [he, if_pos, Prod.mk.injEq] at h
        exact absurd h.2.2.1 (by simp)
      · simp only [he, if_neg, not_false_iff] at h
        by_cases hfl : t.2.2 = true
        · rw [if_pos hfl] at h
          have hlt : stotal csp cur t.1 < stotal csp cur σ := spruneFilter_flag_true hfl
          obtain ⟨h1, -, -⟩ := ih h
          have hstrict : stotal csp cur σ' < stotal csp cur σ := Nat.lt_of_le_of_lt h1 hlt
          refine ⟨Nat.le_of_lt hstrict, ?_, fun _ => hstrict⟩
          intro happ
          exfalso
          have hgrow := @scpProcessNeighbors_app_le csp cur a rest t.1 t.2.1 (app ++ [n])
          rw [h, happ] at hgrow
          simp at hgrow
        · rw [if_neg hfl] at h
          have hfl' : t.2.2 = false := by
            cases hb : t.2.2
            · rfl
            · exact absurd hb hfl
          have hid : t = (σ, rs, false) := spruneFilter_flag_false hfl'
          have hσ : t.1 = σ := by rw [hid]
          have hrs : t.2.1 = rs := by rw [hid]
          rw [hσ, hrs] at h
          exact ih h

/-- `_constraint_propagation`'s worklist over the store. -/
def scpLoop (csp : CSPModel) (cur : Nat → Nat) (a : Assign) :
    Store → Removals → List Nat → Store × Removals × Bool
  | σ, rs, [] => (σ, rs, true)
  | σ, rs, current :: queue =>
    match h : scpProcessNeighbors csp cur a (neighborsOf csp current) σ rs [] with
    | (σ', rs', false, _) => (σ', rs', false)
    | (σ', rs', true, appended) => scpLoop csp cur a σ' rs' (queue ++ appended)
  termination_by σ _ q => (stotal csp cur σ, q.length)
  decreasing_by
  · obtain ⟨h1, h2, h3⟩ := scpProcessNeighbors_true h
    by_cases happ : appended = []
    · rw [h2 happ, happ]
      exact Prod.Lex.right (stotal csp cur σ) (by simp [Nat.lt_succ_self])
    · exact Prod.Lex.left _ _ (h3 happ)

/-- `_constraint_propagation` over the store. -/
def sconstraintPropagation (csp : CSPModel) (cur : Nat → Nat) (var : Nat) (a : Assign)
    (σ : Store) (rs : Removals) : Store × Removals × Bool :=
  scpLoop csp cur a σ rs [var]

/-- `_forward_check`'s neighbour loop over the store. -/
def sfcNeighbors (csp : CSPModel) (cur : Nat → Nat) (a : Assign) :
    List Nat → Store → Removals → Store × Removals × Bool
  | [], σ, rs => (σ, rs, true)
  | n :: rest, σ, rs =>
    if (alookup a n).isSome then sfcNeighbors csp cur a rest σ rs
    else
      let t := spruneFilter csp cur (fun _ nv => isConsistent csp n nv a) n σ rs
      if sdget csp cur t.1 n = ∅ then (t.1, t.2.1, false)
      else sfcNeighbors csp cur a rest t.1 t.2.1

/-- `_forward_check` over the store. -/
def sforwardCheck (csp : CSPModel) (cur : Nat → Nat) (var : Nat) (a : Assign)
    (σ : Store) (rs : Removals) : Store × Removals × Bool :=
  sfcNeighbors csp cur a (neighborsOf csp var) σ rs

/-- `_restrict_to_assignment` over the store. -/
def srestrictToAssignment (csp : CSPModel) (cur : Nat → Nat) (var value : Nat)
    (σ : Store) (rs : Removals) : Store × Removals × Bool :=
  if value ∉ sdget csp cur σ var then (σ, rs, false)
  else
    let t := spruneFilter csp cur (fun _ other => other = value) var σ rs
    (t.1, t.2.1, true)

/-- Dispatch one technique handler over the store. -/
def srunTechnique (csp : CSPModel) (cur : Nat → Nat) (t : Tech) (var : Nat) (a : Assign)
    (σ : Store) (rs : Removals) : Store × Removals × Bool :=
  match t with
  | Tech.fc => sforwardCheck csp cur var a σ rs
  | Tech.cp => sconstraintPropagation csp cur var a σ rs
  | Tech.ac3 => sarcConsistency csp cur var a σ rs

/-- The technique chain over the store. -/
def srunTechniques (csp : CSPModel) (cur : Nat → Nat) (var : Nat) (a : Assign) :
    List Tech → Store → Removals → Store × Removals × Bool
  | [], σ, rs => (σ, rs, true)
  | t :: rest, σ, rs =>
    let r := srunTechnique csp cur t var a σ rs
    if r.2.2 then srunTechniques csp cur var a rest r.1 r.2.1
    else (r.1, r.2.1, false)

/-- `_apply_inference` over the store. -/
def sapplyInference (csp : CSPModel) (cur : Nat → Nat) (techs : List Tech) (var : Nat)
    (a : Assign) (σ : Store) (rs : Removals) : Store × Removals × Bool :=
  let r0 := srestrictToAssignment csp cur var ((alookup a var).getD 0) σ rs
  if r0.2.2 then srunTechniques csp cur var a techs r0.1 r0.2.1
  else (r0.1, r0.2.1, false)

/-- The selection order of `_select_unassigned_variable` over the store. -/
def sibKeyLe (csp : CSPModel) (cur : Nat → Nat) (σ : Store) (u w : Nat) : Prop :=
  (sdget csp cur σ u).card < (sdget csp cur σ w).card ∨
    ((sdget csp cur σ u).card = (sdget csp cur σ w).card ∧ u ≤ w)

instance (csp : CSPModel) (cur : Nat → Nat) (σ : Store) :
    DecidableRel (sibKeyLe csp cur σ) := fun u w => by
  unfold sibKeyLe; infer_instance

/-- `_select_unassigned_variable` over the store. -/
def sibSelectVar (csp : CSPModel) (cur : Nat → Nat) (σ : Store) (a : Assign) : Option Nat :=
  ((csp.vars.filter (fun v => (alookup a v).isNone)).insertionSort
    (sibKeyLe csp cur σ)).head?

/-- `_order_values` over the store. -/
def sibOrderValues (csp : CSPModel) (cur : Nat → Nat) (σ : Store) (var : Nat) : List Nat :=
  fiter (sdget csp cur σ var)

/-- The value loop of `_backtrack` over the store. -/
def sibTryValues (csp : CSPModel) (cur : Nat → Nat) (techs : List Tech)
    (rec : Assign → Store → Option Assign × Store)
    (a : Assign) (var : Nat) : Store → List Nat → Option Assign × Store
  | σ, [] => (none, σ)
  | σ, value :: rest =>
    if ¬ isConsistent csp var value a then sibTryValues csp cur techs rec a var σ rest
    else
      match sapplyInference csp cur techs var ((var, value) :: a) σ [] with
      | (σ1, rs1, true) =>
        match rec ((var, value) :: a) σ1 with
        | (some r, σ2) => (some r, σ2)
        | (none, σ2) => sibTryValues csp cur techs rec a var (srestore csp cur rs1 σ2) rest
      | (σ1, rs1, false) => sibTryValues csp cur techs rec a var (srestore csp cur rs1 σ1) rest

/-- `_backtrack` over the store. -/
def sibBacktrack (csp : CSPModel) (cur : Nat → Nat) (techs : List Tech) :
    Nat → Assign → Store → Option Assign × Store
  | fuel, a, σ =>
    if a.length = csp.vars.length then (some a, σ)
    else
      match fuel with
      | 0 => (none, σ)
      | Nat.succ f =>
        match sibSelectVar csp cur σ a with
        | none => (none, σ)
        | some var =>
          sibTryValues csp cur techs (sibBacktrack csp cur techs f) a var σ
            (sibOrderValues csp cur σ var)

/-- `_prepare` over the store: allocate the working copies at the `cur`
addresses, each a fresh copy of the CSP's own domain set at its `cspa`
address. -/
def sprepare (csp : CSPModel) (cur cspa : Nat → Nat) (σ : Store) : Store :=
  csp.vars.foldl (fun acc v => swrite acc (cur v) (σ.mem (cspa v))) σ

/-- `solve_with_metrics` over the store, without the pure counters:
prepare the working copies, then search. -/
def ssolveRun (csp : CSPModel) (techs : List Tech) (cur cspa : Nat → Nat)
    (σ : Store) : Option Assign × Store :=
  sibBacktrack csp cur techs csp.vars.length [] (sprepare csp cur cspa σ)

lemma scpLoop_nil (csp : CSPModel) (cur : Nat → Nat) (a : Assign) (σ : Store)
    (rs : Removals) : scpLoop csp cur a σ rs [] = (σ, rs, true) := by
  rw [scpLoop]

lemma scpLoop_cons_fail {csp : CSPModel} {cur : Nat → Nat} {a : Assign} {σ σ' : Store}
    {rs rs' : Removals} {current : Nat} {queue app : List Nat}
    (h : scpProcessNeighbors csp cur a (neighborsOf csp current) σ rs [] =
      (σ', rs', false, app)) :
    scpLoop csp cur a σ rs (current :: queue) = (σ', rs', false) := by
  rw [scpLoop, h]

lemma scpLoop_cons_ok {csp : CSPModel} {cur : Nat → Nat} {a : Assign} {σ σ' : Store}
    {rs rs' : Removals} {current : Nat} {queue appended : List Nat}
    (h : scpProcessNeighbors csp cur a (neighborsOf csp current) σ rs [] =
      (σ', rs', true, appended)) :
    scpLoop csp cur a σ rs (current :: queue) = scpLoop csp cur a σ' rs' (queue ++ appended) := by
  rw [scpLoop, h]

lemma sac3Loop_nil (csp : CSPModel) (cur : Nat → Nat) (a : Assign) (σ : Store)
    (rs : Removals) : sac3Loop csp cur a σ rs [] = (σ, rs, true) := by
  rw [sac3Loop]

lemma sac3Loop_cons_same (csp : CSPModel) (cur : Nat → Nat) (a : Assign) (σ : Store)
    (rs : Removals) (xj : Nat) (rest : List (Nat × Nat)) :
    sac3Loop csp cur a σ rs ((xj, xj) :: rest) = sac3Loop csp cur a σ rs rest := by
  rw [sac3Loop, if_pos rfl]

lemma sac3Loop_cons_skip {csp : CSPModel} {cur : Nat → Nat} {a : Assign} {σ : Store}
    {rs : Removals} {xi xj : Nat} {rest : List (Nat × Nat)} (hne : xi ≠ xj)
    (hmem : ¬ (xi ∈ csp.vars ∧ xj ∈ csp.vars)) :
    sac3Loop csp cur a σ rs ((xi, xj) :: rest) = sac3Loop csp cur a σ rs rest := by
  rw [sac3Loop, if_neg hne, if_pos hmem]

lemma sac3Loop_cons_fail {csp : CSPModel} {cur : Nat → Nat} {a : Assign} {σ σ' : Store}
    {rs rs' : Removals} {xi xj : Nat} {rest : List (Nat × Nat)} (hne : xi ≠ xj)
    (hmem : xi ∈ csp.vars ∧ xj ∈ csp.vars)
    (hrev : srevise csp cur a xi xj σ rs = (σ', rs', true))
    (hemp : sdget csp cur σ' xi = ∅) :
    sac3Loop csp cur a σ rs ((xi, xj) :: rest) = (σ', rs', false) := by
  rw [sac3Loop, if_neg hne, if_neg (not_not_intro hmem), hrev]
  simp only [hemp, if_pos]

lemma sac3Loop_cons_requeue {csp : CSPModel} {cur : Nat → Nat} {a : Assign} {σ σ' : Store}
    {rs rs' : Removals} {xi xj : Nat} {rest : List (Nat × Nat)} (hne : xi ≠ xj)
    (hmem : xi ∈ csp.vars ∧ xj ∈ csp.vars)
    (hrev : srevise csp cur a xi xj σ rs = (σ', rs', true))
    (hemp : sdget csp cur σ' xi ≠ ∅) :
    sac3Loop csp cur a σ rs ((xi, xj) :: rest) =
      sac3Loop csp cur a σ' rs'
        (rest ++ (neighborsOf csp xi).filterMap
          (fun xk => if xk = xj then none else some (xk, xi))) := by
  rw [sac3Loop, if_neg hne, if_neg (not_not_intro hmem), hrev]
  simp only [hemp, if_neg, not_false_iff]

lemma sac3Loop_cons_norevise {csp : CSPModel} {cur : Nat → Nat} {a : Assign} {σ σ' : Store}
    {rs rs' : Removals} {xi xj : Nat} {rest : List (Nat × Nat)} (hne : xi ≠ xj)
    (hmem : xi ∈ csp.vars ∧ xj ∈ csp.vars)
    (hrev : srevise csp cur a xi xj σ rs = (σ', rs', false)) :
    sac3Loop csp cur a σ rs ((xi, xj) :: rest) = sac3Loop csp cur a σ' rs' rest := by
  rw [sac3Loop, if_neg hne, if_neg (not_not_intro hmem), hrev]

/-! Frame lemmas: every store mutation of the solver happens through
`sdupdate`, hence at the address of some variable's working copy. -/

lemma sdupdate_frame {csp : CSPModel} {cur : Nat → Nat} {addr : Nat}
    (h : ∀ v ∈ csp.vars, cur v ≠ addr) (σ : Store) (v : Nat) (s : Finset Nat) :
    (sdupdate csp cur σ v s).mem addr = σ.mem addr := by
  unfold sdupdate
  by_cases hv : v ∈ csp.vars
  · rw [if_pos hv]
    exact swrite_mem_ne σ _ _ (fun he => h v hv he.symm)
  · rw [if_neg hv]

lemma sprune_frame {csp : CSPModel} {cur : Nat → Nat} {addr : Nat}
    (h : ∀ v ∈ csp.vars, cur v ≠ addr) (σ : Store) (v x : Nat) (rs : Removals) :
    (sprune csp cur σ v x rs).1.mem addr = σ.mem addr := by
  unfold sprune
  by_cases hx : x ∈ sdget csp cur σ v
  · rw [if_pos hx]
    exact sdupdate_frame h σ v _
  · rw [if_neg hx]

lemma srestore_frame {csp : CSPModel} {cur : Nat → Nat} {addr : Nat}
    (h : ∀ v ∈ csp.vars, cur v ≠ addr) (rs : Removals) (σ : Store) :
    (srestore csp cur rs σ).mem addr = σ.mem addr := by
  induction rs with
  | nil => rfl
  | cons p rest ih =>
    unfold srestore at ih ⊢
    simp only [List.foldr_cons]
    rw [sdupdate_frame h]
    exact ih

lemma spruneFilterGo_frame {csp : CSPModel} {cur : Nat → Nat} {addr : Nat}
    (h : ∀ v ∈ csp.vars, cur v ≠ addr) (keep : Store → Nat → Bool) (v : Nat)
    (l : List Nat) :
    ∀ (σ : Store) (rs : Removals) (flag : Bool),
      (spruneFilterGo csp cur keep v l σ rs flag).1.mem addr = σ.mem addr := by
  induction l with
  | nil => intro σ rs flag; rfl
  | cons x rest ih =>
    intro σ rs flag
    by_cases hk : keep σ x
    · rw [spruneFilterGo_cons_keep hk]
      exact ih σ rs flag
    · rw [Bool.not_eq_true] at hk
      by_cases hx : x ∈ sdget csp cur σ v
      · rw [spruneFilterGo_cons_mem hk hx]
        rw [ih _ _ _]
        exact sdupdate_frame h σ v _
      · rw [spruneFilterGo_cons_notmem hk hx]
        exact ih σ rs flag

lemma spruneFilter_frame {csp : CSPModel} {cur : Nat → Nat} {addr : Nat}
    (h : ∀ v ∈ csp.vars, cur v ≠ addr) (keep : Store → Nat → Bool) (v : Nat)
    (σ : Store) (rs : Removals) :
    (spruneFilter csp cur keep v σ rs).1.mem addr = σ.mem addr :=
  spruneFilterGo_frame h keep v _ σ rs false

lemma sfcNeighbors_frame {csp : CSPModel} {cur : Nat → Nat} {addr : Nat}
    (h : ∀ v ∈ csp.vars, cur v ≠ addr) (a : Assign) (ns : List Nat) :
    ∀ (σ : Store) (rs : Removals),
      (sfcNeighbors csp cur a ns σ rs).1.mem addr = σ.mem addr := by
  induction ns with
  | nil => intro σ rs; rfl
  | cons n rest ih =>
    intro σ rs
    by_cases ha : (alookup a n).isSome
    · simp only [sfcNeighbors, ha, if_pos]
      exact ih σ rs
    · simp only [sfcNeighbors, ha, if_neg, Bool.not_eq_true]
      set t := spruneFilter csp cur (fun _ nv => isConsistent csp n nv a) n σ rs with ht
      by_cases he : sdget csp cur t.1 n = ∅
      · simp only [he, if_pos]
        exact spruneFilter_frame h _ n σ rs
      · simp only [he, if_neg, not_false_iff]
        rw [ih t.1 t.2.1]
        exact spruneFilter_frame h _ n σ rs

lemma scpProcessNeighbors_frame {csp : CSPModel} {cur : Nat → Nat} {addr : Nat}
    (h : ∀ v ∈ csp.vars, cur v ≠ addr) (a : Assign) (ns : List Nat) :
    ∀ (σ : Store) (rs : Removals) (app : List Nat),
      (scpProcessNeighbors csp cur a ns σ rs app).1.mem addr = σ.mem addr := by
  induction ns with
  | nil => intro σ rs app; rfl
  | cons n rest ih =>
    intro σ rs app
    by_cases ha : (alookup a n).isSome
    · simp only [scpProcessNeighbors, ha, if_pos]
      exact ih σ rs app
    · simp only [scpProcessNeighbors, ha, if_neg, Bool.not_eq_true]
      set t := spruneFilter csp cur (fun _ nv => isConsistent csp n nv a) n σ rs with ht
      by_cases he : sdget csp cur t.1 n = ∅
      · simp only [he, if_pos]
        exact spruneFilter_frame h _ n σ rs
      · simp only [he, if_neg, not_false_iff]
        rw [ih t.1 t.2.1 _]
        exact spruneFilter_frame h _ n σ rs

lemma scpLoop_frame {csp : CSPModel} {cur : Nat → Nat} {addr : Nat}
    (h : ∀ v ∈ csp.vars, cur v ≠ addr) (a : Assign) (σ : Store) (rs : Removals)
    (q : List Nat) : (scpLoop csp cur a σ rs q).1.mem addr = σ.mem addr := by
  induction σ, rs, q using scpLoop.induct csp cur a with
  | case1 σ rs =>
    rw [scpLoop_nil]
  | case2 σ rs current queue σ' rs' app hpn =>
    rw [scpLoop_cons_fail hpn]
    have := scpProcessNeighbors_frame h a (neighborsOf csp current) σ rs []
    rw [hpn] at this
    exact this
  | case3 σ rs current queue σ' rs' appended hpn ih =>
    rw [scpLoop_cons_ok hpn]
    rw [ih]
    have := scpProcessNeighbors_frame h a (neighborsOf csp current) σ rs []
    rw [hpn] at this
    exact this

lemma sac3Loop_frame {csp : CSPModel} {cur : Nat → Nat} {addr : Nat}
    (h : ∀ v ∈ csp.vars, cur v ≠ addr) (a : Assign) (σ : Store) (rs : Removals)
    (q : List (Nat × Nat)) : (sac3Loop csp cur a σ rs q).1.mem addr = σ.mem addr := by
  induction σ, rs, q using sac3Loop.induct csp cur a with
  | case1 σ rs =>
    rw [sac3Loop_nil]
  | case2 σ rs xj rest ih =>
    rw [sac3Loop_cons_same]
    exact ih
  | case3 σ rs xi xj rest hne hmem ih =>
    rw [sac3Loop_cons_skip hne hmem]
    exact ih
  | case4 σ rs xi xj rest hne hmem σ' rs' hrev hemp =>
    rw [sac3Loop_cons_fail hne (not_not.mp hmem) hrev hemp]
    have := spruneFilter_frame h
      (fun σ'' value => shasSupport csp cur σ'' a xi value xj) xi σ rs
    rw [show spruneFilter csp cur (fun σ'' value => shasSupport csp cur σ'' a xi value xj)
      xi σ rs = srevise csp cur a xi xj σ rs from rfl, hrev] at this
    exact this
  | case5 σ rs xi xj rest hne hmem σ' rs' hrev hemp ih =>
    rw [sac3Loop_cons_requeue hne (not_not.mp hmem) hrev hemp]
    have ih' : (sac3Loop csp cur a σ' rs'
        (rest ++ (neighborsOf csp xi).filterMap
          (fun xk => if xk = xj then none else some (xk, xi)))).1.mem addr =
        σ'.mem addr := ih
    rw [ih']
    have := spruneFilter_frame h
      (fun σ'' value => shasSupport csp cur σ'' a xi value xj) xi σ rs
    rw [show spruneFilter csp cur (fun σ'' value => shasSupport csp cur σ'' a xi value xj)
      xi σ rs = srevise csp cur a xi xj σ rs from rfl, hrev] at this
    exact this
  | case6 σ rs xi xj rest hne hmem σ' rs' hrev ih =>
    rw [sac3Loop_cons_norevise hne (not_not.mp hmem) hrev]
    rw [ih]
    have := spruneFilter_frame h
      (fun σ'' value => shasSupport csp cur σ'' a xi value xj) xi σ rs
    rw [show spruneFilter csp cur (fun σ'' value => shasSupport csp cur σ'' a xi value xj)
      xi σ rs = srevise csp cur a xi xj σ rs from rfl, hrev] at this
    exact this

lemma srestrictToAssignment_frame {csp : CSPModel} {cur : Nat → Nat} {addr : Nat}
    (h : ∀ v ∈ csp.vars, cur v ≠ addr) (var value : Nat) (σ : Store) (rs : Removals) :
    (srestrictToAssignment csp cur var value σ rs).1.mem addr = σ.mem addr := by
  unfold srestrictToAssignment
  by_cases hx : value ∉ sdget csp cur σ var
  · rw [if_pos hx]
  · rw [if_neg hx]
    exact spruneFilter_frame h _ var σ rs

lemma srunTechnique_frame {csp : CSPModel} {cur : Nat → Nat} {addr : Nat}
    (h : ∀ v ∈ csp.vars, cur v ≠ addr) (t : Tech) (var : Nat) (a : Assign)
    (σ : Store) (rs : Removals) :
    (srunTechnique csp cur t var a σ rs).1.mem addr = σ.mem addr := by
  cases t with
  | fc => exact sfcNeighbors_frame h a _ σ rs
  | cp => exact scpLoop_frame h a σ rs [var]
  | ac3 => exact sac3Loop_frame h a σ rs _

lemma srunTechniques_frame {csp : CSPModel} {cur : Nat → Nat} {addr : Nat}
    (h : ∀ v ∈ csp.vars, cur v ≠ addr) (var : Nat) (a : Assign) (ts : List Tech) :
    ∀ (σ : Store) (rs : Removals),
      (srunTechniques csp cur var a ts σ rs).1.mem addr = σ.mem addr := by
  induction ts with
  | nil => intro σ rs; rfl
  | cons t rest ih =>
    intro σ rs
    simp only [srunTechniques]
    set r := srunTechnique csp cur t var a σ rs with hr
    by_cases hok : r.2.2
    · rw [if_pos hok, ih r.1 r.2.1]
      exact srunTechnique_frame h t var a σ rs
    · rw [if_neg hok]
      exact srunTechnique_frame h t var a σ rs

lemma sapplyInference_frame {csp : CSPModel} {cur : Nat → Nat} {addr : Nat}
    (h : ∀ v ∈ csp.vars, cur v ≠ addr) (techs : List Tech) (var : Nat) (a : Assign)
    (σ : Store) (rs : Removals) :
    (sapplyInference csp cur techs var a σ rs).1.mem addr = σ.mem addr := by
  unfold sapplyInference
  set r0 := srestrictToAssignment csp cur var ((alookup a var).getD 0) σ rs with hr0
  by_cases hok : r0.2.2
  · simp only [hok, if_pos]
    rw [srunTechniques_frame h var a techs r0.1 r0.2.1]
    exact srestrictToAssignment_frame h _ _ σ rs
  · simp only [hok, if_neg, Bool.not_eq_true]
    exact srestrictToAssignment_frame h _ _ σ rs

lemma sibTryValues_nil (csp : CSPModel) (cur : Nat → Nat) (techs : List Tech)
    (rec : Assign → Store → Option Assign × Store) (a : Assign) (var : Nat) (σ : Store) :
    sibTryValues csp cur techs rec a var σ [] = (none, σ) := rfl

lemma sibTryValues_cons_skip {csp : CSPModel} {cur : Nat → Nat} {techs : List Tech}
    {rec : Assign → Store → Option Assign × Store} {a : Assign} {var v : Nat}
    {σ : Store} {rest : List Nat} (hc : ¬ isConsistent csp var v a = true) :
    sibTryValues csp cur techs rec a var σ (v :: rest) =
      sibTryValues csp cur techs rec a var σ rest := by
  simp only [sibTryValues]
  rw [if_pos (by simp [hc])]

lemma sibTryValues_cons_found {csp : CSPModel} {cur : Nat → Nat} {techs : List Tech}
    {rec : Assign → Store → Option Assign × Store} {a : Assign} {var v : Nat}
    {σ σ1 σ2 : Store} {rs1 : Removals} {rest : List Nat} {r : Assign}
    (hc : isConsistent csp var v a = true)
    (happ : sapplyInference csp cur techs var ((var, v) :: a) σ [] = (σ1, rs1, true))
    (hr : rec ((var, v) :: a) σ1 = (some r, σ2)) :
    sibTryValues csp cur techs rec a var σ (v :: rest) = (some r, σ2) := by
  simp only [sibTryValues]
  rw [if_neg (by simp [hc])]
  simp only [happ, hr]

lemma sibTryValues_cons_deeperfail {csp : CSPModel} {cur : Nat → Nat} {techs : List Tech}
    {rec : Assign → Store → Option Assign × Store} {a : Assign} {var v : Nat}
    {σ σ1 σ2 : Store} {rs1 : Removals} {rest : List Nat}
    (hc : isConsistent csp var v a = true)
    (happ : sapplyInference csp cur techs var ((var, v) :: a) σ [] = (σ1, rs1, true))
    (hr : rec ((var, v) :: a) σ1 = (none, σ2)) :
    sibTryValues csp cur techs rec a var σ (v :: rest) =
      sibTryValues csp cur techs rec a var (srestore csp cur rs1 σ2) rest := by
  simp only [sibTryValues]
  rw [if_neg (by simp [hc])]
  simp only [happ, hr]

lemma sibTryValues_cons_inffail {csp : CSPModel} {cur : Nat → Nat} {techs : List Tech}
    {rec : Assign → Store → Option Assign × Store} {a : Assign} {var v : Nat}
    {σ σ1 : Store} {rs1 : Removals} {rest : List Nat}
    (hc : isConsistent csp var v a = true)
    (happ : sapplyInference csp cur techs var ((var, v) :: a) σ [] = (σ1, rs1, false)) :
    sibTryValues csp cur techs rec a var σ (v :: rest) =
      sibTryValues csp cur techs rec a var (srestore csp cur rs1 σ1) rest := by
  simp only [sibTryValues]
  rw [if_neg (by simp [hc])]
  simp only [happ]

lemma sibTryValues_frame {csp : CSPModel} {cur : Nat → Nat} {addr : Nat}
    (h : ∀ v ∈ csp.vars, cur v ≠ addr) {techs : List Tech}
    {rec : Assign → Store → Option Assign × Store}
    (hrec : ∀ a' σ', ((rec a' σ').2).mem addr = σ'.mem addr) (a : Assign) (var : Nat) :
    ∀ (vals : List Nat) (σ : Store),
      ((sibTryValues csp cur techs rec a var σ vals).2).mem addr = σ.mem addr := by
  intro vals
  induction vals with
  | nil => intro σ; rfl
  | cons v rest ih =>
    intro σ
    by_cases hc : isConsistent csp var v a = true
    · rcases happ : sapplyInference csp cur techs var ((var, v) :: a) σ [] with ⟨σ1, rs1, ok⟩
      have hσ1 : σ1.mem addr = σ.mem addr := by
        have := sapplyInference_frame h techs var ((var, v) :: a) σ []
        rw [happ] at this
        exact this
      cases ok with
      | true =>
        rcases hr : rec ((var, v) :: a) σ1 with ⟨o, σ2⟩
        have hσ2 : σ2.mem addr = σ1.mem addr := by
          have := hrec ((var, v) :: a) σ1
          rw [hr] at this
          exact this
        cases o with
        | some r =>
          rw [sibTryValues_cons_found hc happ hr]
          rw [show ((some r, σ2) : Option Assign × Store).2 = σ2 from rfl]
          rw [hσ2, hσ1]
        | none =>
          rw [sibTryValues_cons_deeperfail hc happ hr]
          rw [ih (srestore csp cur rs1 σ2)]
          rw [srestore_frame h rs1 σ2, hσ2, hσ1]
      | false =>
        rw [sibTryValues_cons_inffail hc happ]
        rw [ih (srestore csp cur rs1 σ1)]
        rw [srestore_frame h rs1 σ1, hσ1]
    · rw [sibTryValues_cons_skip hc]
      exact ih σ

lemma sibBacktrack_frame {csp : CSPModel} {cur : Nat → Nat} {addr : Nat}
    (h : ∀ v ∈ csp.vars, cur v ≠ addr) (techs : List Tech) :
    ∀ (fuel : Nat) (a : Assign) (σ : Store),
      ((sibBacktrack csp cur techs fuel a σ).2).mem addr = σ.mem addr := by
  intro fuel
  induction fuel with
  | zero =>
    intro a σ
    rw [sibBacktrack]
    by_cases hcomp : a.length = csp.vars.length
    · rw [if_pos hcomp]
    · rw [if_neg hcomp]
  | succ f ih =>
    intro a σ
    rw [sibBacktrack]
    by_cases hcomp : a.length = csp.vars.length
    · rw [if_pos hcomp]
    · rw [if_neg hcomp]
      cases hsel : sibSelectVar csp cur σ a with
      | none => rfl
      | some var =>
        exact sibTryValues_frame h (fun a' σ' => ih a' σ') a var
          (sibOrderValues csp cur σ var) σ

lemma sprepare_frame {csp : CSPModel} {cur cspa : Nat → Nat} {addr : Nat}
    (h : ∀ v ∈ csp.vars, cur v ≠ addr) (σ : Store) :
    (sprepare csp cur cspa σ).mem addr = σ.mem addr := by
  unfold sprepare
  suffices hgen : ∀ (l : List Nat), (∀ v ∈ l, cur v ≠ addr) → ∀ (acc : Store),
      (l.foldl (fun acc v => swrite acc (cur v) (σ.mem (cspa v))) acc).mem addr =
        acc.mem addr by
    exact hgen csp.vars h σ
  intro l
  induction l with
  | nil => intro _ acc; rfl
  | cons x xs ih =>
    intro hl acc
    simp only [List.foldl_cons]
    rw [ih (fun v hv => hl v (List.mem_cons_of_mem x hv))]
    exact swrite_mem_ne acc _ _ (fun he => hl x (List.mem_cons_self x xs) he.symm)

/-- C10.  Frame property of `solve_with_metrics`: the whole run — `_prepare`
building the private working copies, the search, all pruning and all trail
replay — writes only at the addresses `cur v` of the solver's own working
copies of the CSP variables.  Provided the fresh copies are allocated apart
from the CSP's own domain sets (which `set(domain)` guarantees in Python),
every CSP domain set at its address `cspa w` reads back unchanged after the
call, whether or not a solution was found; the CSP's variables and
constraints are pure inputs the store model never aliases. -/
theorem c10_solve_frame (csp : CSPModel) (techs : List Tech) (cur cspa : Nat → Nat)
    (σ : Store) (hfresh : ∀ v ∈ csp.vars, ∀ w, cur v ≠ cspa w) :
    ∀ w, (ssolveRun csp techs cur cspa σ).2.mem (cspa w) = σ.mem (cspa w) := by
  intro w
  unfold ssolveRun
  have hprot : ∀ v ∈ csp.vars, cur v ≠ cspa w := fun v hv => hfresh v hv w
  rw [sibBacktrack_frame hprot techs csp.vars.length [] (sprepare csp cur cspa σ)]
  exact sprepare_frame hprot σ

/-- A concrete store: the CSP's own domain set lives at address 0. -/
def σ10 : Store := ⟨fun b => if b = 0 then ({1, 2} : Finset Nat) else ∅⟩

/-- C10 witness: on the one-variable instance with its domain set at address
0 and the working copy at address 1, the run leaves address 0 untouched. -/
theorem c10_solve_frame_witness :
    (ssolveRun csp3 [] (fun v => v + 1) (fun _ => 0) σ10).2.mem 0 = σ10.mem 0 :=
  c10_solve_frame csp3 [] (fun v => v + 1) (fun _ => 0) σ10
    (fun v _ w => Nat.succ_ne_zero v) 0
